import Mathlib

/-!
Verification development for the untex LaTeX token pipeline:
the tokenizer (src/lib/latex/token.rs), the highlighter family
(src/lib/latex/highlight.rs) and the formatter family
(src/lib/latex/format.rs), shallowly embedded over `List Char`
with byte spans as `Nat` ranges (all rule patterns are ASCII,
so char indices and byte indices coincide on the inputs considered).
-/

set_option autoImplicit false

namespace Untex

/-- Half-open range `[start, stop)` into the source, mirroring `logos::Span`
(a `Range<usize>`). -/
structure Span where
  start : Nat
  stop : Nat
deriving DecidableEq, Repr

/-- The `Token` enumeration of src/lib/latex/token.rs.  The two environment
variants carry the environment name (the substring strictly between the
braces of the matched lexeme); `OwnedString` carries synthetic text produced
by formatters. -/
inductive Token where
  | And
  | Asterix
  | At
  | BraceOpen
  | BraceClose
  | BracketClose
  | BracketOpen
  | Colon
  | Comma
  | CommandName
  | Comment
  | DisplayMathClose
  | DisplayMathOpen
  | DocumentClass
  | DollarSign
  | Dot
  | DoubleBackslash
  | DoubleDollarSign
  | EnvironmentBegin (name : List Char)
  | EnvironmentEnd (name : List Char)
  | EqualSign
  | EscapedChar
  | ExclamationMark
  | Hash
  | Hat
  | Hyphen
  | InlineMathClose
  | InlineMathOpen
  | InsertSpace
  | InvalidCommand
  | Newline
  | Number
  | Other
  | OwnedString (s : List Char)
  | ParenClose
  | ParenOpen
  | PlusSign
  | QuestionMark
  | Semicolon
  | TabsOrSpaces
  | Tilde
  | Underscore
  | Word
deriving DecidableEq, Repr

/-- A token together with its span, mirroring `type SpannedToken<'source> =
(Token<'source>, Span)`. -/
abbrev SpannedToken := Token × Span

/-- ASCII letter class `[a-zA-Z]` used by the lexer rules. -/
def isLatinLetter (c : Char) : Bool :=
  (decide ('a' ≤ c) && decide (c ≤ 'z')) || (decide ('A' ≤ c) && decide (c ≤ 'Z'))

/-- ASCII digit class `[0-9]`. -/
def isAsciiDigit (c : Char) : Bool :=
  decide ('0' ≤ c) && decide (c ≤ '9')

/-- The class `[ \t]` of the `TabsOrSpaces` rule. -/
def isTabOrSpace (c : Char) : Bool :=
  decide (c = ' ') || decide (c = '\t')

/-- Length of the maximal run of ASCII letters at the head of the list. -/
def letterRun (cs : List Char) : Nat :=
  (cs.takeWhile isLatinLetter).length

/-- Length of the maximal run of ASCII digits at the head of the list. -/
def digitRun (cs : List Char) : Nat :=
  (cs.takeWhile isAsciiDigit).length

/-- Length of the maximal run of tabs and spaces at the head of the list. -/
def spaceRun (cs : List Char) : Nat :=
  (cs.takeWhile isTabOrSpace).length

/-- Scans `name}` or `name*}` right after the opening brace of
`\begin{`/`\end{`, per the patterns `r"\\begin\{[a-zA-Z]+\*?\}"` and
`r"\\end\{[a-zA-Z]+\*?\}"`: at least one letter, an optional trailing
star, then the closing brace.  Returns the payload (letters plus the
optional star, exactly the `slice[..len - 1]` suffix extraction of the
source callbacks) and the number of characters consumed after the opening
brace (including the closing brace), or `none` when the pattern does not
match. -/
def envTail (cs : List Char) : Option (List Char × Nat) :=
  let letters := cs.takeWhile isLatinLetter
  if letters.length = 0 then none
  else
    match cs.drop letters.length with
    | '*' :: '}' :: _ => some (letters ++ ['*'], letters.length + 2)
    | '}' :: _ => some (letters, letters.length + 1)
    | _ => none

/-- Attempts the two environment rules on the text following a backslash.
Returns the produced token and the total lexeme length (including the
backslash) on success. -/
def envScan (cs : List Char) : Option (Token × Nat) :=
  if ('b' :: 'e' :: 'g' :: 'i' :: 'n' :: '{' :: []).isPrefixOf cs then
    match envTail (cs.drop 6) with
    | some (name, k) => some (Token.EnvironmentBegin name, 7 + k)
    | none => none
  else if ('e' :: 'n' :: 'd' :: '{' :: []).isPrefixOf cs then
    match envTail (cs.drop 4) with
    | some (name, k) => some (Token.EnvironmentEnd name, 5 + k)
    | none => none
  else none

/-- The characters an `EscapedChar` lexeme may escape: `{ } _ $ & % #`. -/
def isEscapable (c : Char) : Bool :=
  decide (c = '{') || decide (c = '}') || decide (c = '_') || decide (c = '$') ||
    decide (c = '&') || decide (c = '%') || decide (c = '#')

/-- The characters an `InsertSpace` lexeme may escape: `, : ; !` and space. -/
def isSpaceEscape (c : Char) : Bool :=
  decide (c = ',') || decide (c = ':') || decide (c = ';') || decide (c = '!') ||
    decide (c = ' ')

/-- Longest-match selection among the letter-initial continuations of a
backslash: the two environment rules and the `\documentclass` literal win
over the generic `r"\\[a-zA-Z]+"` `CommandName` rule exactly when they match
at least as long a lexeme (an environment lexeme is always strictly longer
than the letter run, and `\documentclass` ties the letter run at length 14,
winning by declared priority).  Input is the text after the backslash,
output the token and total lexeme length including the backslash. -/
def matchCommandLike (cs : List Char) : Token × Nat :=
  match envScan cs with
  | some (t, n) => (t, n)
  | none =>
    if ("documentclass".toList.isPrefixOf cs && letterRun cs = 13) then
      (Token.DocumentClass, 14)
    else (Token.CommandName, 1 + letterRun cs)

/-- Longest-match classification of the text following a backslash; returns
the chosen token and the total lexeme length including the backslash.
Encodes the maximal-munch/priority behaviour of the `logos`-generated
scanner over the backslash-initial rules of `Token`: two-character literals
(`\\`, escaped characters, insert-space escapes, the four math delimiters)
beat the one-character-suffix regex `InvalidCommand`; among letter-initial
continuations the environment rules and the `\documentclass` literal beat
`CommandName` exactly when they match at least as long a lexeme. -/
def matchBackslash (cs : List Char) : Token × Nat :=
  match cs with
  | [] => (Token.Other, 1)
  | d :: _ =>
    if d = '\\' then (Token.DoubleBackslash, 2)
    else if isEscapable d then (Token.EscapedChar, 2)
    else if isSpaceEscape d then (Token.InsertSpace, 2)
    else if d = '[' then (Token.DisplayMathOpen, 2)
    else if d = ']' then (Token.DisplayMathClose, 2)
    else if d = '(' then (Token.InlineMathOpen, 2)
    else if d = ')' then (Token.InlineMathClose, 2)
    else if isLatinLetter d then matchCommandLike cs
    else (Token.InvalidCommand, 2)

/-- Classification of a single character that heads no multi-character rule:
the ~20 one-character literal rules of `Token`, with the `#[error]` fallback
`Other` for any character matched by no rule. -/
def singleCharToken (c : Char) : Token :=
  if c = '&' then Token.And
  else if c = '*' then Token.Asterix
  else if c = '@' then Token.At
  else if c = '{' then Token.BraceOpen
  else if c = '}' then Token.BraceClose
  else if c = ']' then Token.BracketClose
  else if c = '[' then Token.BracketOpen
  else if c = ':' then Token.Colon
  else if c = ',' then Token.Comma
  else if c = '.' then Token.Dot
  else if c = '=' then Token.EqualSign
  else if c = '!' then Token.ExclamationMark
  else if c = '#' then Token.Hash
  else if c = '^' then Token.Hat
  else if c = '-' then Token.Hyphen
  else if c = ')' then Token.ParenClose
  else if c = '(' then Token.ParenOpen
  else if c = '+' then Token.PlusSign
  else if c = '?' then Token.QuestionMark
  else if c = ';' then Token.Semicolon
  else if c = '~' then Token.Tilde
  else if c = '_' then Token.Underscore
  else Token.Other

/-- Longest-match classification at the head of the input: returns the token
and the lexeme length (always at least 1).  Any character matched by no rule
falls back to the one-character `Other` token (the `#[error]` variant). -/
def matchTokenAux (c : Char) (cs : List Char) : Token × Nat :=
  if c = '\\' then matchBackslash cs
  else if c = '$' then
    if cs.head? = some '$' then (Token.DoubleDollarSign, 2) else (Token.DollarSign, 1)
  else if c = '%' then (Token.Comment, 1 + (cs.takeWhile (fun x => !decide (x = '\n'))).length)
  else if c = '\n' then (Token.Newline, 1)
  else if c = '\r' then
    if cs.head? = some '\n' then (Token.Newline, 2) else (Token.Other, 1)
  else if isTabOrSpace c then (Token.TabsOrSpaces, 1 + spaceRun cs)
  else if isAsciiDigit c then (Token.Number, 1 + digitRun cs)
  else if isLatinLetter c then (Token.Word, 1 + letterRun cs)
  else (singleCharToken c, 1)

/-- Fuel-indexed scanning loop: classifies the head lexeme, emits it with its
span, and continues after it.  `fuel ≥ length of the input` makes the fuel
irrelevant (`tokenizeF_fuel`). -/
def tokenizeF : Nat → Nat → List Char → List SpannedToken
  | 0, _, _ => []
  | _ + 1, _, [] => []
  | fuel + 1, pos, c :: cs =>
    ((matchTokenAux c cs).1, ⟨pos, pos + (matchTokenAux c cs).2⟩) ::
      tokenizeF fuel (pos + (matchTokenAux c cs).2) (cs.drop ((matchTokenAux c cs).2 - 1))

/-- The tokenizer: `Token::lexer(source).spanned()` materialised as a list. -/
def tokenize (s : List Char) : List SpannedToken :=
  tokenizeF s.length 0 s

/-- The source slice denoted by a span. -/
def sliceDrop (s : List Char) (sp : Span) : List Char :=
  (s.drop sp.start).take (sp.stop - sp.start)

/-- Spans form a gapless, overlap-free chain from `a` to `b`: the first span
starts at `a`, every span is nonempty, each subsequent span starts where the
previous one stopped, and the last span stops at `b`. -/
def spanChain : Nat → List Span → Nat → Prop
  | a, [], b => a = b
  | a, sp :: rest, b => sp.start = a ∧ a < sp.stop ∧ spanChain sp.stop rest b

theorem length_takeWhile_le (p : Char → Bool) (l : List Char) :
    (l.takeWhile p).length ≤ l.length := by
  induction l with
  | nil => simp
  | cons c cs ih =>
    by_cases h : p c
    · simp [List.takeWhile_cons, h]
      omega
    · simp [List.takeWhile_cons, h]

theorem isPrefixOf_length_le {l m : List Char} (h : l.isPrefixOf m) :
    l.length ≤ m.length :=
  (List.isPrefixOf_iff_prefix.mp h).length_le

theorem envTail_le {cs : List Char} {name : List Char} {k : Nat}
    (h : envTail cs = some (name, k)) : k ≤ cs.length := by
  have hl := length_takeWhile_le isLatinLetter cs
  have hd : (cs.drop (cs.takeWhile isLatinLetter).length).length
      = cs.length - (cs.takeWhile isLatinLetter).length := List.length_drop _ _
  dsimp only [envTail] at h
  split at h
  · exact absurd h (by simp)
  · split at h
    · rename_i heq
      simp only [Option.some.injEq, Prod.mk.injEq] at h
      rw [heq] at hd
      simp at hd
      omega
    · rename_i heq
      simp only [Option.some.injEq, Prod.mk.injEq] at h
      rw [heq] at hd
      simp at hd
      omega
    · exact absurd h (by simp)

theorem envScan_bounds {cs : List Char} {t : Token} {n : Nat}
    (h : envScan cs = some (t, n)) : 1 ≤ n ∧ n ≤ 1 + cs.length := by
  unfold envScan at h
  split_ifs at h with hp1 hp2
  · have h6 : 6 ≤ cs.length := by simpa using isPrefixOf_length_le hp1
    have hd : (cs.drop 6).length = cs.length - 6 := List.length_drop _ _
    split at h
    · rename_i name k heq
      simp only [Option.some.injEq, Prod.mk.injEq] at h
      have := envTail_le heq
      omega
    · exact absurd h (by simp)
  · have h4 : 4 ≤ cs.length := by simpa using isPrefixOf_length_le hp2
    have hd : (cs.drop 4).length = cs.length - 4 := List.length_drop _ _
    split at h
    · rename_i name k heq
      simp only [Option.some.injEq, Prod.mk.injEq] at h
      have := envTail_le heq
      omega
    · exact absurd h (by simp)

theorem matchCommandLike_len (cs : List Char) (hcs : cs ≠ []) :
    1 ≤ (matchCommandLike cs).2 ∧ (matchCommandLike cs).2 ≤ 1 + cs.length := by
  have hlen : 1 ≤ cs.length := by
    cases cs with
    | nil => exact absurd rfl hcs
    | cons _ _ => simp
  unfold matchCommandLike
  split
  · rename_i t n hscan
    exact envScan_bounds hscan
  · split_ifs with hdoc
    · rw [Bool.and_eq_true] at hdoc
      have h13 : ("documentclass".toList).length ≤ cs.length :=
        (List.isPrefixOf_iff_prefix.mp hdoc.1).length_le
      simp at h13 ⊢
      omega
    · have := length_takeWhile_le isLatinLetter cs
      simp [letterRun]
      omega

theorem matchBackslash_len (cs : List Char) :
    1 ≤ (matchBackslash cs).2 ∧ (matchBackslash cs).2 ≤ 1 + cs.length := by
  match cs with
  | [] => simp [matchBackslash]
  | d :: ds =>
    simp only [matchBackslash]
    split_ifs with h1 h2 h3 h4 h5 h6 h7 h8
    all_goals try (simp; omega)
    exact matchCommandLike_len (d :: ds) (by simp)

theorem matchTokenAux_len (c : Char) (cs : List Char) :
    1 ≤ (matchTokenAux c cs).2 ∧ (matchTokenAux c cs).2 ≤ 1 + cs.length := by
  have hcom := length_takeWhile_le (fun x => !decide (x = '\n')) cs
  have hsp := length_takeWhile_le isTabOrSpace cs
  have hdg := length_takeWhile_le isAsciiDigit cs
  have hlt := length_takeWhile_le isLatinLetter cs
  have hhead : cs.head? = some '$' ∨ cs.head? = some '\n' → 1 ≤ cs.length := by
    intro h
    cases cs with
    | nil => simp at h
    | cons _ _ => simp
  unfold matchTokenAux
  split_ifs with h1 h2 h3 h4 h5 h6 h7 h8 h9 h10
  · exact matchBackslash_len cs
  · have := hhead (Or.inl h3)
    simp
    omega
  · simp
  · simp [spaceRun, digitRun, letterRun] at *
    omega
  · simp
  · have := hhead (Or.inr h7)
    simp
    omega
  · simp
  · simp [spaceRun, digitRun, letterRun] at *
    omega
  · simp [spaceRun, digitRun, letterRun] at *
    omega
  · simp [spaceRun, digitRun, letterRun] at *
    omega
  · simp

theorem tokenizeF_chain : ∀ (fuel pos : Nat) (u : List Char), u.length ≤ fuel →
    spanChain pos ((tokenizeF fuel pos u).map Prod.snd) (pos + u.length)
  | 0, pos, u, hu => by
    have h0 : u = [] := List.length_eq_zero.mp (Nat.le_zero.mp hu)
    subst h0
    simp [tokenizeF, spanChain]
  | fuel + 1, pos, [], _ => by simp [tokenizeF, spanChain]
  | fuel + 1, pos, c :: cs, hu => by
    have hb := matchTokenAux_len c cs
    have hdrop : (cs.drop ((matchTokenAux c cs).2 - 1)).length
        = cs.length - ((matchTokenAux c cs).2 - 1) := List.length_drop _ _
    have hcount : (c :: cs).length = cs.length + 1 := by simp
    rw [hcount] at hu
    have hrec := tokenizeF_chain fuel (pos + (matchTokenAux c cs).2)
      (cs.drop ((matchTokenAux c cs).2 - 1)) (by omega)
    have he : pos + (matchTokenAux c cs).2 + (cs.drop ((matchTokenAux c cs).2 - 1)).length
        = pos + (c :: cs).length := by
      rw [hdrop, hcount]
      omega
    rw [he] at hrec
    simp only [tokenizeF, List.map_cons]
    refine ⟨rfl, ?_, hrec⟩
    show pos < pos + (matchTokenAux c cs).2
    omega

theorem tokenizeF_concat (s : List Char) : ∀ (fuel pos : Nat),
    (s.drop pos).length ≤ fuel →
    ((tokenizeF fuel pos (s.drop pos)).map (fun p => sliceDrop s p.2)).flatten
      = s.drop pos
  | 0, pos, hu => by
    have h0 : s.drop pos = [] := List.length_eq_zero.mp (Nat.le_zero.mp hu)
    rw [h0]
    simp [tokenizeF]
  | fuel + 1, pos, hu => by
    cases hm : s.drop pos with
    | nil => simp [tokenizeF]
    | cons c cs =>
      have hb := matchTokenAux_len c cs
      have hlen : (s.drop pos).length = cs.length + 1 := by rw [hm]; simp
      have hstep : (c :: cs).drop ((matchTokenAux c cs).2)
          = cs.drop ((matchTokenAux c cs).2 - 1) := by
        rw [show (matchTokenAux c cs).2 = ((matchTokenAux c cs).2 - 1) + 1 by omega,
          List.drop_succ_cons]
        simp
      have hcs : cs.drop ((matchTokenAux c cs).2 - 1)
          = s.drop (pos + (matchTokenAux c cs).2) := by
        rw [← hstep, ← hm, List.drop_drop]
      have hfuel : (s.drop (pos + (matchTokenAux c cs).2)).length ≤ fuel := by
        have h1 : (s.drop (pos + (matchTokenAux c cs).2)).length
            = s.length - (pos + (matchTokenAux c cs).2) := List.length_drop _ _
        have h2 : (s.drop pos).length = s.length - pos := List.length_drop _ _
        rw [hlen] at h2
        rw [hlen] at hu
        omega
      have hrec := tokenizeF_concat s fuel (pos + (matchTokenAux c cs).2) hfuel
      simp only [tokenizeF, List.map_cons, List.flatten_cons]
      rw [show sliceDrop s ⟨pos, pos + (matchTokenAux c cs).2⟩
          = (s.drop pos).take ((matchTokenAux c cs).2) from by simp [sliceDrop]]
      rw [hcs, hrec]
      rw [show s.drop (pos + (matchTokenAux c cs).2)
          = (s.drop pos).drop ((matchTokenAux c cs).2) from by rw [List.drop_drop]]
      rw [List.take_append_drop]
      exact hm

/-- C1.  For every input, the tokenizer terminates with a list of spanned
tokens whose spans form a contiguous, non-overlapping chain covering
`[0, length)` — every position belongs to exactly one span, spans appear in
ascending start order — and concatenating the source slices denoted by the
output spans, in order, reproduces the input exactly. -/
theorem tokenizer_covers_input (s : List Char) :
    spanChain 0 ((tokenize s).map Prod.snd) s.length ∧
    ((tokenize s).map (fun p => sliceDrop s p.2)).flatten = s := by
  constructor
  · simpa using tokenizeF_chain s.length 0 s (le_refl _)
  · have := tokenizeF_concat s s.length 0 (by simp)
    simpa using this

/-- The environment name `"document"`. -/
def docName : List Char := "document".toList

/-- The math-environment names recognised by the math highlighters:
`equation`, `equation*`, `align`, `align*`. -/
def isMathEnvName (n : List Char) : Bool :=
  decide (n = "equation".toList) || decide (n = "equation*".toList) ||
    decide (n = "align".toList) || decide (n = "align*".toList)

/-- State of `MathHighlighter` (and of the display/inline variants): the
`in_math_mode` flag and the recorded closing token. -/
structure MathState where
  inMathMode : Bool
  closingToken : Option Token
deriving DecidableEq, Repr

/-- The state produced by `MathHighlighter::new`. -/
def mathInit : MathState := ⟨false, none⟩

/-- One `next()` call of `MathHighlighter` on an available spanned token
(src/lib/latex/highlight.rs, lines 146-179): while in math mode every token
is highlighted and the recorded closer exits math mode; outside, one of the
five recognised openers enters math mode (recording its closer) and is
highlighted, and any other token is passed through unhighlighted.  The
`closing_token.unwrap()` of the source is rendered as `getD Token.Other`;
the `none` case is unreachable from `mathInit` (see the C9 theorem). -/
def mathStep (st : MathState) (ts : SpannedToken) : MathState × (Bool × SpannedToken) :=
  match ts with
  | (token, span) =>
    if st.inMathMode then
      if token = st.closingToken.getD Token.Other then
        (⟨false, none⟩, (true, (token, span)))
      else (st, (true, (token, span)))
    else
      match token with
      | Token.DisplayMathOpen =>
        (⟨true, some Token.DisplayMathClose⟩, (true, (token, span)))
      | Token.DollarSign =>
        (⟨true, some Token.DollarSign⟩, (true, (token, span)))
      | Token.DoubleDollarSign =>
        (⟨true, some Token.DoubleDollarSign⟩, (true, (token, span)))
      | Token.EnvironmentBegin name =>
        if isMathEnvName name then
          (⟨true, some (Token.EnvironmentEnd name)⟩, (true, (token, span)))
        else (⟨false, st.closingToken⟩, (false, (token, span)))
      | Token.InlineMathOpen =>
        (⟨true, some Token.InlineMathClose⟩, (true, (token, span)))
      | _ => (⟨false, st.closingToken⟩, (false, (token, span)))

/-- One `next()` call of `DisplayMathHighlighter` (lines 304-335): as
`mathStep` but restricted to the display-math openers. -/
def displayMathStep (st : MathState) (ts : SpannedToken) :
    MathState × (Bool × SpannedToken) :=
  match ts with
  | (token, span) =>
    if st.inMathMode then
      if token = st.closingToken.getD Token.Other then
        (⟨false, none⟩, (true, (token, span)))
      else (st, (true, (token, span)))
    else
      match token with
      | Token.DisplayMathOpen =>
        (⟨true, some Token.DisplayMathClose⟩, (true, (token, span)))
      | Token.DoubleDollarSign =>
        (⟨true, some Token.DoubleDollarSign⟩, (true, (token, span)))
      | Token.EnvironmentBegin name =>
        if isMathEnvName name then
          (⟨true, some (Token.EnvironmentEnd name)⟩, (true, (token, span)))
        else (⟨false, st.closingToken⟩, (false, (token, span)))
      | _ => (⟨false, st.closingToken⟩, (false, (token, span)))

/-- One `next()` call of `InlineMathHighlighter` (lines 369-391): as
`mathStep` but restricted to the inline-math openers. -/
def inlineMathStep (st : MathState) (ts : SpannedToken) :
    MathState × (Bool × SpannedToken) :=
  match ts with
  | (token, span) =>
    if st.inMathMode then
      if token = st.closingToken.getD Token.Other then
        (⟨false, none⟩, (true, (token, span)))
      else (st, (true, (token, span)))
    else
      match token with
      | Token.DollarSign =>
        (⟨true, some Token.DollarSign⟩, (true, (token, span)))
      | Token.InlineMathOpen =>
        (⟨true, some Token.InlineMathClose⟩, (true, (token, span)))
      | _ => (⟨false, st.closingToken⟩, (false, (token, span)))

/-- One `next()` call of `PreambleHighlighter` (lines 211-223): enters on
`DocumentClass`, exits on `EnvironmentBegin("document")`, and annotates with
the state value after the transition. -/
def preambleStep (st : Bool) (ts : SpannedToken) : Bool × (Bool × SpannedToken) :=
  match ts with
  | (token, span) =>
    let st' := match token with
      | Token.DocumentClass => true
      | Token.EnvironmentBegin n => if n = docName then false else st
      | _ => st
    (st', (st', (token, span)))

/-- One `next()` call of `DocumentHighlighter` (lines 255-269): enters on
`EnvironmentBegin("document")`, and on `EnvironmentEnd("document")` exits
while force-marking that token highlighted. -/
def documentStep (st : Bool) (ts : SpannedToken) : Bool × (Bool × SpannedToken) :=
  match ts with
  | (token, span) =>
    match token with
    | Token.EnvironmentBegin n =>
      if n = docName then (true, (true, (token, span)))
      else (st, (st, (token, span)))
    | Token.EnvironmentEnd n =>
      if n = docName then (false, (true, (token, span)))
      else (st, (st, (token, span)))
    | _ => (st, (st, (token, span)))

/-- Discriminants of `Token` (the payload-free variant tags produced by
`strum::EnumDiscriminants`). -/
inductive TokenKind where
  | And | Asterix | At | BraceOpen | BraceClose | BracketClose | BracketOpen
  | Colon | Comma | CommandName | Comment | DisplayMathClose | DisplayMathOpen
  | DocumentClass | DollarSign | Dot | DoubleBackslash | DoubleDollarSign
  | EnvironmentBegin | EnvironmentEnd | EqualSign | EscapedChar
  | ExclamationMark | Hash | Hat | Hyphen | InlineMathClose | InlineMathOpen
  | InsertSpace | InvalidCommand | Newline | Number | Other | OwnedString
  | ParenClose | ParenOpen | PlusSign | QuestionMark | Semicolon
  | TabsOrSpaces | Tilde | Underscore | Word
deriving DecidableEq, Repr

/-- The discriminant of a token, mirroring `TokenDiscriminants::from`. -/
def Token.kind : Token → TokenKind
  | Token.And => TokenKind.And
  | Token.Asterix => TokenKind.Asterix
  | Token.At => TokenKind.At
  | Token.BraceOpen => TokenKind.BraceOpen
  | Token.BraceClose => TokenKind.BraceClose
  | Token.BracketClose => TokenKind.BracketClose
  | Token.BracketOpen => TokenKind.BracketOpen
  | Token.Colon => TokenKind.Colon
  | Token.Comma => TokenKind.Comma
  | Token.CommandName => TokenKind.CommandName
  | Token.Comment => TokenKind.Comment
  | Token.DisplayMathClose => TokenKind.DisplayMathClose
  | Token.DisplayMathOpen => TokenKind.DisplayMathOpen
  | Token.DocumentClass => TokenKind.DocumentClass
  | Token.DollarSign => TokenKind.DollarSign
  | Token.Dot => TokenKind.Dot
  | Token.DoubleBackslash => TokenKind.DoubleBackslash
  | Token.DoubleDollarSign => TokenKind.DoubleDollarSign
  | Token.EnvironmentBegin _ => TokenKind.EnvironmentBegin
  | Token.EnvironmentEnd _ => TokenKind.EnvironmentEnd
  | Token.EqualSign => TokenKind.EqualSign
  | Token.EscapedChar => TokenKind.EscapedChar
  | Token.ExclamationMark => TokenKind.ExclamationMark
  | Token.Hash => TokenKind.Hash
  | Token.Hat => TokenKind.Hat
  | Token.Hyphen => TokenKind.Hyphen
  | Token.InlineMathClose => TokenKind.InlineMathClose
  | Token.InlineMathOpen => TokenKind.InlineMathOpen
  | Token.InsertSpace => TokenKind.InsertSpace
  | Token.InvalidCommand => TokenKind.InvalidCommand
  | Token.Newline => TokenKind.Newline
  | Token.Number => TokenKind.Number
  | Token.Other => TokenKind.Other
  | Token.OwnedString _ => TokenKind.OwnedString
  | Token.ParenClose => TokenKind.ParenClose
  | Token.ParenOpen => TokenKind.ParenOpen
  | Token.PlusSign => TokenKind.PlusSign
  | Token.QuestionMark => TokenKind.QuestionMark
  | Token.Semicolon => TokenKind.Semicolon
  | Token.TabsOrSpaces => TokenKind.TabsOrSpaces
  | Token.Tilde => TokenKind.Tilde
  | Token.Underscore => TokenKind.Underscore
  | Token.Word => TokenKind.Word

/-- One `next()` call of `TokenHighlighter` (lines 104-112): memoryless,
highlights a token exactly when its discriminant equals the target. -/
def tokenHlStep (target : TokenKind) (ts : SpannedToken) : Bool × SpannedToken :=
  if ts.1.kind = target then (true, ts) else (false, ts)

/-- Drives a stateful highlighter over a token list, collecting the emitted
annotated tokens (the iterator chain materialised on lists). -/
def hlRun {σ : Type} (step : σ → SpannedToken → σ × (Bool × SpannedToken)) :
    σ → List SpannedToken → List (Bool × SpannedToken)
  | _, [] => []
  | st, t :: rest => (step st t).2 :: hlRun step (step st t).1 rest

/-- The state after consuming a list of tokens. -/
def hlState {σ : Type} (step : σ → SpannedToken → σ × (Bool × SpannedToken))
    (init : σ) (toks : List SpannedToken) : σ :=
  toks.foldl (fun st t => (step st t).1) init

theorem hlRun_snd {σ : Type}
    (step : σ → SpannedToken → σ × (Bool × SpannedToken))
    (hstep : ∀ st t, ((step st t).2).2 = t) :
    ∀ (st : σ) (toks : List SpannedToken),
      (hlRun step st toks).map Prod.snd = toks := by
  intro st toks
  induction toks generalizing st with
  | nil => rfl
  | cons t rest ih => simp [hlRun, hstep, ih]

theorem mathStep_snd (st : MathState) (t : SpannedToken) :
    ((mathStep st t).2).2 = t := by
  rcases t with ⟨tok, sp⟩
  cases tok <;> simp only [mathStep] <;> split_ifs <;> rfl

theorem displayMathStep_snd (st : MathState) (t : SpannedToken) :
    ((displayMathStep st t).2).2 = t := by
  rcases t with ⟨tok, sp⟩
  cases tok <;> simp only [displayMathStep] <;> split_ifs <;> rfl

theorem inlineMathStep_snd (st : MathState) (t : SpannedToken) :
    ((inlineMathStep st t).2).2 = t := by
  rcases t with ⟨tok, sp⟩
  cases tok <;> simp only [inlineMathStep] <;> split_ifs <;> rfl

theorem preambleStep_snd (st : Bool) (t : SpannedToken) :
    ((preambleStep st t).2).2 = t := by
  rfl

theorem documentStep_snd (st : Bool) (t : SpannedToken) :
    ((documentStep st t).2).2 = t := by
  rcases t with ⟨tok, sp⟩
  cases tok <;> simp only [documentStep] <;> first | rfl | (split_ifs <;> rfl)

/-- C2.  Every highlighter is a pure annotation pass: on any input token
list, the output list has exactly the same length and the token/span pair in
each position of the output equals the input token at that position — no
tokens added, removed, reordered, or modified.  (Stated as: mapping the
second projection over the output gives back the input, which forces equal
length, order, and per-position token/span equality.) -/
theorem highlighters_preserve_tokens (toks : List SpannedToken) :
    (hlRun mathStep mathInit toks).map Prod.snd = toks ∧
    (hlRun displayMathStep mathInit toks).map Prod.snd = toks ∧
    (hlRun inlineMathStep mathInit toks).map Prod.snd = toks ∧
    (hlRun preambleStep false toks).map Prod.snd = toks ∧
    (hlRun documentStep false toks).map Prod.snd = toks ∧
    ∀ target : TokenKind, (toks.map (tokenHlStep target)).map Prod.snd = toks := by
  refine ⟨hlRun_snd _ mathStep_snd _ _, hlRun_snd _ displayMathStep_snd _ _,
    hlRun_snd _ inlineMathStep_snd _ _, hlRun_snd _ preambleStep_snd _ _,
    hlRun_snd _ documentStep_snd _ _, ?_⟩
  intro target
  induction toks with
  | nil => rfl
  | cons t rest ih =>
    simp only [List.map_cons, ih, List.cons.injEq, and_true]
    unfold tokenHlStep
    split <;> rfl

/-- The openers recognised by the Math highlighter, with the closer each one
records, as enumerated by the specification: display-math-open, single
dollar, double dollar, inline-math-open, and an environment-begin named
`equation`, `equation*`, `align` or `align*`. -/
def mathOpener : Token → Option Token
  | Token.DisplayMathOpen => some Token.DisplayMathClose
  | Token.DollarSign => some Token.DollarSign
  | Token.DoubleDollarSign => some Token.DoubleDollarSign
  | Token.EnvironmentBegin n =>
    if isMathEnvName n then some (Token.EnvironmentEnd n) else none
  | Token.InlineMathOpen => some Token.InlineMathClose
  | _ => none

/-- C3.  The Math highlighter is exactly the two-state machine of the
specification: from `Outside` (the initial state), a recognised opener is
highlighted and enters `Inside` with the matching closer recorded, any other
token is passed through unhighlighted; from `Inside c`, every token is
highlighted, and the recorded closer `c` returns the machine to `Outside`.
On the tokenization of `"a $x$ b"`, exactly the two dollar-sign tokens and
the word between them are highlighted; the surrounding text is not. -/
theorem math_highlighter_machine :
    (∀ (t : Token) (sp : Span),
      mathStep ⟨false, none⟩ (t, sp) =
        match mathOpener t with
        | some c => (⟨true, some c⟩, (true, (t, sp)))
        | none => (⟨false, none⟩, (false, (t, sp)))) ∧
    (∀ (c t : Token) (sp : Span),
      mathStep ⟨true, some c⟩ (t, sp) =
        ((if t = c then ⟨false, none⟩ else ⟨true, some c⟩), (true, (t, sp)))) ∧
    tokenize "a $x$ b".toList =
      [(Token.Word, ⟨0, 1⟩), (Token.TabsOrSpaces, ⟨1, 2⟩),
       (Token.DollarSign, ⟨2, 3⟩), (Token.Word, ⟨3, 4⟩),
       (Token.DollarSign, ⟨4, 5⟩), (Token.TabsOrSpaces, ⟨5, 6⟩),
       (Token.Word, ⟨6, 7⟩)] ∧
    (hlRun mathStep mathInit (tokenize "a $x$ b".toList)).map Prod.fst =
      [false, false, true, true, true, false, false] := by
  refine ⟨?_, ?_, by decide, by decide⟩
  · intro t sp
    cases t <;> simp only [mathStep, mathOpener] <;>
      first | rfl | (split_ifs <;> first | rfl | simp_all)
  · intro c t sp
    simp only [mathStep]
    split_ifs with h1 h2 h3 <;> simp_all [Option.getD]

/-- The safety invariant of the math-mode highlighters: whenever
`in_math_mode` is set, a closing token is recorded, so the
`closing_token.unwrap()` in the `Inside` branch of `next()` cannot panic. -/
def mathInv (st : MathState) : Prop :=
  st.inMathMode = true → st.closingToken.isSome

theorem mathStep_inv (st : MathState) (t : SpannedToken) (h : mathInv st) :
    mathInv (mathStep st t).1 := by
  rcases t with ⟨tok, sp⟩
  cases tok <;> simp only [mathStep] <;> split_ifs <;> simp_all [mathInv]

theorem displayMathStep_inv (st : MathState) (t : SpannedToken) (h : mathInv st) :
    mathInv (displayMathStep st t).1 := by
  rcases t with ⟨tok, sp⟩
  cases tok <;> simp only [displayMathStep] <;> split_ifs <;> simp_all [mathInv]

theorem inlineMathStep_inv (st : MathState) (t : SpannedToken) (h : mathInv st) :
    mathInv (inlineMathStep st t).1 := by
  rcases t with ⟨tok, sp⟩
  cases tok <;> simp only [inlineMathStep] <;> split_ifs <;> simp_all [mathInv]

theorem hlState_inv {σ : Type} (step : σ → SpannedToken → σ × (Bool × SpannedToken))
    (P : σ → Prop) (hstep : ∀ st t, P st → P (step st t).1) :
    ∀ (init : σ) (toks : List SpannedToken), P init → P (hlState step init toks) := by
  intro init toks
  induction toks generalizing init with
  | nil => exact id
  | cons t rest ih =>
    intro h
    exact ih _ (hstep _ _ h)

/-- C9.  In every state of the Math, DisplayMath and InlineMath highlighters
reachable from `new()` by any sequence of `next()` calls (that is, the state
after consuming any token list), `in_math_mode = true` implies that
`closing_token` is `Some`; hence the `unwrap` in the `Inside` branch of
`next()` never panics. -/
theorem math_highlighters_unwrap_safe (toks : List SpannedToken) :
    mathInv (hlState mathStep mathInit toks) ∧
    mathInv (hlState displayMathStep mathInit toks) ∧
    mathInv (hlState inlineMathStep mathInit toks) :=
  ⟨hlState_inv mathStep mathInv mathStep_inv mathInit toks (by simp [mathInv, mathInit]),
   hlState_inv displayMathStep mathInv displayMathStep_inv mathInit toks
     (by simp [mathInv, mathInit]),
   hlState_inv inlineMathStep mathInv inlineMathStep_inv mathInit toks
     (by simp [mathInv, mathInit])⟩

/-- The byte output of `Formatter::write_formatted`
(src/lib/latex/format.rs, lines 20-31): for each spanned token in order,
the owned bytes of an `OwnedString` token, and otherwise the source slice
delimited by the token span. -/
def writeFormatted (source : List Char) : List SpannedToken → List Char
  | [] => []
  | (Token.OwnedString s, _) :: rest => s ++ writeFormatted source rest
  | (_, sp) :: rest => sliceDrop source sp ++ writeFormatted source rest

/-- One element of a colorized output stream: written text, a set-color
directive, or a style reset (the `WriteColor` calls made by
`Highlighter::write_colorized`). -/
inductive Chunk where
  | text (s : List Char)
  | setColor
  | reset
deriving DecidableEq, Repr

/-- The token loop of `Highlighter::write_colorized`
(src/lib/latex/highlight.rs, lines 60-68): each highlighted token's bytes
are wrapped in an individual set-color/reset pair; the token value itself is
ignored — the written bytes are always `source[span]`. -/
def writeColorizedAux (source : List Char) : List (Bool × SpannedToken) → List Chunk
  | [] => []
  | (true, (_, sp)) :: rest =>
    Chunk.setColor :: Chunk.text (sliceDrop source sp) :: Chunk.reset ::
      writeColorizedAux source rest
  | (false, (_, sp)) :: rest =>
    Chunk.text (sliceDrop source sp) :: writeColorizedAux source rest

/-- `Highlighter::write_colorized` (lines 49-70): an initial `buffer.reset()`
followed by the token loop. -/
def writeColorized (source : List Char) (toks : List (Bool × SpannedToken)) :
    List Chunk :=
  Chunk.reset :: writeColorizedAux source toks

/-- The byte resolution rule stated by the specification for every renderer:
owned bytes for the owned-string variant, the source slice otherwise. -/
def tokenBytes (source : List Char) : SpannedToken → List Char
  | (Token.OwnedString s, _) => s
  | (_, sp) => sliceDrop source sp

/-- Modelled from the spec: the colorized renderer as claim C7 describes it,
resolving each token to its bytes via the owned-string rule (`tokenBytes`)
before wrapping highlighted tokens in set/reset pairs.  Used only to exhibit
the divergence from the code, which always writes `source[span]`. -/
def writeColorizedSpecAux (source : List Char) :
    List (Bool × SpannedToken) → List Chunk
  | [] => []
  | (true, ts) :: rest =>
    Chunk.setColor :: Chunk.text (tokenBytes source ts) :: Chunk.reset ::
      writeColorizedSpecAux source rest
  | (false, ts) :: rest =>
    Chunk.text (tokenBytes source ts) :: writeColorizedSpecAux source rest

/-- Modelled from the spec: full colorized renderer per claim C7. -/
def writeColorizedSpec (source : List Char) (toks : List (Bool × SpannedToken)) :
    List Chunk :=
  Chunk.reset :: writeColorizedSpecAux source toks

/-- C7 counterexample.  On a highlighted owned-string token the colorized
renderer does not write the token's owned bytes: with source `"ab"` and the
single highlighted token `OwnedString "XY"` carrying the placeholder span
`[0, 1)`, the code writes the source slice `"a"`, not the owned bytes `"XY"`
demanded by the claim. -/
theorem write_colorized_ignores_owned :
    writeColorized "ab".toList
        [(true, (Token.OwnedString "XY".toList, ⟨0, 1⟩))] =
      [Chunk.reset, Chunk.setColor, Chunk.text "a".toList, Chunk.reset] ∧
    writeColorizedSpec "ab".toList
        [(true, (Token.OwnedString "XY".toList, ⟨0, 1⟩))] =
      [Chunk.reset, Chunk.setColor, Chunk.text "XY".toList, Chunk.reset] ∧
    writeColorized "ab".toList
        [(true, (Token.OwnedString "XY".toList, ⟨0, 1⟩))] ≠
      writeColorizedSpec "ab".toList
        [(true, (Token.OwnedString "XY".toList, ⟨0, 1⟩))] := by
  refine ⟨by decide, by decide, by decide⟩

/-- C7 (amended).  The token-stream renderer resolves every token by the
owned-string rule: owned bytes for `OwnedString`, the source slice delimited
by the span otherwise.  The colorized renderer writes, after an initial
style reset, the source slice of every token's span — never the owned
bytes, even for an owned-string token — and wraps each highlighted token's
slice individually in a set-color/reset pair, so a run of adjacent
highlighted tokens produces repeated set/reset pairs. -/
theorem renderers_write_per_token (source : List Char) :
    (∀ toks : List SpannedToken,
      writeFormatted source toks = (toks.map (tokenBytes source)).flatten) ∧
    (∀ toks : List (Bool × SpannedToken),
      writeColorized source toks =
        Chunk.reset :: (toks.map (fun p =>
          if p.1 then
            [Chunk.setColor, Chunk.text (sliceDrop source p.2.2), Chunk.reset]
          else [Chunk.text (sliceDrop source p.2.2)])).flatten) := by
  constructor
  · intro toks
    induction toks with
    | nil => rfl
    | cons t rest ih =>
      rcases t with ⟨tok, sp⟩
      cases tok <;> simp [writeFormatted, tokenBytes, ih]
  · intro toks
    induction toks with
    | nil => rfl
    | cons t rest ih =>
      rcases t with ⟨b, tok, sp⟩
      cases b <;>
        simp only [writeColorized, writeColorizedAux, List.map_cons,
          List.flatten_cons, if_true, if_false] <;>
        simp_all [writeColorized]

/-- Tests whether a token is an environment begin (any name). -/
def Token.isEnvBegin : Token → Bool
  | Token.EnvironmentBegin _ => true
  | _ => false

/-- Tests whether a token is an environment end (any name). -/
def Token.isEnvEnd : Token → Bool
  | Token.EnvironmentEnd _ => true
  | _ => false

/-- State of `AutoIndentFormatter` (src/lib/latex/format.rs, lines 44-53):
`inside_document`, the `u8` counter `target_indentation_level` (kept in
`Nat` with all arithmetic reduced modulo 256, the wrapping two's-complement
semantics of `u8`), and `is_indented`.  The constant field `indent_chars`
is the two-space string `indentUnit`. -/
structure AutoIndentState where
  insideDocument : Bool
  targetIndentationLevel : Nat
  isIndented : Bool
deriving DecidableEq, Repr

/-- The state produced by `AutoIndentFormatter::new`. -/
def autoIndentInit : AutoIndentState := ⟨false, 0, false⟩

/-- The `indent_chars` unit: two spaces. -/
def indentUnit : List Char := "  ".toList

/-- The synthetic indentation text: `target_indentation_level` copies of the
two-space unit. -/
def indentOf (level : Nat) : List Char :=
  (List.replicate level indentUnit).flatten

/-- Wrapping `u8` increment. -/
def incr8 (n : Nat) : Nat := (n + 1) % 256

/-- Wrapping `u8` decrement. -/
def decr8 (n : Nat) : Nat := (n + 255) % 256

/-- The pre-indent peek match of `AutoIndentFormatter::next` (lines 81-92):
peeking `EnvironmentBegin("document")` sets `inside_document`; peeking any
`EnvironmentEnd` decrements `target_indentation_level` once, guarded by
`!is_indented && inside_document`. -/
def preStep (st : AutoIndentState) (peek : Option SpannedToken) : AutoIndentState :=
  match peek with
  | some (Token.EnvironmentBegin n, _) =>
    if n = docName then { st with insideDocument := true } else st
  | some (Token.EnvironmentEnd _, _) =>
    if !st.isIndented && st.insideDocument then
      { st with targetIndentationLevel := decr8 st.targetIndentationLevel }
    else st
  | _ => st

/-- The post-indent peek match of `AutoIndentFormatter::next` (lines
113-123): peeking any `EnvironmentBegin` while `inside_document` increments
the level; peeking a `Newline` clears the indented flag. -/
def postStep (st : AutoIndentState) (peek : Option SpannedToken) : AutoIndentState :=
  match peek with
  | some (Token.EnvironmentBegin _, _) =>
    if st.insideDocument then
      { st with targetIndentationLevel := incr8 st.targetIndentationLevel }
    else st
  | some (Token.Newline, _) => { st with isIndented := false }
  | _ => st

/-- One evaluation step of `AutoIndentFormatter::next` with the recursive
tail call on a skipped `TabsOrSpaces` unfolded into a silent (`none`-output)
step: returns `none` at end of iteration, and otherwise the optional emitted
token, the successor state and the remaining input.  On a line not yet
indented, a leading `TabsOrSpaces` is consumed and skipped; otherwise a
single synthetic `OwnedString` indentation token with placeholder span
`[0, 1)` is emitted and the line is marked indented.  On an already-indented
line the head token is consumed and emitted after the post-indent match. -/
def fmtStep (st : AutoIndentState) (toks : List SpannedToken) :
    Option (Option SpannedToken × AutoIndentState × List SpannedToken) :=
  if (preStep st toks.head?).isIndented then
    match toks with
    | [] => none
    | t :: rest => some (some t, postStep (preStep st toks.head?) toks.head?, rest)
  else
    match toks with
    | (Token.TabsOrSpaces, _) :: rest => some (none, preStep st toks.head?, rest)
    | _ =>
      some (some (Token.OwnedString
          (indentOf (preStep st toks.head?).targetIndentationLevel), ⟨0, 1⟩),
        { preStep st toks.head? with isIndented := true }, toks)

/-- Fuel-indexed driver collecting the formatter's output tokens. -/
def fmtRunF : Nat → AutoIndentState → List SpannedToken → List SpannedToken
  | 0, _, _ => []
  | fuel + 1, st, toks =>
    match fmtStep st toks with
    | none => []
    | some (out, st', toks') => out.toList ++ fmtRunF fuel st' toks'

/-- Steps needed to drain `toks` from `st`: each step either consumes a
token or turns an unindented line into an indented one. -/
def fmtFuel (st : AutoIndentState) (toks : List SpannedToken) : Nat :=
  2 * toks.length + (if st.isIndented then 1 else 2)

/-- The auto-indent formatter: iterate `fmtStep` to exhaustion (the fuel
provably suffices, see `fmtRunF_fuel`). -/
def fmtRun (st : AutoIndentState) (toks : List SpannedToken) : List SpannedToken :=
  fmtRunF (fmtFuel st toks) st toks

/-- Iterated `fmtStep`, for exhibiting reachable configurations. -/
def stepN : Nat → AutoIndentState × List SpannedToken →
    Option (AutoIndentState × List SpannedToken)
  | 0, p => some p
  | n + 1, p =>
    match fmtStep p.1 p.2 with
    | none => none
    | some (_, st', toks') => stepN n (st', toks')

/-- One-step reachability between formatter configurations. -/
def FmtStepRel (p q : AutoIndentState × List SpannedToken) : Prop :=
  ∃ out, fmtStep p.1 p.2 = some (out, q.1, q.2)

/-- Reachability: the reflexive-transitive closure of `FmtStepRel`. -/
def FmtReach (p q : AutoIndentState × List SpannedToken) : Prop :=
  Relation.ReflTransGen FmtStepRel p q

theorem stepN_reach (n : Nat) (p q : AutoIndentState × List SpannedToken)
    (h : stepN n p = some q) : FmtReach p q := by
  induction n generalizing p with
  | zero =>
    simp [stepN] at h
    exact h ▸ Relation.ReflTransGen.refl
  | succ n ih =>
    unfold stepN at h
    split at h
    · exact absurd h (by simp)
    · rename_i out st' toks' hstep
      exact Relation.ReflTransGen.head ⟨out, by rw [hstep]⟩ (ih _ h)

theorem preStep_isIndented (st : AutoIndentState) (peek : Option SpannedToken) :
    (preStep st peek).isIndented = st.isIndented := by
  unfold preStep
  rcases peek with _ | ⟨t, sp⟩
  · rfl
  · cases t <;> simp <;> split_ifs <;> rfl

theorem fmtStep_measure {st : AutoIndentState} {toks : List SpannedToken}
    {out : Option SpannedToken} {st' : AutoIndentState} {toks' : List SpannedToken}
    (h : fmtStep st toks = some (out, st', toks')) :
    fmtFuel st' toks' < fmtFuel st toks := by
  unfold fmtStep at h
  rw [show (preStep st toks.head?).isIndented = st.isIndented from
    preStep_isIndented st toks.head?] at h
  by_cases hind : st.isIndented
  · rw [if_pos (by simp [hind])] at h
    match toks, h with
    | t :: rest, h =>
      simp only [Option.some.injEq, Prod.mk.injEq] at h
      rcases h with ⟨-, -, h3⟩
      subst h3
      unfold fmtFuel
      split_ifs <;> simp [hind] <;> omega
  · rw [if_neg (by simp [hind])] at h
    split at h
    · rename_i sp rest
      simp only [Option.some.injEq, Prod.mk.injEq] at h
      rcases h with ⟨-, h2, h3⟩
      subst h3
      rw [← h2]
      unfold fmtFuel
      rw [preStep_isIndented]
      split_ifs <;> simp [hind] <;> omega
    · simp only [Option.some.injEq, Prod.mk.injEq] at h
      rcases h with ⟨-, h2, h3⟩
      subst h3
      rw [← h2]
      unfold fmtFuel
      simp [hind]

theorem fmtRunF_fuel (fuel₁ : Nat) : ∀ (fuel₂ : Nat) (st : AutoIndentState)
    (toks : List SpannedToken), fmtFuel st toks ≤ fuel₁ → fmtFuel st toks ≤ fuel₂ →
    fmtRunF fuel₁ st toks = fmtRunF fuel₂ st toks := by
  induction fuel₁ using Nat.strong_induction_on with
  | _ fuel₁ ih =>
    intro fuel₂ st toks h1 h2
    have hpos : 1 ≤ fmtFuel st toks := by unfold fmtFuel; split_ifs <;> omega
    cases fuel₁ with
    | zero => omega
    | succ f₁ =>
      cases fuel₂ with
      | zero => omega
      | succ f₂ =>
        simp only [fmtRunF]
        split
        · rfl
        · rename_i out st' toks' hstep
          have hm := fmtStep_measure hstep
          rw [ih f₁ (by omega) f₂ st' toks' (by omega) (by omega)]

/-- The guard of the decrement branch in the pre-indent match of
`AutoIndentFormatter::next`: the peeked token is an environment end, the
line is not yet indented, and the formatter is inside the document. -/
def decFires (st : AutoIndentState) (peek : Option SpannedToken) : Bool :=
  (match peek with
   | some (Token.EnvironmentEnd _, _) => true
   | _ => false) && (!st.isIndented && st.insideDocument)

/-- C5 counterexample.  The claim's guard omits `inside_document`: on the
input consisting of the single token `\end{foo}` — whose head is an
environment end peeked on a not-yet-indented line — the formatter emits the
indentation token without decrementing `target_level` (it stays `0`; a
decrement, even a wrapping one, would have produced `255`), because
`inside_document` is false. -/
theorem auto_indent_decrement_cex :
    autoIndentInit.isIndented = false ∧
    ([((Token.EnvironmentEnd "foo".toList : Token), (⟨0, 9⟩ : Span))].head? =
      some (Token.EnvironmentEnd "foo".toList, ⟨0, 9⟩)) ∧
    fmtStep autoIndentInit [(Token.EnvironmentEnd "foo".toList, ⟨0, 9⟩)] =
      some (some (Token.OwnedString [], ⟨0, 1⟩),
        ⟨false, 0, true⟩, [(Token.EnvironmentEnd "foo".toList, ⟨0, 9⟩)]) ∧
    ¬ (0 + 1 = autoIndentInit.targetIndentationLevel ∨
        (0 + 1) % 256 = autoIndentInit.targetIndentationLevel) := by
  refine ⟨rfl, rfl, by decide, by decide⟩

/-- C5 (amended).  If the peeked token is an environment end, the current
line has not yet been indented, AND the formatter is inside the document,
then the step decrements `target_level` exactly once (as the wrapping 8-bit
counter it is) before emitting the synthetic indentation token — which is
already built from the decremented level — and marks the line indented; and
a line never produces more than one decrement: any step taken on an
already-indented line leaves the counter unchanged or increments it, never
decrements. -/
theorem auto_indent_decrement_once :
    (∀ (st : AutoIndentState) (toks : List SpannedToken) (n : List Char) (sp : Span),
      toks.head? = some (Token.EnvironmentEnd n, sp) →
      st.isIndented = false → st.insideDocument = true →
      fmtStep st toks =
        some (some (Token.OwnedString (indentOf (decr8 st.targetIndentationLevel)), ⟨0, 1⟩),
          ⟨st.insideDocument, decr8 st.targetIndentationLevel, true⟩, toks)) ∧
    (∀ (st : AutoIndentState) (toks : List SpannedToken) (out : Option SpannedToken)
      (st' : AutoIndentState) (toks' : List SpannedToken),
      st.isIndented = true → fmtStep st toks = some (out, st', toks') →
      st'.targetIndentationLevel = st.targetIndentationLevel ∨
      st'.targetIndentationLevel = incr8 st.targetIndentationLevel) := by
  constructor
  · intro st toks n sp hpeek hind hdoc
    match toks, hpeek with
    | (t, tsp) :: rest, hpeek =>
      simp only [List.head?_cons, Option.some.injEq, Prod.mk.injEq] at hpeek
      rcases hpeek with ⟨ht, hsp⟩
      subst ht
      subst hsp
      rcases st with ⟨sd, lvl, si⟩
      simp only at hind hdoc
      subst hind
      subst hdoc
      simp [fmtStep, preStep]
  · intro st toks out st' toks' hind hstep
    unfold fmtStep at hstep
    rw [show (preStep st toks.head?).isIndented = st.isIndented from
      preStep_isIndented st toks.head?, if_pos (by simp [hind])] at hstep
    match toks, hstep with
    | (t, tsp) :: rest, hstep =>
      simp only [Option.some.injEq, Prod.mk.injEq] at hstep
      rcases hstep with ⟨-, h2, -⟩
      rw [← h2]
      rcases st with ⟨sd, lvl, si⟩
      simp only at hind
      subst hind
      cases t <;> simp [preStep, postStep] <;> split_ifs <;> simp [incr8]

/-- C5 amended witness: instantiating both conjuncts at concrete inputs. -/
theorem auto_indent_decrement_once_witness :
    fmtStep ⟨true, 2, false⟩ [(Token.EnvironmentEnd "foo".toList, ⟨0, 9⟩)] =
      some (some (Token.OwnedString (indentOf 1), ⟨0, 1⟩),
        ⟨true, 1, true⟩, [(Token.EnvironmentEnd "foo".toList, ⟨0, 9⟩)]) ∧
    ((⟨true, 1, true⟩ : AutoIndentState).targetIndentationLevel =
        (⟨true, 1, true⟩ : AutoIndentState).targetIndentationLevel ∨
      (⟨true, 1, true⟩ : AutoIndentState).targetIndentationLevel =
        incr8 (⟨true, 1, true⟩ : AutoIndentState).targetIndentationLevel) := by
  constructor
  · have h := auto_indent_decrement_once.1 ⟨true, 2, false⟩
      [(Token.EnvironmentEnd "foo".toList, ⟨0, 9⟩)] "foo".toList ⟨0, 9⟩ rfl rfl rfl
    simpa [decr8] using h
  · exact auto_indent_decrement_once.2 ⟨true, 1, true⟩
      [(Token.Word, ⟨0, 1⟩)] (some (Token.Word, ⟨0, 1⟩)) ⟨true, 1, true⟩ [] rfl (by decide)

/-- The sample document of spec section 8. -/
def sampleSource : List Char :=
  ("\\documentclass{article}\n  \\usepackage{tikz}\n\\begin{document}\n" ++
   "  \\begin{tikzpicture}\n\\end{tikzpicture}\n\\end{document}\n").toList

/-- The normalised text: zero leading spaces before `\begin{document}`, one
two-space unit on the line opening the nested `tikzpicture` environment and
on the line closing it, zero units on the `document` delimiters themselves. -/
def sampleFormatted : List Char :=
  ("\\documentclass{article}\n\\usepackage{tikz}\n\\begin{document}\n" ++
   "  \\begin{tikzpicture}\n  \\end{tikzpicture}\n\\end{document}\n").toList

/-- C6.  Formatting the section-8 sample document yields the normalised
text (lines before `\begin{document}` carry zero leading spaces and the
lines inside `document` carry one indent unit; the sample has no line
strictly inside `tikzpicture`), and running the formatter again over the
tokenization of its own output reproduces that output unchanged —
idempotence on this input. -/
theorem auto_indent_sample_idempotent :
    writeFormatted sampleSource (fmtRun autoIndentInit (tokenize sampleSource)) =
      sampleFormatted ∧
    writeFormatted sampleFormatted (fmtRun autoIndentInit (tokenize sampleFormatted)) =
      sampleFormatted :=
  ⟨by decide, by decide⟩

theorem preStep_level {st : AutoIndentState} {peek : Option SpannedToken} :
    (preStep st peek).targetIndentationLevel = st.targetIndentationLevel ∨
    (preStep st peek).targetIndentationLevel = decr8 st.targetIndentationLevel := by
  unfold preStep
  rcases peek with _ | ⟨t, sp⟩
  · exact Or.inl rfl
  · cases t <;> simp <;> split_ifs <;> simp

theorem postStep_level {st : AutoIndentState} {peek : Option SpannedToken} :
    (postStep st peek).targetIndentationLevel = st.targetIndentationLevel ∨
    (postStep st peek).targetIndentationLevel = incr8 st.targetIndentationLevel := by
  unfold postStep
  rcases peek with _ | ⟨t, sp⟩
  · exact Or.inl rfl
  · cases t <;> simp <;> split_ifs <;> simp

theorem fmtStep_level_le {st : AutoIndentState} {toks : List SpannedToken}
    {out : Option SpannedToken} {st' : AutoIndentState} {toks' : List SpannedToken}
    (h : fmtStep st toks = some (out, st', toks'))
    (hb : st.targetIndentationLevel ≤ 255) : st'.targetIndentationLevel ≤ 255 := by
  have hpre : (preStep st toks.head?).targetIndentationLevel ≤ 255 := by
    rcases @preStep_level st toks.head? with hp | hp <;> rw [hp]
    · exact hb
    · exact Nat.le_of_lt_succ (Nat.mod_lt _ (by omega))
  unfold fmtStep at h
  split at h
  · match toks, h with
    | t :: rest, h =>
      simp only [Option.some.injEq, Prod.mk.injEq] at h
      rcases h with ⟨-, h2, -⟩
      rw [← h2]
      rcases @postStep_level (preStep st (t :: rest).head?)
          ((t :: rest).head?) with hp | hp <;> rw [hp]
      · exact hpre
      · exact Nat.le_of_lt_succ (Nat.mod_lt _ (by omega))
  · split at h
    · simp only [Option.some.injEq, Prod.mk.injEq] at h
      rcases h with ⟨-, h2, -⟩
      rw [← h2]
      exact hpre
    · simp only [Option.some.injEq, Prod.mk.injEq] at h
      rcases h with ⟨-, h2, -⟩
      rw [← h2]
      exact hpre

/-- A line of 256 environment begins: `\begin{document}` followed by 255
further begins, with no newline, so every one of them increments the level. -/
def manyBegins : List SpannedToken :=
  (Token.EnvironmentBegin docName, ⟨0, 1⟩) ::
    List.replicate 255 ((Token.EnvironmentBegin "a".toList, ⟨0, 1⟩) : SpannedToken)

theorem stepN_cons {st : AutoIndentState} {toks : List SpannedToken}
    {out : Option SpannedToken} {st' : AutoIndentState} {toks' : List SpannedToken}
    (n : Nat) (h : fmtStep st toks = some (out, st', toks')) :
    stepN (n + 1) (st, toks) = stepN n (st', toks') := by
  have hdef : stepN (n + 1) (st, toks) =
      match fmtStep st toks with
      | none => none
      | some (_, q, r) => stepN n (q, r) := rfl
  rw [hdef, h]

theorem stepN_begins (k : Nat) : ∀ (st : AutoIndentState),
    st.isIndented = true → st.insideDocument = true →
    st.targetIndentationLevel ≤ 255 →
    stepN k (st, List.replicate k ((Token.EnvironmentBegin "a".toList, ⟨0, 1⟩) : SpannedToken)) =
      some (⟨true, (st.targetIndentationLevel + k) % 256, true⟩, []) := by
  induction k with
  | zero =>
    intro st h1 h2 h3
    rcases st with ⟨sd, lvl, si⟩
    simp only at h1 h2 h3
    subst h1
    subst h2
    simp only [stepN, List.replicate_zero]
    rw [Nat.mod_eq_of_lt (by omega : lvl + 0 < 256)]
    simp
  | succ k ih =>
    intro st h1 h2 h3
    rcases st with ⟨sd, lvl, si⟩
    simp only at h1 h2 h3
    subst h1
    subst h2
    rw [List.replicate_succ]
    rw [stepN_cons k (show fmtStep ⟨true, lvl, true⟩
        (((Token.EnvironmentBegin "a".toList, ⟨0, 1⟩) : SpannedToken) ::
          List.replicate k ((Token.EnvironmentBegin "a".toList, ⟨0, 1⟩) : SpannedToken)) =
      some (some (Token.EnvironmentBegin "a".toList, ⟨0, 1⟩), ⟨true, incr8 lvl, true⟩,
        List.replicate k ((Token.EnvironmentBegin "a".toList, ⟨0, 1⟩) : SpannedToken)) from by
        simp [fmtStep, preStep, postStep, docName])]
    have hlt : incr8 lvl ≤ 255 :=
      Nat.le_of_lt_succ (Nat.mod_lt _ (by omega))
    have hrec := ih ⟨true, incr8 lvl, true⟩ rfl rfl hlt
    simp only at hrec
    rw [hrec]
    have harith : (incr8 lvl + k) % 256 = (lvl + (k + 1)) % 256 := by
      unfold incr8
      rw [Nat.mod_add_mod]
      ring_nf
    rw [harith]

/-- C10.  The nesting counter `target_indentation_level` is an 8-bit
counter: its value in every configuration reachable from `new()` is at most
255; every environment-begin token consumed while `inside_document` (or
which is itself `\begin{document}`) increments it by one in wrapping 8-bit
arithmetic; and on a line of 256 environment begins inside the document the
counter wraps around modulo 2^8 back to zero — nesting deeper than 255
levels is outside the supported domain. -/
theorem auto_indent_level_u8 :
    (∀ (L : List SpannedToken) (p : AutoIndentState × List SpannedToken),
      FmtReach (autoIndentInit, L) p → p.1.targetIndentationLevel ≤ 255) ∧
    (∀ (st : AutoIndentState) (n : List Char) (sp : Span) (rest : List SpannedToken),
      st.isIndented = true → (st.insideDocument = true ∨ n = docName) →
      ∃ st', fmtStep st ((Token.EnvironmentBegin n, sp) :: rest) =
          some (some (Token.EnvironmentBegin n, sp), st', rest) ∧
        st'.targetIndentationLevel = incr8 st.targetIndentationLevel) ∧
    (manyBegins.length = 256 ∧ (∀ t ∈ manyBegins, t.1.isEnvBegin = true) ∧
      stepN 257 (autoIndentInit, manyBegins) = some (⟨true, 0, true⟩, [])) := by
  refine ⟨?_, ?_, by unfold manyBegins; rw [List.length_cons, List.length_replicate], ?_, ?_⟩
  · intro L p hreach
    induction hreach with
    | refl => exact Nat.zero_le 255
    | tail hr hs ih =>
      rcases hs with ⟨out, hstep⟩
      exact fmtStep_level_le hstep ih
  · intro st n sp rest h1 h2
    rcases st with ⟨sd, lvl, si⟩
    simp only at h1
    subst h1
    by_cases hdoc : n = docName
    · subst hdoc
      exact ⟨⟨true, incr8 lvl, true⟩, by simp [fmtStep, preStep, postStep], rfl⟩
    · rcases h2 with h2 | h2
      · simp only at h2
        subst h2
        exact ⟨⟨true, incr8 lvl, true⟩,
          by simp [fmtStep, preStep, postStep, hdoc], rfl⟩
      · exact absurd h2 hdoc
  · intro t ht
    unfold manyBegins at ht
    rw [List.mem_cons] at ht
    rcases ht with ht | ht
    · rw [ht]
      rfl
    · rw [List.eq_of_mem_replicate ht]
      rfl
  · show stepN 257 (autoIndentInit, manyBegins) = some (⟨true, 0, true⟩, [])
    have s1 : fmtStep autoIndentInit manyBegins =
        some (some (Token.OwnedString [], ⟨0, 1⟩), ⟨true, 0, true⟩, manyBegins) := rfl
    have s2 : fmtStep ⟨true, 0, true⟩ manyBegins =
        some (some (Token.EnvironmentBegin docName, ⟨0, 1⟩), ⟨true, 1, true⟩,
          List.replicate 255 ((Token.EnvironmentBegin "a".toList, ⟨0, 1⟩) : SpannedToken)) :=
      rfl
    rw [show (257 : Nat) = 256 + 1 from rfl, stepN_cons 256 s1,
      show (256 : Nat) = 255 + 1 from rfl, stepN_cons 255 s2,
      stepN_begins 255 ⟨true, 1, true⟩ rfl rfl (by norm_num)]
    norm_num

/-- C9 witness: after consuming a single dollar token each machine is in
math mode with a recorded closer, as the invariant demands. -/
theorem math_highlighters_unwrap_safe_witness :
    ((hlState mathStep mathInit [(Token.DollarSign, ⟨0, 1⟩)]).closingToken.isSome = true) ∧
    ((hlState displayMathStep mathInit
        [(Token.DoubleDollarSign, ⟨0, 1⟩)]).closingToken.isSome = true) ∧
    ((hlState inlineMathStep mathInit
        [(Token.DollarSign, ⟨0, 1⟩)]).closingToken.isSome = true) :=
  ⟨(math_highlighters_unwrap_safe [(Token.DollarSign, ⟨0, 1⟩)]).1 (by decide),
   (math_highlighters_unwrap_safe [(Token.DoubleDollarSign, ⟨0, 1⟩)]).2.1 (by decide),
   (math_highlighters_unwrap_safe [(Token.DollarSign, ⟨0, 1⟩)]).2.2 (by decide)⟩

/-- C10 witness: the bound at the initial configuration and the increment on
a concrete begin token. -/
theorem auto_indent_level_u8_witness :
    (autoIndentInit, ([] : List SpannedToken)).1.targetIndentationLevel ≤ 255 ∧
    ∃ st', fmtStep ⟨true, 1, true⟩ [(Token.EnvironmentBegin "a".toList, ⟨0, 1⟩)] =
        some (some (Token.EnvironmentBegin "a".toList, ⟨0, 1⟩), st', []) ∧
      st'.targetIndentationLevel = incr8 (⟨true, 1, true⟩ : AutoIndentState).targetIndentationLevel :=
  ⟨auto_indent_level_u8.1 [] (autoIndentInit, []) Relation.ReflTransGen.refl,
   auto_indent_level_u8.2.1 ⟨true, 1, true⟩ "a".toList ⟨0, 1⟩ [] rfl (Or.inl rfl)⟩

/-- Executable check of the claim's balance hypothesis: every
environment-end token is preceded (anywhere earlier in the stream) by an
environment-begin token with the same name. -/
def endsMatchedAux : List (List Char) → List SpannedToken → Bool
  | _, [] => true
  | seen, (t, _) :: rest =>
    (match t with
     | Token.EnvironmentEnd n => seen.contains n
     | _ => true) &&
    endsMatchedAux
      (match t with
       | Token.EnvironmentBegin n => n :: seen
       | _ => seen) rest

/-- Every environment-end token in the stream is preceded by a matching
environment-begin token (the balance notion of claim C8). -/
def EndsMatched (L : List SpannedToken) : Prop := endsMatchedAux [] L = true

/-- The balanced input on which the decrement nevertheless fires at zero:
`\begin{foo}`, newline, `\begin{document}`, newline, `\end{document}`,
newline, `\end{foo}` — properly nested, every end preceded by its begin. -/
def underflowInput : List SpannedToken :=
  [(Token.EnvironmentBegin "foo".toList, ⟨0, 11⟩), (Token.Newline, ⟨11, 12⟩),
   (Token.EnvironmentBegin docName, ⟨12, 28⟩), (Token.Newline, ⟨28, 29⟩),
   (Token.EnvironmentEnd docName, ⟨29, 43⟩), (Token.Newline, ⟨43, 44⟩),
   (Token.EnvironmentEnd "foo".toList, ⟨44, 53⟩)]

/-- C8 counterexample.  On the balanced stream `underflowInput` (its begin
of `foo` precedes `\begin{document}` and therefore never increments the
counter), the formatter reaches a configuration whose peeked token is an
environment end, with the line unindented, inside the document, and the
counter at zero — the decrement branch executes at zero, and the wrapping
`u8` subtraction produces 255 (a panic under Rust's checked arithmetic). -/
theorem auto_indent_underflow_cex :
    EndsMatched underflowInput ∧
    FmtReach (autoIndentInit, underflowInput)
      (⟨true, 0, false⟩, [(Token.EnvironmentEnd "foo".toList, ⟨44, 53⟩)]) ∧
    decFires ⟨true, 0, false⟩
      ([((Token.EnvironmentEnd "foo".toList : Token), (⟨44, 53⟩ : Span))].head?) = true ∧
    (⟨true, 0, false⟩ : AutoIndentState).targetIndentationLevel = 0 ∧
    (fmtStep ⟨true, 0, false⟩ [(Token.EnvironmentEnd "foo".toList, ⟨44, 53⟩)]).map
      (fun r => r.2.1.targetIndentationLevel) = some 255 :=
  ⟨by unfold EndsMatched; decide, stepN_reach 9 _ _ (by decide), by decide, rfl, by decide⟩

/-- Is this spanned token `\begin{document}`? -/
def isBdocTok (p : SpannedToken) : Bool := decide (p.1 = Token.EnvironmentBegin docName)

/-- Whether `\begin{document}` occurs among the first `c` tokens. -/
def seenBdoc (L : List SpannedToken) (c : Nat) : Bool := (L.take c).any isBdocTok

/-- Counts, with `seen` tracking whether `\begin{document}` has appeared,
the environment-begin tokens at or after the first `\begin{document}` —
exactly the tokens whose consumption increments the formatter's counter. -/
def incCountAux : Bool → List SpannedToken → Nat
  | _, [] => 0
  | seen, p :: rest =>
    (if p.1.isEnvBegin && (seen || isBdocTok p) then 1 else 0) +
      incCountAux (seen || isBdocTok p) rest

/-- Counted begins among the first `c` tokens. -/
def incCount (L : List SpannedToken) (c : Nat) : Nat := incCountAux false (L.take c)

/-- Environment-end tokens among the first `c` tokens. -/
def endCount (L : List SpannedToken) (c : Nat) : Nat :=
  ((L.take c).filter (fun p => p.1.isEnvEnd)).length

theorem incCountAux_append (xs ys : List SpannedToken) : ∀ (seen : Bool),
    incCountAux seen (xs ++ ys) =
      incCountAux seen xs + incCountAux (seen || xs.any isBdocTok) ys := by
  induction xs with
  | nil => intro seen; simp [incCountAux]
  | cons x xs ih =>
    intro seen
    rw [List.cons_append]
    simp only [incCountAux]
    rw [ih (seen || isBdocTok x)]
    simp only [List.any_cons, Bool.or_assoc]
    omega

theorem seenBdoc_mono {L : List SpannedToken} {c : Nat}
    (h : seenBdoc L c = true) : seenBdoc L (c + 1) = true := by
  unfold seenBdoc at *
  rw [List.take_succ, List.any_append, h]
  rfl

theorem seenBdoc_succ (L : List SpannedToken) (c : Nat) {p : SpannedToken}
    (h : L[c]? = some p) :
    seenBdoc L (c + 1) = (seenBdoc L c || isBdocTok p) := by
  unfold seenBdoc
  rw [List.take_succ, List.any_append, h]
  simp

theorem seenBdoc_stable (L : List SpannedToken) {c : Nat} (h : L.length ≤ c) :
    seenBdoc L (c + 1) = seenBdoc L c := by
  unfold seenBdoc
  rw [List.take_all_of_le h, List.take_all_of_le (by omega)]

theorem incCount_succ (L : List SpannedToken) (c : Nat) {p : SpannedToken}
    (h : L[c]? = some p) :
    incCount L (c + 1) =
      incCount L c + (if p.1.isEnvBegin && (seenBdoc L c || isBdocTok p) then 1 else 0) := by
  unfold incCount
  rw [List.take_succ, h, incCountAux_append]
  cases hb : (List.take c L).any isBdocTok <;>
    simp [incCountAux, seenBdoc, hb]

theorem incCount_stable (L : List SpannedToken) {c : Nat} (h : L.length ≤ c) :
    incCount L (c + 1) = incCount L c := by
  unfold incCount
  rw [List.take_all_of_le h, List.take_all_of_le (by omega)]

theorem endCount_succ (L : List SpannedToken) (c : Nat) {p : SpannedToken}
    (h : L[c]? = some p) :
    endCount L (c + 1) = endCount L c + (if p.1.isEnvEnd then 1 else 0) := by
  unfold endCount
  rw [List.take_succ, h, List.filter_append]
  by_cases hp : p.1.isEnvEnd <;> simp [hp]

theorem endCount_stable (L : List SpannedToken) {c : Nat} (h : L.length ≤ c) :
    endCount L (c + 1) = endCount L c := by
  unfold endCount
  rw [List.take_all_of_le h, List.take_all_of_le (by omega)]

theorem incCount_le_succ (L : List SpannedToken) (c : Nat) :
    incCount L c ≤ incCount L (c + 1) := by
  by_cases h : c < L.length
  · have hp : ∃ p, L[c]? = some p := by
      have := List.getElem?_eq_getElem h
      exact ⟨_, this⟩
    rcases hp with ⟨p, hp⟩
    rw [incCount_succ L c hp]
    omega
  · rw [incCount_stable L (by omega)]

theorem incCount_mono (L : List SpannedToken) {c c' : Nat} (h : c ≤ c') :
    incCount L c ≤ incCount L c' := by
  induction c' with
  | zero => simp_all
  | succ m ih =>
    rcases Nat.lt_or_ge c (m + 1) with hlt | hge
    · exact le_trans (ih (by omega)) (incCount_le_succ L m)
    · have : c = m + 1 := by omega
      subst this
      exact le_refl _

theorem preStep_other {st : AutoIndentState} {t : Token} {sp : Span}
    (h1 : t.isEnvBegin = false) (h2 : t.isEnvEnd = false) :
    preStep st (some (t, sp)) = st := by
  cases t <;> simp_all [preStep, Token.isEnvBegin, Token.isEnvEnd]

theorem postStep_other {st : AutoIndentState} {t : Token} {sp : Span}
    (h1 : t.isEnvBegin = false) (h2 : t ≠ Token.Newline) :
    postStep st (some (t, sp)) = st := by
  cases t <;> simp_all [postStep, Token.isEnvBegin]

theorem fmtStep_consume {st : AutoIndentState} {ts : SpannedToken}
    {rest : List SpannedToken} (h : st.isIndented = true) :
    fmtStep st (ts :: rest) =
      some (some ts, postStep (preStep st (some ts)) (some ts), rest) := by
  unfold fmtStep
  rw [if_pos (by rw [preStep_isIndented]; exact h)]
  rfl

theorem fmtStep_nil_of_indented {st : AutoIndentState} (h : st.isIndented = true) :
    fmtStep st [] = none := by
  unfold fmtStep
  rw [if_pos (by rw [preStep_isIndented]; exact h)]

theorem fmtStep_skip {st : AutoIndentState} {sp : Span} {rest : List SpannedToken}
    (h : st.isIndented = false) :
    fmtStep st ((Token.TabsOrSpaces, sp) :: rest) =
      some (none, preStep st (some (Token.TabsOrSpaces, sp)), rest) := by
  unfold fmtStep
  rw [if_neg (by rw [preStep_isIndented]; simp [h])]
  rfl

/-- Whether the head token is a run of tabs or spaces. -/
def headTabs : List SpannedToken → Bool
  | (Token.TabsOrSpaces, _) :: _ => true
  | _ => false

/-- Whether the head token is an environment end. -/
def headEnd : List SpannedToken → Bool
  | (Token.EnvironmentEnd _, _) :: _ => true
  | _ => false

theorem fmtStep_emit {st : AutoIndentState} {toks : List SpannedToken}
    (h : st.isIndented = false) (hh : headTabs toks = false) :
    fmtStep st toks =
      some (some (Token.OwnedString
          (indentOf (preStep st toks.head?).targetIndentationLevel), ⟨0, 1⟩),
        { preStep st toks.head? with isIndented := true }, toks) := by
  unfold fmtStep
  rw [if_neg (by rw [preStep_isIndented]; simp [h])]
  cases toks with
  | nil => rfl
  | cons p rest =>
    rcases p with ⟨t, sp⟩
    cases t <;> first | rfl | (exfalso; simp [headTabs] at hh)

theorem tokenClass (t : Token) :
    (∃ n, t = Token.EnvironmentBegin n) ∨ (∃ n, t = Token.EnvironmentEnd n) ∨
    t = Token.Newline ∨
    (t.isEnvBegin = false ∧ t.isEnvEnd = false ∧ t ≠ Token.Newline) := by
  cases t <;> simp [Token.isEnvBegin, Token.isEnvEnd]

/-- The inductive invariant of claim C8 relating a reachable configuration
to the position `c` it has consumed up to: `inside_document` tracks whether
`\begin{document}` occurs among the peeked tokens, and the counter equals
the counted begins minus a deficit `d` bounded by the ends seen so far
(plus one for an end currently being indented against). -/
def C8Inv (L : List SpannedToken) (p : AutoIndentState × List SpannedToken) : Prop :=
  ∃ c, c ≤ L.length ∧ p.2 = L.drop c ∧
    (seenBdoc L c = true → p.1.insideDocument = true) ∧
    (p.1.insideDocument = true → seenBdoc L (c + 1) = true) ∧
    (p.1.insideDocument = true → p.1.isIndented = false → seenBdoc L c = true) ∧
    ∃ d, p.1.targetIndentationLevel + d = incCount L c ∧
      d ≤ endCount L c + (if p.1.isIndented && headEnd p.2 then 1 else 0)

theorem C8Inv_step (L : List SpannedToken)
    (hbal : ∀ c, c ≤ L.length → endCount L c ≤ incCount L c)
    (hcap : incCount L L.length ≤ 255)
    {p q : AutoIndentState × List SpannedToken}
    (hstep : FmtStepRel p q) (hinv : C8Inv L p) : C8Inv L q := by
  obtain ⟨out, hfs⟩ := hstep
  rcases p with ⟨st, toks⟩
  rcases q with ⟨st2, toks2⟩
  obtain ⟨c, hc, hrest, hlow, hupp, hupps, d, hd, hdb⟩ := hinv
  dsimp only at hfs hrest hlow hupp hupps hd hdb ⊢
  by_cases hind : st.isIndented = true
  · -- an already-indented line: the step consumes the head token
    cases toks with
    | nil =>
      rw [fmtStep_nil_of_indented hind] at hfs
      exact absurd hfs (by simp)
    | cons ts rest =>
      rcases ts with ⟨t, sp⟩
      rw [fmtStep_consume hind] at hfs
      simp only [Option.some.injEq, Prod.mk.injEq] at hfs
      obtain ⟨-, hst2, htoks2⟩ := hfs
      have hne : L.drop c ≠ [] := by rw [← hrest]; simp
      have hclen : c < L.length := by
        by_contra hcl
        exact hne (List.drop_eq_nil_of_le (by omega))
      have hgc : L[c]? = some (t, sp) := by
        rw [← List.head?_drop, ← hrest]
        rfl
      have hgel : L[c] = (t, sp) :=
        Option.some_inj.mp ((List.getElem?_eq_getElem hclen).symm.trans hgc)
      have hrest2 : rest = L.drop (c + 1) := by
        have hd2 := List.drop_eq_getElem_cons hclen
        rw [hgel] at hd2
        rw [hd2] at hrest
        exact (List.cons_eq_cons.mp hrest).2
      subst htoks2
      subst hst2
      have hseq : seenBdoc L (c + 1) = (seenBdoc L c || isBdocTok (t, sp)) :=
        seenBdoc_succ L c hgc
      have hbonus0 : (if st.isIndented && headEnd ((t, sp) :: rest) then 1 else 0)
          = (if headEnd ((t, sp) :: rest) then 1 else 0) := by
        rw [hind]
        simp
      rw [hbonus0] at hdb
      rcases tokenClass t with ⟨n, rfl⟩ | ⟨n, rfl⟩ | rfl | ⟨hb, he, hn⟩
      · -- consumed token is an environment begin
        have hendc : endCount L (c + 1) = endCount L c := by
          rw [endCount_succ L c hgc]
          simp [Token.isEnvEnd]
        have hdb' : d ≤ endCount L c := by
          have : headEnd ((Token.EnvironmentBegin n, sp) :: rest) = false := rfl
          rw [this] at hdb
          simpa using hdb
        by_cases hdoc : n = docName
        · subst hdoc
          have hst1 : preStep st (some (Token.EnvironmentBegin docName, sp)) =
              { st with insideDocument := true } := by
            simp [preStep]
          have hpost : postStep ({ st with insideDocument := true })
              (some (Token.EnvironmentBegin docName, sp)) =
              { st with insideDocument := true, targetIndentationLevel := incr8 st.targetIndentationLevel } := by
            simp [postStep]
          rw [hst1, hpost]
          have hbd : isBdocTok (Token.EnvironmentBegin docName, sp) = true := by
            simp [isBdocTok]
          have hseen1 : seenBdoc L (c + 1) = true := by
            rw [hseq, hbd]
            simp
          have hinc : incCount L (c + 1) = incCount L c + 1 := by
            rw [incCount_succ L c hgc, hbd]
            simp [Token.isEnvBegin]
          have hnw : st.targetIndentationLevel + 1 < 256 := by
            have h1 : incCount L (c + 1) ≤ incCount L L.length :=
              incCount_mono L (by omega)
            omega
          refine ⟨c + 1, by omega, hrest2, fun _ => rfl, fun _ => seenBdoc_mono hseen1,
            ?_, d, ?_, ?_⟩
          · intro _ habs
            have : st.isIndented = false := habs
            rw [hind] at this
            exact absurd this (by simp)
          · show incr8 st.targetIndentationLevel + d = incCount L (c + 1)
            rw [hinc]
            unfold incr8
            rw [Nat.mod_eq_of_lt hnw]
            omega
          · show d ≤ endCount L (c + 1) + _
            rw [hendc]
            omega
        · -- a non-document begin on an indented line
          have hst1 : preStep st (some (Token.EnvironmentBegin n, sp)) = st := by
            simp [preStep, hdoc]
          rw [hst1]
          have hbd : isBdocTok (Token.EnvironmentBegin n, sp) = false := by
            simp only [isBdocTok, decide_eq_false_iff_not]
            intro hcon
            injection hcon with hcon2
            exact hdoc hcon2
          by_cases hin : st.insideDocument = true
          · have hpost : postStep st (some (Token.EnvironmentBegin n, sp)) =
                { st with targetIndentationLevel := incr8 st.targetIndentationLevel } := by
              simp [postStep, hin]
            rw [hpost]
            have hseenc : seenBdoc L c = true := by
              have h1 := hupp hin
              rw [hseq, hbd] at h1
              simpa using h1
            have hinc : incCount L (c + 1) = incCount L c + 1 := by
              rw [incCount_succ L c hgc, hbd, hseenc]
              simp [Token.isEnvBegin]
            have hnw : st.targetIndentationLevel + 1 < 256 := by
              have h1 : incCount L (c + 1) ≤ incCount L L.length :=
                incCount_mono L (by omega)
              omega
            refine ⟨c + 1, by omega, hrest2, fun _ => hin, ?_, ?_, d, ?_, ?_⟩
            · intro _
              exact seenBdoc_mono (hupp hin)
            · intro _ habs
              have : st.isIndented = false := habs
              rw [hind] at this
              exact absurd this (by simp)
            · show incr8 st.targetIndentationLevel + d = incCount L (c + 1)
              rw [hinc]
              unfold incr8
              rw [Nat.mod_eq_of_lt hnw]
              omega
            · show d ≤ endCount L (c + 1) + _
              rw [hendc]
              omega
          · have hin' : st.insideDocument = false := by
              cases hsd : st.insideDocument
              · rfl
              · exact absurd hsd hin
            have hpost : postStep st (some (Token.EnvironmentBegin n, sp)) = st := by
              simp [postStep, hin']
            rw [hpost]
            have hseenc : seenBdoc L c = false := by
              cases hsn : seenBdoc L c
              · rfl
              · exact absurd (hlow hsn) hin
            have hinc : incCount L (c + 1) = incCount L c := by
              rw [incCount_succ L c hgc, hbd, hseenc]
              simp
            refine ⟨c + 1, by omega, hrest2, ?_, ?_, ?_, d, ?_, ?_⟩
            · intro habs
              rw [hseq, hbd, hseenc] at habs
              exact absurd habs (by simp)
            · intro habs
              rw [habs] at hin'
              exact absurd hin' (by simp)
            · intro habs
              rw [habs] at hin'
              exact absurd hin' (by simp)
            · rw [hinc]
              exact hd
            · show d ≤ endCount L (c + 1) + _
              rw [hendc]
              omega
      · -- consumed token is an environment end
        have hst1 : preStep st (some (Token.EnvironmentEnd n, sp)) = st := by
          simp [preStep, hind]
        have hpost : postStep st (some (Token.EnvironmentEnd n, sp)) = st := by
          simp [postStep]
        rw [hst1, hpost]
        have hbd : isBdocTok (Token.EnvironmentEnd n, sp) = false := by
          simp [isBdocTok]
        have hinc : incCount L (c + 1) = incCount L c := by
          rw [incCount_succ L c hgc]
          simp [Token.isEnvBegin]
        have hendc : endCount L (c + 1) = endCount L c + 1 := by
          rw [endCount_succ L c hgc]
          simp [Token.isEnvEnd]
        have hdb' : d ≤ endCount L c + 1 := by
          have : headEnd ((Token.EnvironmentEnd n, sp) :: rest) = true := rfl
          rw [this] at hdb
          simpa using hdb
        refine ⟨c + 1, by omega, hrest2, ?_, ?_, ?_, d, ?_, ?_⟩
        · intro hsn
          rw [hseq, hbd] at hsn
          exact hlow (by simpa using hsn)
        · intro hin
          exact seenBdoc_mono (hupp hin)
        · intro _ habs
          have : st.isIndented = false := habs
          rw [hind] at this
          exact absurd this (by simp)
        · rw [hinc]
          exact hd
        · show d ≤ endCount L (c + 1) + _
          rw [hendc]
          omega
      · -- consumed token is a newline: the indented flag is cleared
        have hst1 : preStep st (some (Token.Newline, sp)) = st := by
          simp [preStep]
        have hpost : postStep st (some (Token.Newline, sp)) =
            { st with isIndented := false } := by
          simp [postStep]
        rw [hst1, hpost]
        have hbd : isBdocTok (Token.Newline, sp) = false := by
          simp [isBdocTok]
        have hinc : incCount L (c + 1) = incCount L c := by
          rw [incCount_succ L c hgc]
          simp [Token.isEnvBegin]
        have hendc : endCount L (c + 1) = endCount L c := by
          rw [endCount_succ L c hgc]
          simp [Token.isEnvEnd]
        have hdb' : d ≤ endCount L c := by
          have : headEnd ((Token.Newline, sp) :: rest) = false := rfl
          rw [this] at hdb
          simpa using hdb
        refine ⟨c + 1, by omega, hrest2, ?_, ?_, ?_, d, ?_, ?_⟩
        · intro hsn
          rw [hseq, hbd] at hsn
          exact hlow (by simpa using hsn)
        · intro hin
          exact seenBdoc_mono (hupp hin)
        · intro hin _
          exact hupp hin
        · rw [hinc]
          exact hd
        · show d ≤ endCount L (c + 1) + _
          rw [hendc]
          omega
      · -- consumed token is anything else
        have hst1 : preStep st (some (t, sp)) = st := preStep_other hb he
        have hpost : postStep st (some (t, sp)) = st := postStep_other hb hn
        rw [hst1, hpost]
        have hbd : isBdocTok (t, sp) = false := by
          cases t <;> simp_all [isBdocTok, Token.isEnvBegin]
        have hinc : incCount L (c + 1) = incCount L c := by
          rw [incCount_succ L c hgc, hb]
          simp
        have hendc : endCount L (c + 1) = endCount L c := by
          rw [endCount_succ L c hgc, he]
          simp
        have hdb' : d ≤ endCount L c := by
          have hhe : headEnd ((t, sp) :: rest) = false := by
            cases t <;> simp_all [headEnd, Token.isEnvEnd]
          rw [hhe] at hdb
          simpa using hdb
        refine ⟨c + 1, by omega, hrest2, ?_, ?_, ?_, d, ?_, ?_⟩
        · intro hsn
          rw [hseq, hbd] at hsn
          exact hlow (by simpa using hsn)
        · intro hin
          exact seenBdoc_mono (hupp hin)
        · intro _ habs
          have : st.isIndented = false := habs
          rw [hind] at this
          exact absurd this (by simp)
        · rw [hinc]
          exact hd
        · show d ≤ endCount L (c + 1) + _
          rw [hendc]
          omega
  · -- a not-yet-indented line: skip leading whitespace or emit the indent
    have hind' : st.isIndented = false := by
      cases hsi : st.isIndented
      · rfl
      · exact absurd hsi hind
    have hbonus0 : (if st.isIndented && headEnd toks then 1 else 0) = 0 := by
      rw [hind']
      simp
    rw [hbonus0] at hdb
    cases toks with
    | nil =>
      -- emit the indentation token at end of input
      have hcl : L.length ≤ c := by
        rcases Nat.lt_or_ge c L.length with hlt | hge
        · exfalso
          have hcons := List.drop_eq_getElem_cons hlt
          rw [← hrest] at hcons
          exact List.cons_ne_nil _ _ hcons.symm
        · exact hge
      have hceq : c = L.length := by omega
      rw [fmtStep_emit hind' (by rfl)] at hfs
      simp only [Option.some.injEq, Prod.mk.injEq] at hfs
      obtain ⟨-, hst2, htoks2⟩ := hfs
      subst htoks2
      have hst1 : preStep st (List.head? []) = st := rfl
      rw [hst1] at hst2
      subst hst2
      refine ⟨c, hc, hrest, hlow, ?_, ?_, d, hd, ?_⟩
      · intro hin
        have := hupps hin hind'
        exact seenBdoc_mono this
      · intro _ habs
        exact absurd habs (by simp)
      · show d ≤ endCount L c + _
        omega
    | cons ts rest =>
      rcases ts with ⟨t, sp⟩
      have hne : L.drop c ≠ [] := by rw [← hrest]; simp
      have hclen : c < L.length := by
        by_contra hcl
        exact hne (List.drop_eq_nil_of_le (by omega))
      have hgc : L[c]? = some (t, sp) := by
        rw [← List.head?_drop, ← hrest]
        rfl
      have hgel : L[c] = (t, sp) :=
        Option.some_inj.mp ((List.getElem?_eq_getElem hclen).symm.trans hgc)
      have hrest2 : rest = L.drop (c + 1) := by
        have hd2 := List.drop_eq_getElem_cons hclen
        rw [hgel] at hd2
        rw [hd2] at hrest
        exact (List.cons_eq_cons.mp hrest).2
      have hseq : seenBdoc L (c + 1) = (seenBdoc L c || isBdocTok (t, sp)) :=
        seenBdoc_succ L c hgc
      by_cases htabs : t = Token.TabsOrSpaces
      · -- skip the leading whitespace run
        subst htabs
        rw [fmtStep_skip hind'] at hfs
        simp only [Option.some.injEq, Prod.mk.injEq] at hfs
        obtain ⟨-, hst2, htoks2⟩ := hfs
        subst htoks2
        have hst1 : preStep st (some (Token.TabsOrSpaces, sp)) = st :=
          preStep_other rfl rfl
        rw [hst1] at hst2
        subst hst2
        have hbd : isBdocTok (Token.TabsOrSpaces, sp) = false := by
          simp [isBdocTok]
        have hinc : incCount L (c + 1) = incCount L c := by
          rw [incCount_succ L c hgc]
          simp [Token.isEnvBegin]
        have hendc : endCount L (c + 1) = endCount L c := by
          rw [endCount_succ L c hgc]
          simp [Token.isEnvEnd]
        refine ⟨c + 1, by omega, hrest2, ?_, ?_, ?_, d, ?_, ?_⟩
        · intro hsn
          rw [hseq, hbd] at hsn
          exact hlow (by simpa using hsn)
        · intro hin
          exact seenBdoc_mono (hupp hin)
        · intro hin _
          exact seenBdoc_mono (hupps hin hind')
        · rw [hinc]
          exact hd
        · show d ≤ endCount L (c + 1) + _
          rw [hendc]
          omega
      · -- emit the synthetic indentation token (possibly after a decrement)
        have hht : headTabs ((t, sp) :: rest) = false := by
          cases t <;> simp_all [headTabs]
        rw [fmtStep_emit hind' hht] at hfs
        simp only [Option.some.injEq, Prod.mk.injEq] at hfs
        obtain ⟨-, hst2, htoks2⟩ := hfs
        subst htoks2
        rcases tokenClass t with ⟨n, rfl⟩ | ⟨n, rfl⟩ | rfl | ⟨hb, he, hn⟩
        · -- peeked begin: inside may be set; no decrement
          by_cases hdoc : n = docName
          · subst hdoc
            have hst1 : preStep st
                (List.head? ((Token.EnvironmentBegin docName, sp) :: rest)) =
                { st with insideDocument := true } := by
              simp [preStep]
            rw [hst1] at hst2
            subst hst2
            have hbd : isBdocTok (Token.EnvironmentBegin docName, sp) = true := by
              simp [isBdocTok]
            have hseen1 : seenBdoc L (c + 1) = true := by
              rw [hseq, hbd]
              simp
            refine ⟨c, hc, hrest, fun _ => rfl, fun _ => hseen1, ?_, d, hd, ?_⟩
            · intro _ habs
              exact absurd habs (by simp)
            · show d ≤ endCount L c + _
              omega
          · have hst1 : preStep st
                (List.head? ((Token.EnvironmentBegin n, sp) :: rest)) = st := by
              simp [preStep, hdoc]
            rw [hst1] at hst2
            subst hst2
            refine ⟨c, hc, hrest, hlow, ?_, ?_, d, hd, ?_⟩
            · intro hin
              exact seenBdoc_mono (hupps hin hind')
            · intro _ habs
              exact absurd habs (by simp)
            · show d ≤ endCount L c + _
              omega
        · -- peeked end on an unindented line: the decrement branch
          by_cases hin : st.insideDocument = true
          · -- decrement fires; show it cannot be at zero
            have hst1 : preStep st
                (List.head? ((Token.EnvironmentEnd n, sp) :: rest)) =
                { st with targetIndentationLevel := decr8 st.targetIndentationLevel } := by
              simp [preStep, hind', hin]
            rw [hst1] at hst2
            subst hst2
            have hseenc : seenBdoc L c = true := hupps hin hind'
            have hendc : endCount L (c + 1) = endCount L c + 1 := by
              rw [endCount_succ L c hgc]
              simp [Token.isEnvEnd]
            have hinc : incCount L (c + 1) = incCount L c := by
              rw [incCount_succ L c hgc]
              simp [Token.isEnvBegin]
            have hkey : endCount L c + 1 ≤ incCount L c := by
              have := hbal (c + 1) (by omega)
              rw [hendc, hinc] at this
              exact this
            have hpos : 1 ≤ st.targetIndentationLevel := by omega
            have hle : st.targetIndentationLevel ≤ 255 := by
              have h1 : incCount L c ≤ incCount L L.length := incCount_mono L hc
              omega
            have hdec : decr8 st.targetIndentationLevel =
                st.targetIndentationLevel - 1 := by
              unfold decr8
              omega
            refine ⟨c, hc, hrest, ?_, ?_, ?_, d + 1, ?_, ?_⟩
            · intro _
              exact hin
            · intro _
              exact seenBdoc_mono hseenc
            · intro _ habs
              exact absurd habs (by simp)
            · show decr8 st.targetIndentationLevel + (d + 1) = incCount L c
              rw [hdec]
              omega
            · show d + 1 ≤ endCount L c + _
              have hhe : headEnd ((Token.EnvironmentEnd n, sp) :: rest) = true := rfl
              rw [hhe]
              simp
              omega
          · have hin' : st.insideDocument = false := by
              cases hsd : st.insideDocument
              · rfl
              · exact absurd hsd hin
            have hst1 : preStep st
                (List.head? ((Token.EnvironmentEnd n, sp) :: rest)) = st := by
              simp [preStep, hin']
            rw [hst1] at hst2
            subst hst2
            refine ⟨c, hc, hrest, hlow, ?_, ?_, d, hd, ?_⟩
            · intro habs
              rw [habs] at hin'
              exact absurd hin' (by simp)
            · intro habs
              rw [habs] at hin'
              exact absurd hin' (by simp)
            · show d ≤ endCount L c + _
              omega
        · -- peeked newline
          have hst1 : preStep st (List.head? ((Token.Newline, sp) :: rest)) = st := by
            simp [preStep]
          rw [hst1] at hst2
          subst hst2
          refine ⟨c, hc, hrest, hlow, ?_, ?_, d, hd, ?_⟩
          · intro hin
            exact seenBdoc_mono (hupps hin hind')
          · intro _ habs
            exact absurd habs (by simp)
          · show d ≤ endCount L c + _
            omega
        · -- peeked anything else
          have hst1 : preStep st (List.head? ((t, sp) :: rest)) = st :=
            preStep_other hb he
          rw [hst1] at hst2
          subst hst2
          refine ⟨c, hc, hrest, hlow, ?_, ?_, d, hd, ?_⟩
          · intro hin
            exact seenBdoc_mono (hupps hin hind')
          · intro _ habs
            exact absurd habs (by simp)
          · show d ≤ endCount L c + _
            omega

theorem C8Inv_reach (L : List SpannedToken)
    (hbal : ∀ c, c ≤ L.length → endCount L c ≤ incCount L c)
    (hcap : incCount L L.length ≤ 255)
    {p : AutoIndentState × List SpannedToken}
    (h : FmtReach (autoIndentInit, L) p) : C8Inv L p := by
  induction h with
  | refl =>
    refine ⟨0, by omega, by simp, ?_, ?_, ?_, 0, ?_, ?_⟩
    · intro habs
      simp [seenBdoc] at habs
    · intro habs
      simp [autoIndentInit] at habs
    · intro habs
      simp [autoIndentInit] at habs
    · simp [autoIndentInit, incCount, incCountAux]
    · simp
  | tail hr hs ih => exact C8Inv_step L hbal hcap hs ih

theorem decFires_elim {st : AutoIndentState} {toks : List SpannedToken}
    (h : decFires st toks.head? = true) :
    headEnd toks = true ∧ st.isIndented = false ∧ st.insideDocument = true := by
  unfold decFires at h
  rw [Bool.and_eq_true, Bool.and_eq_true] at h
  obtain ⟨h1, h2, h3⟩ := h
  refine ⟨?_, by simpa using h2, h3⟩
  cases toks with
  | nil => exact absurd h1 (by simp)
  | cons ts rest =>
    rcases ts with ⟨t, sp⟩
    cases t <;> simp_all [headEnd]

/-- C8 (amended).  For every input token stream in which (i) every prefix
contains at least as many environment-begin tokens at or after the first
`\begin{document}` as it contains environment-end tokens, and (ii) at most
255 such counted begins occur in total (the `u8` range), the counter
`target_indentation_level` never reaches the decrement branch with value
zero in any reachable configuration: the unsigned subtraction cannot
underflow.  (The claim's plain begin/end balance is not sufficient —
see the counterexample — because begins occurring before
`\begin{document}` never increment the counter.) -/
theorem auto_indent_no_underflow (L : List SpannedToken)
    (hbal : ∀ c, c ≤ L.length → endCount L c ≤ incCount L c)
    (hcap : incCount L L.length ≤ 255)
    (p : AutoIndentState × List SpannedToken)
    (hreach : FmtReach (autoIndentInit, L) p) :
    ¬(decFires p.1 p.2.head? = true ∧ p.1.targetIndentationLevel = 0) := by
  rintro ⟨hdf, hzero⟩
  obtain ⟨c, hc, hrest, hlow, hupp, hupps, d, hd, hdb⟩ := C8Inv_reach L hbal hcap hreach
  rcases p with ⟨st, toks⟩
  dsimp only at hdf hzero hrest hlow hupp hupps hd hdb
  obtain ⟨hhe, hnind, hin⟩ := decFires_elim hdf
  cases toks with
  | nil => exact absurd hhe (by simp [headEnd])
  | cons ts rest =>
    rcases ts with ⟨t, sp⟩
    have hne : L.drop c ≠ [] := by rw [← hrest]; simp
    have hclen : c < L.length := by
      by_contra hcl
      exact hne (List.drop_eq_nil_of_le (by omega))
    have hgc : L[c]? = some (t, sp) := by
      rw [← List.head?_drop, ← hrest]
      rfl
    have hend : t.isEnvEnd = true := by
      cases t <;> simp_all [headEnd, Token.isEnvEnd]
    have hnb : t.isEnvBegin = false := by
      cases t <;> simp_all [Token.isEnvEnd, Token.isEnvBegin]
    have hendc : endCount L (c + 1) = endCount L c + 1 := by
      rw [endCount_succ L c hgc, hend]
      simp
    have hincc : incCount L (c + 1) = incCount L c := by
      rw [incCount_succ L c hgc, hnb]
      simp
    have hkey := hbal (c + 1) (by omega)
    rw [hendc, hincc] at hkey
    have hb0 : (if st.isIndented && headEnd ((t, sp) :: rest) then 1 else 0) = 0 := by
      rw [hnind]
      simp
    rw [hb0] at hdb
    omega

/-- C8 amended witness: a prefix-balanced document whose initial
configuration the theorem certifies. -/
theorem auto_indent_no_underflow_witness :
    ¬(decFires
        ((autoIndentInit,
          [((Token.EnvironmentBegin docName : Token), (⟨0, 16⟩ : Span)),
           (Token.Newline, ⟨16, 17⟩),
           (Token.EnvironmentEnd docName, ⟨17, 31⟩)]) :
            AutoIndentState × List SpannedToken).1
        ([((Token.EnvironmentBegin docName : Token), (⟨0, 16⟩ : Span)),
          (Token.Newline, ⟨16, 17⟩),
          (Token.EnvironmentEnd docName, ⟨17, 31⟩)] : List SpannedToken).head? = true ∧
      autoIndentInit.targetIndentationLevel = 0) :=
  auto_indent_no_underflow
    [(Token.EnvironmentBegin docName, ⟨0, 16⟩), (Token.Newline, ⟨16, 17⟩),
     (Token.EnvironmentEnd docName, ⟨17, 31⟩)]
    (by decide) (by decide) _ Relation.ReflTransGen.refl

/-- The characters carrying one-character literal rules in the `Token`
declaration (everything except the multi-character and class rules). -/
def singleLitChars : List Char :=
  ['&', '*', '@', '{', '}', ']', '[', ':', ',', '.', '=', '!', '#', '^', '-',
   ')', '(', '+', '?', ';', '~', '_']

/-- Whether `ch` carries a one-character literal rule. -/
def isSingleLitChar (ch : Char) : Bool := singleLitChars.contains ch

/-- The declared lexer rules of `Token`, abstracted: the 22 one-character
literals are grouped into `singleChar ch` (guarded by `isSingleLitChar`),
and each remaining pattern is its own rule. -/
inductive Rule where
  | singleChar (ch : Char)
  | displayMathClose
  | displayMathOpen
  | inlineMathClose
  | inlineMathOpen
  | doubleBackslash
  | documentClass
  | dollarSign
  | doubleDollarSign
  | escapedChar
  | insertSpace
  | newline
  | commandName
  | comment
  | envBegin
  | envEnd
  | invalidCommand
  | number
  | word
  | tabsOrSpaces
deriving DecidableEq, Repr

/-- Length matched by a literal pattern: the literal's length when it heads
the input, else 0. -/
def litLen (lit s : List Char) : Nat := if lit.isPrefixOf s then lit.length else 0

/-- The maximal number of characters rule `r` can match at the head of `s`
(0 when the rule does not match), read off the declared patterns. -/
def ruleLen : Rule → List Char → Nat
  | Rule.singleChar ch, s => if isSingleLitChar ch then litLen [ch] s else 0
  | Rule.displayMathClose, s => litLen ('\\' :: ']' :: []) s
  | Rule.displayMathOpen, s => litLen ('\\' :: '[' :: []) s
  | Rule.inlineMathClose, s => litLen ('\\' :: ')' :: []) s
  | Rule.inlineMathOpen, s => litLen ('\\' :: '(' :: []) s
  | Rule.doubleBackslash, s => litLen ('\\' :: '\\' :: []) s
  | Rule.documentClass, s => litLen ('\\' :: "documentclass".toList) s
  | Rule.dollarSign, s => litLen ['$'] s
  | Rule.doubleDollarSign, s => litLen ['$', '$'] s
  | Rule.escapedChar, s =>
    match s with
    | c :: d :: _ => if c = '\\' && isEscapable d then 2 else 0
    | _ => 0
  | Rule.insertSpace, s =>
    match s with
    | c :: d :: _ => if c = '\\' && isSpaceEscape d then 2 else 0
    | _ => 0
  | Rule.newline, s =>
    match s with
    | c :: rest =>
      if c = '\n' then 1
      else if c = '\r' && rest.head? = some '\n' then 2
      else 0
    | [] => 0
  | Rule.commandName, s =>
    match s with
    | c :: rest =>
      if c = '\\' then (if 0 < letterRun rest then 1 + letterRun rest else 0) else 0
    | [] => 0
  | Rule.comment, s =>
    match s with
    | c :: rest =>
      if c = '%' then 1 + (rest.takeWhile (fun x => !decide (x = '\n'))).length else 0
    | [] => 0
  | Rule.envBegin, s =>
    match s with
    | c :: rest =>
      if c = '\\' then
        match envScan rest with
        | some (Token.EnvironmentBegin _, n) => n
        | _ => 0
      else 0
    | [] => 0
  | Rule.envEnd, s =>
    match s with
    | c :: rest =>
      if c = '\\' then
        match envScan rest with
        | some (Token.EnvironmentEnd _, n) => n
        | _ => 0
      else 0
    | [] => 0
  | Rule.invalidCommand, s =>
    match s with
    | c :: d :: _ => if c = '\\' && !isLatinLetter d then 2 else 0
    | _ => 0
  | Rule.number, s =>
    match s with
    | c :: rest => if isAsciiDigit c then 1 + digitRun rest else 0
    | [] => 0
  | Rule.word, s =>
    match s with
    | c :: rest => if isLatinLetter c then 1 + letterRun rest else 0
    | [] => 0
  | Rule.tabsOrSpaces, s =>
    match s with
    | c :: rest => if isTabOrSpace c then 1 + spaceRun rest else 0
    | [] => 0

/-- The declared priorities, pinned only where `logos` must disambiguate
ties: a literal scores twice its length, so two-character literals (4) beat
the class regex `InvalidCommand` (3), and the `\documentclass` literal (28)
beats the `CommandName` regex (4). -/
def priority : Rule → Nat
  | Rule.singleChar _ => 2
  | Rule.displayMathClose => 4
  | Rule.displayMathOpen => 4
  | Rule.inlineMathClose => 4
  | Rule.inlineMathOpen => 4
  | Rule.doubleBackslash => 4
  | Rule.documentClass => 28
  | Rule.dollarSign => 2
  | Rule.doubleDollarSign => 4
  | Rule.escapedChar => 4
  | Rule.insertSpace => 4
  | Rule.newline => 2
  | Rule.commandName => 4
  | Rule.comment => 2
  | Rule.envBegin => 16
  | Rule.envEnd => 12
  | Rule.invalidCommand => 3
  | Rule.number => 2
  | Rule.word => 2
  | Rule.tabsOrSpaces => 2

/-- The rule that produces each token variant (`none` for the fallback
`Other` and the synthetic `OwnedString`). -/
def tokenRule : Token → Option Rule
  | Token.And => some (Rule.singleChar '&')
  | Token.Asterix => some (Rule.singleChar '*')
  | Token.At => some (Rule.singleChar '@')
  | Token.BraceOpen => some (Rule.singleChar '{')
  | Token.BraceClose => some (Rule.singleChar '}')
  | Token.BracketClose => some (Rule.singleChar ']')
  | Token.BracketOpen => some (Rule.singleChar '[')
  | Token.Colon => some (Rule.singleChar ':')
  | Token.Comma => some (Rule.singleChar ',')
  | Token.CommandName => some Rule.commandName
  | Token.Comment => some Rule.comment
  | Token.DisplayMathClose => some Rule.displayMathClose
  | Token.DisplayMathOpen => some Rule.displayMathOpen
  | Token.DocumentClass => some Rule.documentClass
  | Token.DollarSign => some Rule.dollarSign
  | Token.Dot => some (Rule.singleChar '.')
  | Token.DoubleBackslash => some Rule.doubleBackslash
  | Token.DoubleDollarSign => some Rule.doubleDollarSign
  | Token.EnvironmentBegin _ => some Rule.envBegin
  | Token.EnvironmentEnd _ => some Rule.envEnd
  | Token.EqualSign => some (Rule.singleChar '=')
  | Token.EscapedChar => some Rule.escapedChar
  | Token.ExclamationMark => some (Rule.singleChar '!')
  | Token.Hash => some (Rule.singleChar '#')
  | Token.Hat => some (Rule.singleChar '^')
  | Token.Hyphen => some (Rule.singleChar '-')
  | Token.InlineMathClose => some Rule.inlineMathClose
  | Token.InlineMathOpen => some Rule.inlineMathOpen
  | Token.InsertSpace => some Rule.insertSpace
  | Token.InvalidCommand => some Rule.invalidCommand
  | Token.Newline => some Rule.newline
  | Token.Number => some Rule.number
  | Token.Other => none
  | Token.OwnedString _ => none
  | Token.ParenClose => some (Rule.singleChar ')')
  | Token.ParenOpen => some (Rule.singleChar '(')
  | Token.PlusSign => some (Rule.singleChar '+')
  | Token.QuestionMark => some (Rule.singleChar '?')
  | Token.Semicolon => some (Rule.singleChar ';')
  | Token.TabsOrSpaces => some Rule.tabsOrSpaces
  | Token.Tilde => some (Rule.singleChar '~')
  | Token.Underscore => some (Rule.singleChar '_')
  | Token.Word => some Rule.word

theorem litLen_le (l s : List Char) : litLen l s ≤ l.length := by
  unfold litLen
  split <;> simp

theorem singleChar_le_one (ch : Char) (s : List Char) :
    ruleLen (Rule.singleChar ch) s ≤ 1 := by
  simp only [ruleLen]
  split
  · simpa using litLen_le [ch] s
  · simp

theorem litLen_head_ne {x c : Char} {l cs : List Char} (h : ¬x = c) :
    litLen (x :: l) (c :: cs) = 0 := by
  have hb : (x == c) = false := by
    simp [h]
  simp [litLen, List.isPrefixOf, hb]

theorem litLen_single {c : Char} (cs : List Char) : litLen [c] (c :: cs) = 1 := by
  simp [litLen, List.isPrefixOf]

theorem litLen_second_ne {x y c d : Char} {l cs : List Char} (h : ¬y = d) :
    litLen (x :: y :: l) (c :: d :: cs) = 0 := by
  have hb : (y == d) = false := by
    simp [h]
  simp [litLen, List.isPrefixOf, hb]

theorem litLen_two_nil (x y : Char) (l : List Char) (c : Char) :
    litLen (x :: y :: l) [c] = 0 := by
  simp [litLen, List.isPrefixOf]

theorem letterRun_pos {d : Char} (ds : List Char) (h : isLatinLetter d = true) :
    letterRun (d :: ds) = 1 + letterRun ds := by
  simp [letterRun, List.takeWhile_cons, h]
  omega

theorem letterRun_neg {d : Char} (ds : List Char) (h : isLatinLetter d = false) :
    letterRun (d :: ds) = 0 := by
  simp [letterRun, List.takeWhile_cons, h]

theorem digitRun_neg {d : Char} (ds : List Char) (h : isAsciiDigit d = false) :
    digitRun (d :: ds) = 0 := by
  simp [digitRun, List.takeWhile_cons, h]

theorem spaceRun_neg {d : Char} (ds : List Char) (h : isTabOrSpace d = false) :
    spaceRun (d :: ds) = 0 := by
  simp [spaceRun, List.takeWhile_cons, h]

theorem prefix_letters_le : ∀ (l cs : List Char), l.isPrefixOf cs = true →
    (∀ x ∈ l, isLatinLetter x = true) → l.length ≤ letterRun cs := by
  intro l
  induction l with
  | nil => intro cs _ _; simp
  | cons x xs ih =>
    intro cs hpre hall
    cases cs with
    | nil => simp [List.isPrefixOf] at hpre
    | cons c cs' =>
      simp only [List.isPrefixOf, Bool.and_eq_true, beq_iff_eq] at hpre
      obtain ⟨rfl, hpre'⟩ := hpre
      have hx : isLatinLetter x = true := hall x (by simp)
      rw [letterRun_pos cs' hx]
      have := ih cs' hpre' (fun y hy => hall y (by simp [hy]))
      simp only [List.length_cons]
      omega

theorem envTail_ge2 {cs name : List Char} {k : Nat}
    (h : envTail cs = some (name, k)) : 2 ≤ k := by
  dsimp only [envTail] at h
  split at h
  · exact absurd h (by simp)
  · rename_i hlen
    split at h
    · simp only [Option.some.injEq, Prod.mk.injEq] at h
      omega
    · simp only [Option.some.injEq, Prod.mk.injEq] at h
      omega
    · exact absurd h (by simp)

theorem envScan_shape {cs : List Char} {t : Token} {n : Nat}
    (h : envScan cs = some (t, n)) :
    ((∃ nm, t = Token.EnvironmentBegin nm) ∧ letterRun cs = 5 ∧ 9 ≤ n) ∨
    ((∃ nm, t = Token.EnvironmentEnd nm) ∧ letterRun cs = 3 ∧ 6 ≤ n) := by
  unfold envScan at h
  split_ifs at h with hp1 hp2
  · left
    obtain ⟨rest, hrest⟩ := List.isPrefixOf_iff_prefix.mp hp1
    split at h
    · rename_i name k heq
      simp only [Option.some.injEq, Prod.mk.injEq] at h
      have hk := envTail_ge2 heq
      refine ⟨⟨name, h.1.symm⟩, ?_, by omega⟩
      rw [← hrest]
      simp [letterRun, List.takeWhile_cons, List.cons_append,
        (by decide : isLatinLetter 'b' = true), (by decide : isLatinLetter 'e' = true),
        (by decide : isLatinLetter 'g' = true), (by decide : isLatinLetter 'i' = true),
        (by decide : isLatinLetter 'n' = true), (by decide : isLatinLetter '{' = false)]
    · exact absurd h (by simp)
  · right
    obtain ⟨rest, hrest⟩ := List.isPrefixOf_iff_prefix.mp hp2
    split at h
    · rename_i name k heq
      simp only [Option.some.injEq, Prod.mk.injEq] at h
      have hk := envTail_ge2 heq
      refine ⟨⟨name, h.1.symm⟩, ?_, by omega⟩
      rw [← hrest]
      simp [letterRun, List.takeWhile_cons, List.cons_append,
        (by decide : isLatinLetter 'e' = true), (by decide : isLatinLetter 'n' = true),
        (by decide : isLatinLetter 'd' = true), (by decide : isLatinLetter '{' = false)]
    · exact absurd h (by simp)

theorem envScan_head {cs : List Char} {t : Token} {n : Nat}
    (h : envScan cs = some (t, n)) :
    (∃ rest, cs = 'b' :: rest) ∨ (∃ rest, cs = 'e' :: rest) := by
  unfold envScan at h
  split_ifs at h with hp1 hp2
  · obtain ⟨rest, hrest⟩ := List.isPrefixOf_iff_prefix.mp hp1
    exact Or.inl ⟨_, hrest.symm⟩
  · obtain ⟨rest, hrest⟩ := List.isPrefixOf_iff_prefix.mp hp2
    exact Or.inr ⟨_, hrest.symm⟩

theorem z_displayMathClose {c : Char} {cs : List Char} (h : ¬c = '\\') :
    ruleLen Rule.displayMathClose (c :: cs) = 0 := by
  simp only [ruleLen]
  exact litLen_head_ne (fun hx => h hx.symm)

theorem z_displayMathOpen {c : Char} {cs : List Char} (h : ¬c = '\\') :
    ruleLen Rule.displayMathOpen (c :: cs) = 0 := by
  simp only [ruleLen]
  exact litLen_head_ne (fun hx => h hx.symm)

theorem z_inlineMathClose {c : Char} {cs : List Char} (h : ¬c = '\\') :
    ruleLen Rule.inlineMathClose (c :: cs) = 0 := by
  simp only [ruleLen]
  exact litLen_head_ne (fun hx => h hx.symm)

theorem z_inlineMathOpen {c : Char} {cs : List Char} (h : ¬c = '\\') :
    ruleLen Rule.inlineMathOpen (c :: cs) = 0 := by
  simp only [ruleLen]
  exact litLen_head_ne (fun hx => h hx.symm)

theorem z_doubleBackslash {c : Char} {cs : List Char} (h : ¬c = '\\') :
    ruleLen Rule.doubleBackslash (c :: cs) = 0 := by
  simp only [ruleLen]
  exact litLen_head_ne (fun hx => h hx.symm)

theorem z_documentClass {c : Char} {cs : List Char} (h : ¬c = '\\') :
    ruleLen Rule.documentClass (c :: cs) = 0 := by
  simp only [ruleLen]
  exact litLen_head_ne (fun hx => h hx.symm)

theorem z_dollarSign {c : Char} {cs : List Char} (h : ¬c = '$') :
    ruleLen Rule.dollarSign (c :: cs) = 0 := by
  simp only [ruleLen]
  exact litLen_head_ne (fun hx => h hx.symm)

theorem z_doubleDollarSign {c : Char} {cs : List Char} (h : ¬c = '$') :
    ruleLen Rule.doubleDollarSign (c :: cs) = 0 := by
  simp only [ruleLen]
  exact litLen_head_ne (fun hx => h hx.symm)

theorem z_escapedChar {c : Char} {cs : List Char} (h : ¬c = '\\') :
    ruleLen Rule.escapedChar (c :: cs) = 0 := by
  cases cs <;> simp [ruleLen, h]

theorem z_insertSpace {c : Char} {cs : List Char} (h : ¬c = '\\') :
    ruleLen Rule.insertSpace (c :: cs) = 0 := by
  cases cs <;> simp [ruleLen, h]

theorem z_newline {c : Char} {cs : List Char} (h1 : ¬c = '\n') (h2 : ¬c = '\r') :
    ruleLen Rule.newline (c :: cs) = 0 := by
  simp [ruleLen, h1, h2]

theorem z_commandName {c : Char} {cs : List Char} (h : ¬c = '\\') :
    ruleLen Rule.commandName (c :: cs) = 0 := by
  simp [ruleLen, h]

theorem z_comment {c : Char} {cs : List Char} (h : ¬c = '%') :
    ruleLen Rule.comment (c :: cs) = 0 := by
  simp [ruleLen, h]

theorem z_envBegin {c : Char} {cs : List Char} (h : ¬c = '\\') :
    ruleLen Rule.envBegin (c :: cs) = 0 := by
  simp [ruleLen, h]

theorem z_envEnd {c : Char} {cs : List Char} (h : ¬c = '\\') :
    ruleLen Rule.envEnd (c :: cs) = 0 := by
  simp [ruleLen, h]

theorem z_invalidCommand {c : Char} {cs : List Char} (h : ¬c = '\\') :
    ruleLen Rule.invalidCommand (c :: cs) = 0 := by
  cases cs <;> simp [ruleLen, h]

theorem z_number {c : Char} {cs : List Char} (h : isAsciiDigit c = false) :
    ruleLen Rule.number (c :: cs) = 0 := by
  simp [ruleLen, h]

theorem z_word {c : Char} {cs : List Char} (h : isLatinLetter c = false) :
    ruleLen Rule.word (c :: cs) = 0 := by
  simp [ruleLen, h]

theorem z_tabsOrSpaces {c : Char} {cs : List Char} (h : isTabOrSpace c = false) :
    ruleLen Rule.tabsOrSpaces (c :: cs) = 0 := by
  simp [ruleLen, h]

theorem z_singleChar_ne {ch c : Char} {cs : List Char} (h : ¬ch = c) :
    ruleLen (Rule.singleChar ch) (c :: cs) = 0 := by
  simp only [ruleLen]
  split
  · exact litLen_head_ne h
  · rfl

theorem z_singleChar_inv {ch c : Char} {cs : List Char}
    (h : isSingleLitChar c = false) :
    ruleLen (Rule.singleChar ch) (c :: cs) = 0 := by
  by_cases hch : ch = c
  · subst hch
    simp only [ruleLen, h]
    rfl
  · exact z_singleChar_ne hch

theorem z_envScan {c : Char} {cs : List Char} (h1 : ¬c = 'b') (h2 : ¬c = 'e') :
    envScan (c :: cs) = none := by
  have hb : (('b' : Char) == c) = false := by simp [Ne.symm h1]
  have he : (('e' : Char) == c) = false := by simp [Ne.symm h2]
  simp [envScan, List.isPrefixOf, hb, he]

theorem z_envBegin_scan {cs : List Char} (h : envScan cs = none) :
    ruleLen Rule.envBegin ('\\' :: cs) = 0 := by
  simp [ruleLen, h]

theorem z_envEnd_scan {cs : List Char} (h : envScan cs = none) :
    ruleLen Rule.envEnd ('\\' :: cs) = 0 := by
  simp [ruleLen, h]

theorem v_dollarSign {cs : List Char} : ruleLen Rule.dollarSign ('$' :: cs) = 1 := by
  simp only [ruleLen]
  exact litLen_single cs

theorem v_doubleDollarSign {cs : List Char} :
    ruleLen Rule.doubleDollarSign ('$' :: '$' :: cs) = 2 := by
  simp [ruleLen, litLen, List.isPrefixOf]

theorem v_doubleDollarSign0 {cs : List Char} (hh : ¬cs.head? = some '$') :
    ruleLen Rule.doubleDollarSign ('$' :: cs) = 0 := by
  cases cs with
  | nil =>
    simp only [ruleLen]
    exact litLen_two_nil _ _ _ _
  | cons d ds =>
    simp only [List.head?_cons, Option.some.injEq] at hh
    simp only [ruleLen]
    exact litLen_second_ne (fun he => hh he.symm)

theorem v_comment {cs : List Char} :
    ruleLen Rule.comment ('%' :: cs) =
      1 + (cs.takeWhile (fun x => !decide (x = '\n'))).length := by
  simp [ruleLen]

theorem v_newline1 {cs : List Char} : ruleLen Rule.newline ('\n' :: cs) = 1 := by
  simp [ruleLen]

theorem v_newline2 {cs : List Char} :
    ruleLen Rule.newline ('\r' :: '\n' :: cs) = 2 := by
  simp [ruleLen]

theorem v_newline_r0 {cs : List Char} (hh : ¬cs.head? = some '\n') :
    ruleLen Rule.newline ('\r' :: cs) = 0 := by
  simp only [ruleLen]
  rw [if_neg (by decide), if_neg (by simp [hh])]

theorem v_tabs {c : Char} {cs : List Char} (h : isTabOrSpace c = true) :
    ruleLen Rule.tabsOrSpaces (c :: cs) = 1 + spaceRun cs := by
  simp [ruleLen, h]

theorem v_number {c : Char} {cs : List Char} (h : isAsciiDigit c = true) :
    ruleLen Rule.number (c :: cs) = 1 + digitRun cs := by
  simp [ruleLen, h]

theorem v_word {c : Char} {cs : List Char} (h : isLatinLetter c = true) :
    ruleLen Rule.word (c :: cs) = 1 + letterRun cs := by
  simp [ruleLen, h]

theorem v_escaped {d : Char} {ds : List Char} (h : isEscapable d = true) :
    ruleLen Rule.escapedChar ('\\' :: d :: ds) = 2 := by
  simp [ruleLen, h]

theorem v_escaped0 {d : Char} {ds : List Char} (h : isEscapable d = false) :
    ruleLen Rule.escapedChar ('\\' :: d :: ds) = 0 := by
  simp [ruleLen, h]

theorem v_insert {d : Char} {ds : List Char} (h : isSpaceEscape d = true) :
    ruleLen Rule.insertSpace ('\\' :: d :: ds) = 2 := by
  simp [ruleLen, h]

theorem v_insert0 {d : Char} {ds : List Char} (h : isSpaceEscape d = false) :
    ruleLen Rule.insertSpace ('\\' :: d :: ds) = 0 := by
  simp [ruleLen, h]

theorem v_invalid {d : Char} {ds : List Char} (h : isLatinLetter d = false) :
    ruleLen Rule.invalidCommand ('\\' :: d :: ds) = 2 := by
  simp [ruleLen, h]

theorem v_invalid0 {d : Char} {ds : List Char} (h : isLatinLetter d = true) :
    ruleLen Rule.invalidCommand ('\\' :: d :: ds) = 0 := by
  simp [ruleLen, h]

theorem v_dbs {ds : List Char} :
    ruleLen Rule.doubleBackslash ('\\' :: '\\' :: ds) = 2 := by
  simp [ruleLen, litLen, List.isPrefixOf]

theorem v_dmo {ds : List Char} :
    ruleLen Rule.displayMathOpen ('\\' :: '[' :: ds) = 2 := by
  simp [ruleLen, litLen, List.isPrefixOf]

theorem v_dmc {ds : List Char} :
    ruleLen Rule.displayMathClose ('\\' :: ']' :: ds) = 2 := by
  simp [ruleLen, litLen, List.isPrefixOf]

theorem v_imo {ds : List Char} :
    ruleLen Rule.inlineMathOpen ('\\' :: '(' :: ds) = 2 := by
  simp [ruleLen, litLen, List.isPrefixOf]

theorem v_imc {ds : List Char} :
    ruleLen Rule.inlineMathClose ('\\' :: ')' :: ds) = 2 := by
  simp [ruleLen, litLen, List.isPrefixOf]

theorem v_cmd {d : Char} {ds : List Char} (h : isLatinLetter d = true) :
    ruleLen Rule.commandName ('\\' :: d :: ds) = 1 + letterRun (d :: ds) := by
  have hpos := letterRun_pos ds h
  simp only [ruleLen, if_true]
  rw [if_pos (by omega)]

theorem v_cmd0 {d : Char} {ds : List Char} (h : isLatinLetter d = false) :
    ruleLen Rule.commandName ('\\' :: d :: ds) = 0 := by
  simp [ruleLen, letterRun_neg ds h]

theorem z2_displayMathClose {d : Char} {ds : List Char} (h : ¬(']' : Char) = d) :
    ruleLen Rule.displayMathClose ('\\' :: d :: ds) = 0 := by
  simp only [ruleLen]
  exact litLen_second_ne h

theorem z2_displayMathOpen {d : Char} {ds : List Char} (h : ¬('[' : Char) = d) :
    ruleLen Rule.displayMathOpen ('\\' :: d :: ds) = 0 := by
  simp only [ruleLen]
  exact litLen_second_ne h

theorem z2_inlineMathClose {d : Char} {ds : List Char} (h : ¬(')' : Char) = d) :
    ruleLen Rule.inlineMathClose ('\\' :: d :: ds) = 0 := by
  simp only [ruleLen]
  exact litLen_second_ne h

theorem z2_inlineMathOpen {d : Char} {ds : List Char} (h : ¬('(' : Char) = d) :
    ruleLen Rule.inlineMathOpen ('\\' :: d :: ds) = 0 := by
  simp only [ruleLen]
  exact litLen_second_ne h

theorem z2_doubleBackslash {d : Char} {ds : List Char} (h : ¬('\\' : Char) = d) :
    ruleLen Rule.doubleBackslash ('\\' :: d :: ds) = 0 := by
  simp only [ruleLen]
  exact litLen_second_ne h

theorem z2_documentClass {d : Char} {ds : List Char} (h : ¬d = 'd') :
    ruleLen Rule.documentClass ('\\' :: d :: ds) = 0 := by
  simp only [ruleLen]
  show litLen ('\\' :: 'd' :: "ocumentclass".toList) ('\\' :: d :: ds) = 0
  exact litLen_second_ne (fun he => h he.symm)

theorem v_docClass {cs : List Char}
    (h : "documentclass".toList.isPrefixOf cs = true) :
    ruleLen Rule.documentClass ('\\' :: cs) = 14 := by
  have hp : (('\\' :: "documentclass".toList).isPrefixOf ('\\' :: cs)) = true := by
    show ((('\\' : Char) == '\\') && "documentclass".toList.isPrefixOf cs) = true
    rw [h]
    rfl
  simp only [ruleLen, litLen]
  rw [if_pos hp]
  rfl

theorem v_docClass0 {cs : List Char}
    (h : "documentclass".toList.isPrefixOf cs = false) :
    ruleLen Rule.documentClass ('\\' :: cs) = 0 := by
  have hp : (('\\' :: "documentclass".toList).isPrefixOf ('\\' :: cs)) = false := by
    show ((('\\' : Char) == '\\') && "documentclass".toList.isPrefixOf cs) = false
    rw [h]
    rfl
  simp only [ruleLen, litLen]
  rw [if_neg (by rw [hp]; decide)]

theorem envScan_split {cs : List Char} {t : Token} {n : Nat}
    (h : envScan cs = some (t, n)) :
    ((∃ nm rest, t = Token.EnvironmentBegin nm ∧ cs = 'b' :: rest) ∧
      letterRun cs = 5 ∧ 9 ≤ n) ∨
    ((∃ nm rest, t = Token.EnvironmentEnd nm ∧ cs = 'e' :: rest) ∧
      letterRun cs = 3 ∧ 6 ≤ n) := by
  have hshape := envScan_shape h
  have hhead := envScan_head h
  unfold envScan at h
  split_ifs at h with hp1 hp2
  · left
    obtain ⟨rest, hrest⟩ := List.isPrefixOf_iff_prefix.mp hp1
    rcases hshape with ⟨⟨nm, ht⟩, hlr, hn⟩ | ⟨⟨nm, ht⟩, hlr, hn⟩
    · exact ⟨⟨nm, _, ht, hrest.symm⟩, hlr, hn⟩
    · subst ht
      split at h
      · simp at h
      · simp at h
  · right
    obtain ⟨rest, hrest⟩ := List.isPrefixOf_iff_prefix.mp hp2
    rcases hshape with ⟨⟨nm, ht⟩, hlr, hn⟩ | ⟨⟨nm, ht⟩, hlr, hn⟩
    · subst ht
      split at h
      · simp at h
      · simp at h
    · exact ⟨⟨nm, _, ht, hrest.symm⟩, hlr, hn⟩

/-- The two clauses of claim C4 at a nonempty input: every rule matches at
most the emitted length (longest match), and the emitted token's rule
matches exactly that length and carries the greatest declared priority among
the rules matching it — unless no rule matches at all, in which case the
one-character fallback `Other` is emitted. -/
def C4At (c : Char) (cs : List Char) : Prop :=
  (∀ r : Rule, ruleLen r (c :: cs) ≤ (matchTokenAux c cs).2) ∧
  (match tokenRule (matchTokenAux c cs).1 with
   | some r =>
     ruleLen r (c :: cs) = (matchTokenAux c cs).2 ∧
       ∀ r' : Rule, ruleLen r' (c :: cs) = (matchTokenAux c cs).2 →
         priority r' ≤ priority r
   | none =>
     (matchTokenAux c cs).1 = Token.Other ∧ (matchTokenAux c cs).2 = 1 ∧
       ∀ r' : Rule, ruleLen r' (c :: cs) = 0)

theorem not_letter_ne {d x : Char} (hl : isLatinLetter d = false)
    (hx : isLatinLetter x = true) : ¬d = x := by
  intro h
  rw [h, hx] at hl
  exact absurd hl (by simp)

theorem letter_ne {d x : Char} (hl : isLatinLetter d = true)
    (hx : isLatinLetter x = false) : ¬d = x := by
  intro h
  rw [h, hx] at hl
  exact absurd hl (by simp)

theorem escapable_facts {d : Char} (hd : isEscapable d = true) :
    isLatinLetter d = false ∧ isSpaceEscape d = false ∧ ¬d = '\\' ∧
    ¬d = '[' ∧ ¬d = ']' ∧ ¬d = '(' ∧ ¬d = ')' := by
  simp only [isEscapable, Bool.or_eq_true, decide_eq_true_eq] at hd
  rcases hd with ((((((rfl | rfl) | rfl) | rfl) | rfl) | rfl) | rfl) <;>
    exact (by decide)

theorem spaceEscape_facts {d : Char} (hd : isSpaceEscape d = true) :
    isLatinLetter d = false ∧ isEscapable d = false ∧ ¬d = '\\' ∧
    ¬d = '[' ∧ ¬d = ']' ∧ ¬d = '(' ∧ ¬d = ')' := by
  simp only [isSpaceEscape, Bool.or_eq_true, decide_eq_true_eq] at hd
  rcases hd with ((((rfl | rfl) | rfl) | rfl) | rfl) <;> exact (by decide)

theorem letter_not_escapable {d : Char} (hl : isLatinLetter d = true) :
    isEscapable d = false := by
  cases he : isEscapable d
  · rfl
  · have := (escapable_facts he).1
    rw [this] at hl
    exact absurd hl (by simp)

theorem letter_not_spaceEscape {d : Char} (hl : isLatinLetter d = true) :
    isSpaceEscape d = false := by
  cases he : isSpaceEscape d
  · rfl
  · have := (spaceEscape_facts he).1
    rw [this] at hl
    exact absurd hl (by simp)

theorem singleLit_mem {c : Char} (hv : isSingleLitChar c = true) :
    c ∈ singleLitChars := by
  rw [isSingleLitChar] at hv
  exact List.mem_of_elem_eq_true hv

theorem singleLit_facts {c : Char} (hv : isSingleLitChar c = true) :
    ¬c = '\\' ∧ ¬c = '$' ∧ ¬c = '%' ∧ ¬c = '\n' ∧ ¬c = '\r' ∧
    isTabOrSpace c = false ∧ isAsciiDigit c = false ∧ isLatinLetter c = false := by
  have hm := singleLit_mem hv
  fin_cases hm <;> exact (by decide)

theorem tokenRule_singleCharToken {c : Char} (hv : isSingleLitChar c = true) :
    tokenRule (singleCharToken c) = some (Rule.singleChar c) := by
  have hm := singleLit_mem hv
  fin_cases hm <;> rfl

theorem singleCharToken_not {c : Char} (h : isSingleLitChar c = false) :
    singleCharToken c = Token.Other := by
  have hm : ¬c ∈ singleLitChars := by
    intro hmem
    have ht : isSingleLitChar c = true := by
      rw [isSingleLitChar]
      exact List.elem_eq_true_of_mem hmem
    rw [ht] at h
    exact absurd h (by simp)
  simp only [singleLitChars, List.mem_cons, List.not_mem_nil, or_false,
    not_or] at hm
  obtain ⟨h01, h02, h03, h04, h05, h06, h07, h08, h09, h10, h11, h12, h13, h14, h15, h16, h17, h18, h19, h20, h21, h22⟩ := hm
  unfold singleCharToken
  rw [if_neg h01, if_neg h02, if_neg h03, if_neg h04, if_neg h05, if_neg h06, if_neg h07, if_neg h08, if_neg h09, if_neg h10, if_neg h11, if_neg h12, if_neg h13, if_neg h14, if_neg h15, if_neg h16, if_neg h17, if_neg h18, if_neg h19, if_neg h20, if_neg h21, if_neg h22]

theorem letter_facts {c : Char} (hc : isLatinLetter c = true) :
    ¬c = '\\' ∧ ¬c = '$' ∧ ¬c = '%' ∧ ¬c = '\n' ∧ ¬c = '\r' ∧
    isTabOrSpace c = false ∧ isAsciiDigit c = false ∧
    isSingleLitChar c = false := by
  refine ⟨letter_ne hc (by decide), letter_ne hc (by decide),
    letter_ne hc (by decide), letter_ne hc (by decide),
    letter_ne hc (by decide), ?_, ?_, ?_⟩
  · cases ht : isTabOrSpace c
    · rfl
    · simp only [isTabOrSpace, Bool.or_eq_true, decide_eq_true_eq] at ht
      rcases ht with rfl | rfl <;> exact absurd hc (by decide)
  · cases hdg : isAsciiDigit c
    · rfl
    · simp only [isLatinLetter, isAsciiDigit, Bool.or_eq_true, Bool.and_eq_true,
        decide_eq_true_eq] at hc hdg
      rcases hc with ⟨h1, h2⟩ | ⟨h1, h2⟩ <;>
        exact absurd (le_trans h1 hdg.2) (by decide)
  · cases hsl : isSingleLitChar c
    · rfl
    · have hm := singleLit_mem hsl
      fin_cases hm <;> exact absurd hc (by decide)

theorem digit_facts {c : Char} (hc : isAsciiDigit c = true) :
    ¬c = '\\' ∧ ¬c = '$' ∧ ¬c = '%' ∧ ¬c = '\n' ∧ ¬c = '\r' ∧
    isTabOrSpace c = false ∧ isLatinLetter c = false ∧
    isSingleLitChar c = false := by
  refine ⟨?_, ?_, ?_, ?_, ?_, ?_, ?_, ?_⟩
  all_goals first
    | (intro h; rw [h] at hc; exact absurd hc (by decide))
    | skip
  · cases ht : isTabOrSpace c
    · rfl
    · simp only [isTabOrSpace, Bool.or_eq_true, decide_eq_true_eq] at ht
      rcases ht with rfl | rfl <;> exact absurd hc (by decide)
  · cases hl : isLatinLetter c
    · rfl
    · simp only [isLatinLetter, isAsciiDigit, Bool.or_eq_true, Bool.and_eq_true,
        decide_eq_true_eq] at hc hl
      rcases hl with ⟨h1, h2⟩ | ⟨h1, h2⟩ <;>
        exact absurd (le_trans h1 hc.2) (by decide)
  · cases hsl : isSingleLitChar c
    · rfl
    · have hm := singleLit_mem hsl
      fin_cases hm <;> exact absurd hc (by decide)

theorem tab_facts {c : Char} (hc : isTabOrSpace c = true) :
    ¬c = '\\' ∧ ¬c = '$' ∧ ¬c = '%' ∧ ¬c = '\n' ∧ ¬c = '\r' ∧
    isAsciiDigit c = false ∧ isLatinLetter c = false ∧
    isSingleLitChar c = false := by
  simp only [isTabOrSpace, Bool.or_eq_true, decide_eq_true_eq] at hc
  rcases hc with rfl | rfl <;> exact (by decide)

theorem c4_dollar2 (ds : List Char) : C4At '$' ('$' :: ds) := by
  have hmt : matchTokenAux '$' ('$' :: ds) = (Token.DoubleDollarSign, 2) := by
    unfold matchTokenAux
    rw [if_neg (by decide), if_pos rfl, if_pos (by simp)]
  have hmt1 : (matchTokenAux '$' ('$' :: ds)).1 = Token.DoubleDollarSign := by rw [hmt]
  have hmt2 : (matchTokenAux '$' ('$' :: ds)).2 = 2 := by rw [hmt]
  unfold C4At
  rw [hmt1, hmt2]
  constructor
  · intro r
    cases r
    case singleChar ch =>
      have hb := singleChar_le_one ch ('$' :: '$' :: ds)
      omega
    case displayMathClose => rw [z_displayMathClose (by decide)]; omega
    case displayMathOpen => rw [z_displayMathOpen (by decide)]; omega
    case inlineMathClose => rw [z_inlineMathClose (by decide)]; omega
    case inlineMathOpen => rw [z_inlineMathOpen (by decide)]; omega
    case doubleBackslash => rw [z_doubleBackslash (by decide)]; omega
    case documentClass => rw [z_documentClass (by decide)]; omega
    case dollarSign => rw [v_dollarSign]; omega
    case doubleDollarSign => rw [v_doubleDollarSign] <;> omega
    case escapedChar => rw [z_escapedChar (by decide)]; omega
    case insertSpace => rw [z_insertSpace (by decide)]; omega
    case newline => rw [z_newline (by decide) (by decide)]; omega
    case commandName => rw [z_commandName (by decide)]; omega
    case comment => rw [z_comment (by decide)]; omega
    case envBegin => rw [z_envBegin (by decide)]; omega
    case envEnd => rw [z_envEnd (by decide)]; omega
    case invalidCommand => rw [z_invalidCommand (by decide)]; omega
    case number => rw [z_number (by decide)]; omega
    case word => rw [z_word (by decide)]; omega
    case tabsOrSpaces => rw [z_tabsOrSpaces (by decide)]; omega
  · simp only [tokenRule]
    refine ⟨?_, ?_⟩
    · exact v_doubleDollarSign
    · intro r' h'
      cases r'
      case singleChar ch =>
        have hb := singleChar_le_one ch ('$' :: '$' :: ds)
        simp only [priority]
        omega
      case displayMathClose =>
        rw [z_displayMathClose (by decide)] at h'
        simp only [priority]
        omega
      case displayMathOpen =>
        rw [z_displayMathOpen (by decide)] at h'
        simp only [priority]
        omega
      case inlineMathClose =>
        rw [z_inlineMathClose (by decide)] at h'
        simp only [priority]
        omega
      case inlineMathOpen =>
        rw [z_inlineMathOpen (by decide)] at h'
        simp only [priority]
        omega
      case doubleBackslash =>
        rw [z_doubleBackslash (by decide)] at h'
        simp only [priority]
        omega
      case documentClass =>
        rw [z_documentClass (by decide)] at h'
        simp only [priority]
        omega
      case dollarSign =>
        rw [v_dollarSign] at h'
        simp only [priority]
        omega
      case doubleDollarSign =>
        simp only [priority]
        omega
      case escapedChar =>
        rw [z_escapedChar (by decide)] at h'
        simp only [priority]
        omega
      case insertSpace =>
        rw [z_insertSpace (by decide)] at h'
        simp only [priority]
        omega
      case newline =>
        rw [z_newline (by decide) (by decide)] at h'
        simp only [priority]
        omega
      case commandName =>
        rw [z_commandName (by decide)] at h'
        simp only [priority]
        omega
      case comment =>
        rw [z_comment (by decide)] at h'
        simp only [priority]
        omega
      case envBegin =>
        rw [z_envBegin (by decide)] at h'
        simp only [priority]
        omega
      case envEnd =>
        rw [z_envEnd (by decide)] at h'
        simp only [priority]
        omega
      case invalidCommand =>
        rw [z_invalidCommand (by decide)] at h'
        simp only [priority]
        omega
      case number =>
        rw [z_number (by decide)] at h'
        simp only [priority]
        omega
      case word =>
        rw [z_word (by decide)] at h'
        simp only [priority]
        omega
      case tabsOrSpaces =>
        rw [z_tabsOrSpaces (by decide)] at h'
        simp only [priority]
        omega

theorem c4_dollar1 (cs : List Char) (hh : ¬cs.head? = some '$') : C4At '$' cs := by
  have hmt : matchTokenAux '$' cs = (Token.DollarSign, 1) := by
    unfold matchTokenAux
    rw [if_neg (by decide), if_pos rfl, if_neg hh]
  have hmt1 : (matchTokenAux '$' cs).1 = Token.DollarSign := by rw [hmt]
  have hmt2 : (matchTokenAux '$' cs).2 = 1 := by rw [hmt]
  unfold C4At
  rw [hmt1, hmt2]
  constructor
  · intro r
    cases r
    case singleChar ch =>
      have hb := singleChar_le_one ch ('$' :: cs)
      omega
    case displayMathClose => rw [z_displayMathClose (by decide)] <;> omega
    case displayMathOpen => rw [z_displayMathOpen (by decide)] <;> omega
    case inlineMathClose => rw [z_inlineMathClose (by decide)] <;> omega
    case inlineMathOpen => rw [z_inlineMathOpen (by decide)] <;> omega
    case doubleBackslash => rw [z_doubleBackslash (by decide)] <;> omega
    case documentClass => rw [z_documentClass (by decide)] <;> omega
    case dollarSign => rw [v_dollarSign] <;> omega
    case doubleDollarSign => rw [v_doubleDollarSign0 hh] <;> omega
    case escapedChar => rw [z_escapedChar (by decide)] <;> omega
    case insertSpace => rw [z_insertSpace (by decide)] <;> omega
    case newline => rw [z_newline (by decide) (by decide)] <;> omega
    case commandName => rw [z_commandName (by decide)] <;> omega
    case comment => rw [z_comment (by decide)] <;> omega
    case envBegin => rw [z_envBegin (by decide)] <;> omega
    case envEnd => rw [z_envEnd (by decide)] <;> omega
    case invalidCommand => rw [z_invalidCommand (by decide)] <;> omega
    case number => rw [z_number (by decide)] <;> omega
    case word => rw [z_word (by decide)] <;> omega
    case tabsOrSpaces => rw [z_tabsOrSpaces (by decide)] <;> omega
  · simp only [tokenRule]
    refine ⟨?_, ?_⟩
    · exact v_dollarSign
    · intro r' h'
      cases r'
      case singleChar ch =>
        have hb := singleChar_le_one ch ('$' :: cs)
        simp only [priority]
        omega
      case displayMathClose =>
        rw [z_displayMathClose (by decide)] at h'
        simp only [priority]
        omega
      case displayMathOpen =>
        rw [z_displayMathOpen (by decide)] at h'
        simp only [priority]
        omega
      case inlineMathClose =>
        rw [z_inlineMathClose (by decide)] at h'
        simp only [priority]
        omega
      case inlineMathOpen =>
        rw [z_inlineMathOpen (by decide)] at h'
        simp only [priority]
        omega
      case doubleBackslash =>
        rw [z_doubleBackslash (by decide)] at h'
        simp only [priority]
        omega
      case documentClass =>
        rw [z_documentClass (by decide)] at h'
        simp only [priority]
        omega
      case dollarSign =>
        simp only [priority]
        omega
      case doubleDollarSign =>
        rw [v_doubleDollarSign0 hh] at h'
        simp only [priority]
        omega
      case escapedChar =>
        rw [z_escapedChar (by decide)] at h'
        simp only [priority]
        omega
      case insertSpace =>
        rw [z_insertSpace (by decide)] at h'
        simp only [priority]
        omega
      case newline =>
        rw [z_newline (by decide) (by decide)] at h'
        simp only [priority]
        omega
      case commandName =>
        rw [z_commandName (by decide)] at h'
        simp only [priority]
        omega
      case comment =>
        rw [z_comment (by decide)] at h'
        simp only [priority]
        omega
      case envBegin =>
        rw [z_envBegin (by decide)] at h'
        simp only [priority]
        omega
      case envEnd =>
        rw [z_envEnd (by decide)] at h'
        simp only [priority]
        omega
      case invalidCommand =>
        rw [z_invalidCommand (by decide)] at h'
        simp only [priority]
        omega
      case number =>
        rw [z_number (by decide)] at h'
        simp only [priority]
        omega
      case word =>
        rw [z_word (by decide)] at h'
        simp only [priority]
        omega
      case tabsOrSpaces =>
        rw [z_tabsOrSpaces (by decide)] at h'
        simp only [priority]
        omega

theorem c4_percent (cs : List Char) : C4At '%' cs := by
  have hmt : matchTokenAux '%' cs = (Token.Comment, (1 + (cs.takeWhile (fun x => !decide (x = '\n'))).length)) := by
    unfold matchTokenAux
    rw [if_neg (by decide), if_neg (by decide), if_pos rfl]
  have hmt1 : (matchTokenAux '%' cs).1 = Token.Comment := by rw [hmt]
  have hmt2 : (matchTokenAux '%' cs).2 = (1 + (cs.takeWhile (fun x => !decide (x = '\n'))).length) := by rw [hmt]
  unfold C4At
  rw [hmt1, hmt2]
  constructor
  · intro r
    cases r
    case singleChar ch =>
      have hb := singleChar_le_one ch ('%' :: cs)
      omega
    case displayMathClose => rw [z_displayMathClose (by decide)] <;> omega
    case displayMathOpen => rw [z_displayMathOpen (by decide)] <;> omega
    case inlineMathClose => rw [z_inlineMathClose (by decide)] <;> omega
    case inlineMathOpen => rw [z_inlineMathOpen (by decide)] <;> omega
    case doubleBackslash => rw [z_doubleBackslash (by decide)] <;> omega
    case documentClass => rw [z_documentClass (by decide)] <;> omega
    case dollarSign => rw [z_dollarSign (by decide)] <;> omega
    case doubleDollarSign => rw [z_doubleDollarSign (by decide)] <;> omega
    case escapedChar => rw [z_escapedChar (by decide)] <;> omega
    case insertSpace => rw [z_insertSpace (by decide)] <;> omega
    case newline => rw [z_newline (by decide) (by decide)] <;> omega
    case commandName => rw [z_commandName (by decide)] <;> omega
    case comment => rw [v_comment] <;> omega
    case envBegin => rw [z_envBegin (by decide)] <;> omega
    case envEnd => rw [z_envEnd (by decide)] <;> omega
    case invalidCommand => rw [z_invalidCommand (by decide)] <;> omega
    case number => rw [z_number (by decide)] <;> omega
    case word => rw [z_word (by decide)] <;> omega
    case tabsOrSpaces => rw [z_tabsOrSpaces (by decide)] <;> omega
  · simp only [tokenRule]
    refine ⟨?_, ?_⟩
    · exact v_comment
    · intro r' h'
      cases r'
      case singleChar ch =>
        have hb := singleChar_le_one ch ('%' :: cs)
        simp only [priority]
        omega
      case displayMathClose =>
        rw [z_displayMathClose (by decide)] at h'
        simp only [priority]
        omega
      case displayMathOpen =>
        rw [z_displayMathOpen (by decide)] at h'
        simp only [priority]
        omega
      case inlineMathClose =>
        rw [z_inlineMathClose (by decide)] at h'
        simp only [priority]
        omega
      case inlineMathOpen =>
        rw [z_inlineMathOpen (by decide)] at h'
        simp only [priority]
        omega
      case doubleBackslash =>
        rw [z_doubleBackslash (by decide)] at h'
        simp only [priority]
        omega
      case documentClass =>
        rw [z_documentClass (by decide)] at h'
        simp only [priority]
        omega
      case dollarSign =>
        rw [z_dollarSign (by decide)] at h'
        simp only [priority]
        omega
      case doubleDollarSign =>
        rw [z_doubleDollarSign (by decide)] at h'
        simp only [priority]
        omega
      case escapedChar =>
        rw [z_escapedChar (by decide)] at h'
        simp only [priority]
        omega
      case insertSpace =>
        rw [z_insertSpace (by decide)] at h'
        simp only [priority]
        omega
      case newline =>
        rw [z_newline (by decide) (by decide)] at h'
        simp only [priority]
        omega
      case commandName =>
        rw [z_commandName (by decide)] at h'
        simp only [priority]
        omega
      case comment =>
        simp only [priority]
        omega
      case envBegin =>
        rw [z_envBegin (by decide)] at h'
        simp only [priority]
        omega
      case envEnd =>
        rw [z_envEnd (by decide)] at h'
        simp only [priority]
        omega
      case invalidCommand =>
        rw [z_invalidCommand (by decide)] at h'
        simp only [priority]
        omega
      case number =>
        rw [z_number (by decide)] at h'
        simp only [priority]
        omega
      case word =>
        rw [z_word (by decide)] at h'
        simp only [priority]
        omega
      case tabsOrSpaces =>
        rw [z_tabsOrSpaces (by decide)] at h'
        simp only [priority]
        omega

theorem c4_nl (cs : List Char) : C4At '\n' cs := by
  have hmt : matchTokenAux '\n' cs = (Token.Newline, 1) := by
    unfold matchTokenAux
    rw [if_neg (by decide), if_neg (by decide), if_neg (by decide), if_pos rfl]
  have hmt1 : (matchTokenAux '\n' cs).1 = Token.Newline := by rw [hmt]
  have hmt2 : (matchTokenAux '\n' cs).2 = 1 := by rw [hmt]
  unfold C4At
  rw [hmt1, hmt2]
  constructor
  · intro r
    cases r
    case singleChar ch =>
      have hb := singleChar_le_one ch ('\n' :: cs)
      omega
    case displayMathClose => rw [z_displayMathClose (by decide)] <;> omega
    case displayMathOpen => rw [z_displayMathOpen (by decide)] <;> omega
    case inlineMathClose => rw [z_inlineMathClose (by decide)] <;> omega
    case inlineMathOpen => rw [z_inlineMathOpen (by decide)] <;> omega
    case doubleBackslash => rw [z_doubleBackslash (by decide)] <;> omega
    case documentClass => rw [z_documentClass (by decide)] <;> omega
    case dollarSign => rw [z_dollarSign (by decide)] <;> omega
    case doubleDollarSign => rw [z_doubleDollarSign (by decide)] <;> omega
    case escapedChar => rw [z_escapedChar (by decide)] <;> omega
    case insertSpace => rw [z_insertSpace (by decide)] <;> omega
    case newline => rw [v_newline1] <;> omega
    case commandName => rw [z_commandName (by decide)] <;> omega
    case comment => rw [z_comment (by decide)] <;> omega
    case envBegin => rw [z_envBegin (by decide)] <;> omega
    case envEnd => rw [z_envEnd (by decide)] <;> omega
    case invalidCommand => rw [z_invalidCommand (by decide)] <;> omega
    case number => rw [z_number (by decide)] <;> omega
    case word => rw [z_word (by decide)] <;> omega
    case tabsOrSpaces => rw [z_tabsOrSpaces (by decide)] <;> omega
  · simp only [tokenRule]
    refine ⟨?_, ?_⟩
    · exact v_newline1
    · intro r' h'
      cases r'
      case singleChar ch =>
        have hb := singleChar_le_one ch ('\n' :: cs)
        simp only [priority]
        omega
      case displayMathClose =>
        rw [z_displayMathClose (by decide)] at h'
        simp only [priority]
        omega
      case displayMathOpen =>
        rw [z_displayMathOpen (by decide)] at h'
        simp only [priority]
        omega
      case inlineMathClose =>
        rw [z_inlineMathClose (by decide)] at h'
        simp only [priority]
        omega
      case inlineMathOpen =>
        rw [z_inlineMathOpen (by decide)] at h'
        simp only [priority]
        omega
      case doubleBackslash =>
        rw [z_doubleBackslash (by decide)] at h'
        simp only [priority]
        omega
      case documentClass =>
        rw [z_documentClass (by decide)] at h'
        simp only [priority]
        omega
      case dollarSign =>
        rw [z_dollarSign (by decide)] at h'
        simp only [priority]
        omega
      case doubleDollarSign =>
        rw [z_doubleDollarSign (by decide)] at h'
        simp only [priority]
        omega
      case escapedChar =>
        rw [z_escapedChar (by decide)] at h'
        simp only [priority]
        omega
      case insertSpace =>
        rw [z_insertSpace (by decide)] at h'
        simp only [priority]
        omega
      case newline =>
        simp only [priority]
        omega
      case commandName =>
        rw [z_commandName (by decide)] at h'
        simp only [priority]
        omega
      case comment =>
        rw [z_comment (by decide)] at h'
        simp only [priority]
        omega
      case envBegin =>
        rw [z_envBegin (by decide)] at h'
        simp only [priority]
        omega
      case envEnd =>
        rw [z_envEnd (by decide)] at h'
        simp only [priority]
        omega
      case invalidCommand =>
        rw [z_invalidCommand (by decide)] at h'
        simp only [priority]
        omega
      case number =>
        rw [z_number (by decide)] at h'
        simp only [priority]
        omega
      case word =>
        rw [z_word (by decide)] at h'
        simp only [priority]
        omega
      case tabsOrSpaces =>
        rw [z_tabsOrSpaces (by decide)] at h'
        simp only [priority]
        omega

theorem c4_cr2 (ds : List Char) : C4At '\r' ('\n' :: ds) := by
  have hmt : matchTokenAux '\r' ('\n' :: ds) = (Token.Newline, 2) := by
    unfold matchTokenAux
    rw [if_neg (by decide), if_neg (by decide), if_neg (by decide), if_neg (by decide), if_pos rfl, if_pos (by simp)]
  have hmt1 : (matchTokenAux '\r' ('\n' :: ds)).1 = Token.Newline := by rw [hmt]
  have hmt2 : (matchTokenAux '\r' ('\n' :: ds)).2 = 2 := by rw [hmt]
  unfold C4At
  rw [hmt1, hmt2]
  constructor
  · intro r
    cases r
    case singleChar ch =>
      have hb := singleChar_le_one ch ('\r' :: '\n' :: ds)
      omega
    case displayMathClose => rw [z_displayMathClose (by decide)] <;> omega
    case displayMathOpen => rw [z_displayMathOpen (by decide)] <;> omega
    case inlineMathClose => rw [z_inlineMathClose (by decide)] <;> omega
    case inlineMathOpen => rw [z_inlineMathOpen (by decide)] <;> omega
    case doubleBackslash => rw [z_doubleBackslash (by decide)] <;> omega
    case documentClass => rw [z_documentClass (by decide)] <;> omega
    case dollarSign => rw [z_dollarSign (by decide)] <;> omega
    case doubleDollarSign => rw [z_doubleDollarSign (by decide)] <;> omega
    case escapedChar => rw [z_escapedChar (by decide)] <;> omega
    case insertSpace => rw [z_insertSpace (by decide)] <;> omega
    case newline => rw [v_newline2] <;> omega
    case commandName => rw [z_commandName (by decide)] <;> omega
    case comment => rw [z_comment (by decide)] <;> omega
    case envBegin => rw [z_envBegin (by decide)] <;> omega
    case envEnd => rw [z_envEnd (by decide)] <;> omega
    case invalidCommand => rw [z_invalidCommand (by decide)] <;> omega
    case number => rw [z_number (by decide)] <;> omega
    case word => rw [z_word (by decide)] <;> omega
    case tabsOrSpaces => rw [z_tabsOrSpaces (by decide)] <;> omega
  · simp only [tokenRule]
    refine ⟨?_, ?_⟩
    · exact v_newline2
    · intro r' h'
      cases r'
      case singleChar ch =>
        have hb := singleChar_le_one ch ('\r' :: '\n' :: ds)
        simp only [priority]
        omega
      case displayMathClose =>
        rw [z_displayMathClose (by decide)] at h'
        simp only [priority]
        omega
      case displayMathOpen =>
        rw [z_displayMathOpen (by decide)] at h'
        simp only [priority]
        omega
      case inlineMathClose =>
        rw [z_inlineMathClose (by decide)] at h'
        simp only [priority]
        omega
      case inlineMathOpen =>
        rw [z_inlineMathOpen (by decide)] at h'
        simp only [priority]
        omega
      case doubleBackslash =>
        rw [z_doubleBackslash (by decide)] at h'
        simp only [priority]
        omega
      case documentClass =>
        rw [z_documentClass (by decide)] at h'
        simp only [priority]
        omega
      case dollarSign =>
        rw [z_dollarSign (by decide)] at h'
        simp only [priority]
        omega
      case doubleDollarSign =>
        rw [z_doubleDollarSign (by decide)] at h'
        simp only [priority]
        omega
      case escapedChar =>
        rw [z_escapedChar (by decide)] at h'
        simp only [priority]
        omega
      case insertSpace =>
        rw [z_insertSpace (by decide)] at h'
        simp only [priority]
        omega
      case newline =>
        simp only [priority]
        omega
      case commandName =>
        rw [z_commandName (by decide)] at h'
        simp only [priority]
        omega
      case comment =>
        rw [z_comment (by decide)] at h'
        simp only [priority]
        omega
      case envBegin =>
        rw [z_envBegin (by decide)] at h'
        simp only [priority]
        omega
      case envEnd =>
        rw [z_envEnd (by decide)] at h'
        simp only [priority]
        omega
      case invalidCommand =>
        rw [z_invalidCommand (by decide)] at h'
        simp only [priority]
        omega
      case number =>
        rw [z_number (by decide)] at h'
        simp only [priority]
        omega
      case word =>
        rw [z_word (by decide)] at h'
        simp only [priority]
        omega
      case tabsOrSpaces =>
        rw [z_tabsOrSpaces (by decide)] at h'
        simp only [priority]
        omega

theorem c4_cr1 (cs : List Char) (hh : ¬cs.head? = some '\n') : C4At '\r' cs := by
  have hmt : matchTokenAux '\r' cs = (Token.Other, 1) := by
    unfold matchTokenAux
    rw [if_neg (by decide), if_neg (by decide), if_neg (by decide), if_neg (by decide), if_pos rfl, if_neg hh]
  have hmt1 : (matchTokenAux '\r' cs).1 = Token.Other := by rw [hmt]
  have hmt2 : (matchTokenAux '\r' cs).2 = 1 := by rw [hmt]
  unfold C4At
  rw [hmt1, hmt2]
  constructor
  · intro r
    cases r
    case singleChar ch =>
      have hb := singleChar_le_one ch ('\r' :: cs)
      omega
    case displayMathClose => rw [z_displayMathClose (by decide)] <;> omega
    case displayMathOpen => rw [z_displayMathOpen (by decide)] <;> omega
    case inlineMathClose => rw [z_inlineMathClose (by decide)] <;> omega
    case inlineMathOpen => rw [z_inlineMathOpen (by decide)] <;> omega
    case doubleBackslash => rw [z_doubleBackslash (by decide)] <;> omega
    case documentClass => rw [z_documentClass (by decide)] <;> omega
    case dollarSign => rw [z_dollarSign (by decide)] <;> omega
    case doubleDollarSign => rw [z_doubleDollarSign (by decide)] <;> omega
    case escapedChar => rw [z_escapedChar (by decide)] <;> omega
    case insertSpace => rw [z_insertSpace (by decide)] <;> omega
    case newline => rw [v_newline_r0 hh] <;> omega
    case commandName => rw [z_commandName (by decide)] <;> omega
    case comment => rw [z_comment (by decide)] <;> omega
    case envBegin => rw [z_envBegin (by decide)] <;> omega
    case envEnd => rw [z_envEnd (by decide)] <;> omega
    case invalidCommand => rw [z_invalidCommand (by decide)] <;> omega
    case number => rw [z_number (by decide)] <;> omega
    case word => rw [z_word (by decide)] <;> omega
    case tabsOrSpaces => rw [z_tabsOrSpaces (by decide)] <;> omega
  · simp only [tokenRule]
    refine ⟨by trivial, by trivial, ?_⟩
    intro r'
    cases r'
    case singleChar ch => exact z_singleChar_inv (by decide)
    case displayMathClose => exact z_displayMathClose (by decide)
    case displayMathOpen => exact z_displayMathOpen (by decide)
    case inlineMathClose => exact z_inlineMathClose (by decide)
    case inlineMathOpen => exact z_inlineMathOpen (by decide)
    case doubleBackslash => exact z_doubleBackslash (by decide)
    case documentClass => exact z_documentClass (by decide)
    case dollarSign => exact z_dollarSign (by decide)
    case doubleDollarSign => exact z_doubleDollarSign (by decide)
    case escapedChar => exact z_escapedChar (by decide)
    case insertSpace => exact z_insertSpace (by decide)
    case newline => exact v_newline_r0 hh
    case commandName => exact z_commandName (by decide)
    case comment => exact z_comment (by decide)
    case envBegin => exact z_envBegin (by decide)
    case envEnd => exact z_envEnd (by decide)
    case invalidCommand => exact z_invalidCommand (by decide)
    case number => exact z_number (by decide)
    case word => exact z_word (by decide)
    case tabsOrSpaces => exact z_tabsOrSpaces (by decide)
theorem c4_tab {c : Char} (cs : List Char) (hc : isTabOrSpace c = true) : C4At c cs := by
  obtain ⟨f1, f2, f3, f4, f5, f6, f7, f8⟩ := tab_facts hc
  have hmt : matchTokenAux c cs = (Token.TabsOrSpaces, (1 + spaceRun cs)) := by
    unfold matchTokenAux
    rw [if_neg f1, if_neg f2, if_neg f3, if_neg f4, if_neg f5, if_pos hc]
  have hmt1 : (matchTokenAux c cs).1 = Token.TabsOrSpaces := by rw [hmt]
  have hmt2 : (matchTokenAux c cs).2 = (1 + spaceRun cs) := by rw [hmt]
  unfold C4At
  rw [hmt1, hmt2]
  constructor
  · intro r
    cases r
    case singleChar ch =>
      have hb := singleChar_le_one ch (c :: cs)
      omega
    case displayMathClose => rw [z_displayMathClose f1] <;> omega
    case displayMathOpen => rw [z_displayMathOpen f1] <;> omega
    case inlineMathClose => rw [z_inlineMathClose f1] <;> omega
    case inlineMathOpen => rw [z_inlineMathOpen f1] <;> omega
    case doubleBackslash => rw [z_doubleBackslash f1] <;> omega
    case documentClass => rw [z_documentClass f1] <;> omega
    case dollarSign => rw [z_dollarSign f2] <;> omega
    case doubleDollarSign => rw [z_doubleDollarSign f2] <;> omega
    case escapedChar => rw [z_escapedChar f1] <;> omega
    case insertSpace => rw [z_insertSpace f1] <;> omega
    case newline => rw [z_newline f4 f5] <;> omega
    case commandName => rw [z_commandName f1] <;> omega
    case comment => rw [z_comment f3] <;> omega
    case envBegin => rw [z_envBegin f1] <;> omega
    case envEnd => rw [z_envEnd f1] <;> omega
    case invalidCommand => rw [z_invalidCommand f1] <;> omega
    case number => rw [z_number f6] <;> omega
    case word => rw [z_word f7] <;> omega
    case tabsOrSpaces => rw [v_tabs hc] <;> omega
  · simp only [tokenRule]
    refine ⟨?_, ?_⟩
    · exact v_tabs hc
    · intro r' h'
      cases r'
      case singleChar ch =>
        have hb := singleChar_le_one ch (c :: cs)
        simp only [priority]
        omega
      case displayMathClose =>
        rw [z_displayMathClose f1] at h'
        simp only [priority]
        omega
      case displayMathOpen =>
        rw [z_displayMathOpen f1] at h'
        simp only [priority]
        omega
      case inlineMathClose =>
        rw [z_inlineMathClose f1] at h'
        simp only [priority]
        omega
      case inlineMathOpen =>
        rw [z_inlineMathOpen f1] at h'
        simp only [priority]
        omega
      case doubleBackslash =>
        rw [z_doubleBackslash f1] at h'
        simp only [priority]
        omega
      case documentClass =>
        rw [z_documentClass f1] at h'
        simp only [priority]
        omega
      case dollarSign =>
        rw [z_dollarSign f2] at h'
        simp only [priority]
        omega
      case doubleDollarSign =>
        rw [z_doubleDollarSign f2] at h'
        simp only [priority]
        omega
      case escapedChar =>
        rw [z_escapedChar f1] at h'
        simp only [priority]
        omega
      case insertSpace =>
        rw [z_insertSpace f1] at h'
        simp only [priority]
        omega
      case newline =>
        rw [z_newline f4 f5] at h'
        simp only [priority]
        omega
      case commandName =>
        rw [z_commandName f1] at h'
        simp only [priority]
        omega
      case comment =>
        rw [z_comment f3] at h'
        simp only [priority]
        omega
      case envBegin =>
        rw [z_envBegin f1] at h'
        simp only [priority]
        omega
      case envEnd =>
        rw [z_envEnd f1] at h'
        simp only [priority]
        omega
      case invalidCommand =>
        rw [z_invalidCommand f1] at h'
        simp only [priority]
        omega
      case number =>
        rw [z_number f6] at h'
        simp only [priority]
        omega
      case word =>
        rw [z_word f7] at h'
        simp only [priority]
        omega
      case tabsOrSpaces =>
        simp only [priority]
        omega

theorem c4_digit {c : Char} (cs : List Char) (hc : isAsciiDigit c = true) : C4At c cs := by
  obtain ⟨f1, f2, f3, f4, f5, f6, f7, f8⟩ := digit_facts hc
  have hmt : matchTokenAux c cs = (Token.Number, (1 + digitRun cs)) := by
    unfold matchTokenAux
    rw [if_neg f1, if_neg f2, if_neg f3, if_neg f4, if_neg f5, if_neg (by simp [f6]), if_pos hc]
  have hmt1 : (matchTokenAux c cs).1 = Token.Number := by rw [hmt]
  have hmt2 : (matchTokenAux c cs).2 = (1 + digitRun cs) := by rw [hmt]
  unfold C4At
  rw [hmt1, hmt2]
  constructor
  · intro r
    cases r
    case singleChar ch =>
      have hb := singleChar_le_one ch (c :: cs)
      omega
    case displayMathClose => rw [z_displayMathClose f1] <;> omega
    case displayMathOpen => rw [z_displayMathOpen f1] <;> omega
    case inlineMathClose => rw [z_inlineMathClose f1] <;> omega
    case inlineMathOpen => rw [z_inlineMathOpen f1] <;> omega
    case doubleBackslash => rw [z_doubleBackslash f1] <;> omega
    case documentClass => rw [z_documentClass f1] <;> omega
    case dollarSign => rw [z_dollarSign f2] <;> omega
    case doubleDollarSign => rw [z_doubleDollarSign f2] <;> omega
    case escapedChar => rw [z_escapedChar f1] <;> omega
    case insertSpace => rw [z_insertSpace f1] <;> omega
    case newline => rw [z_newline f4 f5] <;> omega
    case commandName => rw [z_commandName f1] <;> omega
    case comment => rw [z_comment f3] <;> omega
    case envBegin => rw [z_envBegin f1] <;> omega
    case envEnd => rw [z_envEnd f1] <;> omega
    case invalidCommand => rw [z_invalidCommand f1] <;> omega
    case number => rw [v_number hc] <;> omega
    case word => rw [z_word f7] <;> omega
    case tabsOrSpaces => rw [z_tabsOrSpaces f6] <;> omega
  · simp only [tokenRule]
    refine ⟨?_, ?_⟩
    · exact v_number hc
    · intro r' h'
      cases r'
      case singleChar ch =>
        have hb := singleChar_le_one ch (c :: cs)
        simp only [priority]
        omega
      case displayMathClose =>
        rw [z_displayMathClose f1] at h'
        simp only [priority]
        omega
      case displayMathOpen =>
        rw [z_displayMathOpen f1] at h'
        simp only [priority]
        omega
      case inlineMathClose =>
        rw [z_inlineMathClose f1] at h'
        simp only [priority]
        omega
      case inlineMathOpen =>
        rw [z_inlineMathOpen f1] at h'
        simp only [priority]
        omega
      case doubleBackslash =>
        rw [z_doubleBackslash f1] at h'
        simp only [priority]
        omega
      case documentClass =>
        rw [z_documentClass f1] at h'
        simp only [priority]
        omega
      case dollarSign =>
        rw [z_dollarSign f2] at h'
        simp only [priority]
        omega
      case doubleDollarSign =>
        rw [z_doubleDollarSign f2] at h'
        simp only [priority]
        omega
      case escapedChar =>
        rw [z_escapedChar f1] at h'
        simp only [priority]
        omega
      case insertSpace =>
        rw [z_insertSpace f1] at h'
        simp only [priority]
        omega
      case newline =>
        rw [z_newline f4 f5] at h'
        simp only [priority]
        omega
      case commandName =>
        rw [z_commandName f1] at h'
        simp only [priority]
        omega
      case comment =>
        rw [z_comment f3] at h'
        simp only [priority]
        omega
      case envBegin =>
        rw [z_envBegin f1] at h'
        simp only [priority]
        omega
      case envEnd =>
        rw [z_envEnd f1] at h'
        simp only [priority]
        omega
      case invalidCommand =>
        rw [z_invalidCommand f1] at h'
        simp only [priority]
        omega
      case number =>
        simp only [priority]
        omega
      case word =>
        rw [z_word f7] at h'
        simp only [priority]
        omega
      case tabsOrSpaces =>
        rw [z_tabsOrSpaces f6] at h'
        simp only [priority]
        omega

theorem c4_letter {c : Char} (cs : List Char) (hc : isLatinLetter c = true) : C4At c cs := by
  obtain ⟨f1, f2, f3, f4, f5, f6, f7, f8⟩ := letter_facts hc
  have hmt : matchTokenAux c cs = (Token.Word, (1 + letterRun cs)) := by
    unfold matchTokenAux
    rw [if_neg f1, if_neg f2, if_neg f3, if_neg f4, if_neg f5, if_neg (by simp [f6]), if_neg (by simp [f7]), if_pos hc]
  have hmt1 : (matchTokenAux c cs).1 = Token.Word := by rw [hmt]
  have hmt2 : (matchTokenAux c cs).2 = (1 + letterRun cs) := by rw [hmt]
  unfold C4At
  rw [hmt1, hmt2]
  constructor
  · intro r
    cases r
    case singleChar ch =>
      have hb := singleChar_le_one ch (c :: cs)
      omega
    case displayMathClose => rw [z_displayMathClose f1] <;> omega
    case displayMathOpen => rw [z_displayMathOpen f1] <;> omega
    case inlineMathClose => rw [z_inlineMathClose f1] <;> omega
    case inlineMathOpen => rw [z_inlineMathOpen f1] <;> omega
    case doubleBackslash => rw [z_doubleBackslash f1] <;> omega
    case documentClass => rw [z_documentClass f1] <;> omega
    case dollarSign => rw [z_dollarSign f2] <;> omega
    case doubleDollarSign => rw [z_doubleDollarSign f2] <;> omega
    case escapedChar => rw [z_escapedChar f1] <;> omega
    case insertSpace => rw [z_insertSpace f1] <;> omega
    case newline => rw [z_newline f4 f5] <;> omega
    case commandName => rw [z_commandName f1] <;> omega
    case comment => rw [z_comment f3] <;> omega
    case envBegin => rw [z_envBegin f1] <;> omega
    case envEnd => rw [z_envEnd f1] <;> omega
    case invalidCommand => rw [z_invalidCommand f1] <;> omega
    case number => rw [z_number f7] <;> omega
    case word => rw [v_word hc] <;> omega
    case tabsOrSpaces => rw [z_tabsOrSpaces f6] <;> omega
  · simp only [tokenRule]
    refine ⟨?_, ?_⟩
    · exact v_word hc
    · intro r' h'
      cases r'
      case singleChar ch =>
        have hb := singleChar_le_one ch (c :: cs)
        simp only [priority]
        omega
      case displayMathClose =>
        rw [z_displayMathClose f1] at h'
        simp only [priority]
        omega
      case displayMathOpen =>
        rw [z_displayMathOpen f1] at h'
        simp only [priority]
        omega
      case inlineMathClose =>
        rw [z_inlineMathClose f1] at h'
        simp only [priority]
        omega
      case inlineMathOpen =>
        rw [z_inlineMathOpen f1] at h'
        simp only [priority]
        omega
      case doubleBackslash =>
        rw [z_doubleBackslash f1] at h'
        simp only [priority]
        omega
      case documentClass =>
        rw [z_documentClass f1] at h'
        simp only [priority]
        omega
      case dollarSign =>
        rw [z_dollarSign f2] at h'
        simp only [priority]
        omega
      case doubleDollarSign =>
        rw [z_doubleDollarSign f2] at h'
        simp only [priority]
        omega
      case escapedChar =>
        rw [z_escapedChar f1] at h'
        simp only [priority]
        omega
      case insertSpace =>
        rw [z_insertSpace f1] at h'
        simp only [priority]
        omega
      case newline =>
        rw [z_newline f4 f5] at h'
        simp only [priority]
        omega
      case commandName =>
        rw [z_commandName f1] at h'
        simp only [priority]
        omega
      case comment =>
        rw [z_comment f3] at h'
        simp only [priority]
        omega
      case envBegin =>
        rw [z_envBegin f1] at h'
        simp only [priority]
        omega
      case envEnd =>
        rw [z_envEnd f1] at h'
        simp only [priority]
        omega
      case invalidCommand =>
        rw [z_invalidCommand f1] at h'
        simp only [priority]
        omega
      case number =>
        rw [z_number f7] at h'
        simp only [priority]
        omega
      case word =>
        simp only [priority]
        omega
      case tabsOrSpaces =>
        rw [z_tabsOrSpaces f6] at h'
        simp only [priority]
        omega

theorem c4_fallback {c : Char} (cs : List Char) (f1 : ¬c = '\\') (f2 : ¬c = '$') (f3 : ¬c = '%') (f4 : ¬c = '\n') (f5 : ¬c = '\r') (f6 : isTabOrSpace c = false) (f7 : isAsciiDigit c = false) (f8 : isLatinLetter c = false) (hv : isSingleLitChar c = false) : C4At c cs := by
  have hmt : matchTokenAux c cs = (Token.Other, 1) := by
    unfold matchTokenAux
    rw [if_neg f1, if_neg f2, if_neg f3, if_neg f4, if_neg f5, if_neg (by simp [f6]), if_neg (by simp [f7]), if_neg (by simp [f8])]
    rw [singleCharToken_not hv]
  have hmt1 : (matchTokenAux c cs).1 = Token.Other := by rw [hmt]
  have hmt2 : (matchTokenAux c cs).2 = 1 := by rw [hmt]
  unfold C4At
  rw [hmt1, hmt2]
  constructor
  · intro r
    cases r
    case singleChar ch =>
      have hb := singleChar_le_one ch (c :: cs)
      omega
    case displayMathClose => rw [z_displayMathClose f1] <;> omega
    case displayMathOpen => rw [z_displayMathOpen f1] <;> omega
    case inlineMathClose => rw [z_inlineMathClose f1] <;> omega
    case inlineMathOpen => rw [z_inlineMathOpen f1] <;> omega
    case doubleBackslash => rw [z_doubleBackslash f1] <;> omega
    case documentClass => rw [z_documentClass f1] <;> omega
    case dollarSign => rw [z_dollarSign f2] <;> omega
    case doubleDollarSign => rw [z_doubleDollarSign f2] <;> omega
    case escapedChar => rw [z_escapedChar f1] <;> omega
    case insertSpace => rw [z_insertSpace f1] <;> omega
    case newline => rw [z_newline f4 f5] <;> omega
    case commandName => rw [z_commandName f1] <;> omega
    case comment => rw [z_comment f3] <;> omega
    case envBegin => rw [z_envBegin f1] <;> omega
    case envEnd => rw [z_envEnd f1] <;> omega
    case invalidCommand => rw [z_invalidCommand f1] <;> omega
    case number => rw [z_number f7] <;> omega
    case word => rw [z_word f8] <;> omega
    case tabsOrSpaces => rw [z_tabsOrSpaces f6] <;> omega
  · simp only [tokenRule]
    refine ⟨by trivial, by trivial, ?_⟩
    intro r'
    cases r'
    case singleChar ch => exact z_singleChar_inv hv
    case displayMathClose => exact z_displayMathClose f1
    case displayMathOpen => exact z_displayMathOpen f1
    case inlineMathClose => exact z_inlineMathClose f1
    case inlineMathOpen => exact z_inlineMathOpen f1
    case doubleBackslash => exact z_doubleBackslash f1
    case documentClass => exact z_documentClass f1
    case dollarSign => exact z_dollarSign f2
    case doubleDollarSign => exact z_doubleDollarSign f2
    case escapedChar => exact z_escapedChar f1
    case insertSpace => exact z_insertSpace f1
    case newline => exact z_newline f4 f5
    case commandName => exact z_commandName f1
    case comment => exact z_comment f3
    case envBegin => exact z_envBegin f1
    case envEnd => exact z_envEnd f1
    case invalidCommand => exact z_invalidCommand f1
    case number => exact z_number f7
    case word => exact z_word f8
    case tabsOrSpaces => exact z_tabsOrSpaces f6
theorem c4_single {c : Char} (cs : List Char) (hv : isSingleLitChar c = true) :
    C4At c cs := by
  obtain ⟨f1, f2, f3, f4, f5, f6, f7, f8⟩ := singleLit_facts hv
  have hmt : matchTokenAux c cs = (singleCharToken c, 1) := by
    unfold matchTokenAux
    rw [if_neg f1, if_neg f2, if_neg f3, if_neg f4, if_neg f5, if_neg (by simp [f6]), if_neg (by simp [f7]), if_neg (by simp [f8])]
  have hmt1 : (matchTokenAux c cs).1 = singleCharToken c := by rw [hmt]
  have hmt2 : (matchTokenAux c cs).2 = 1 := by rw [hmt]
  unfold C4At
  rw [hmt1, hmt2, tokenRule_singleCharToken hv]
  constructor
  · intro r
    cases r
    case singleChar ch =>
      have hb := singleChar_le_one ch (c :: cs)
      omega
    case displayMathClose => rw [z_displayMathClose f1] <;> omega
    case displayMathOpen => rw [z_displayMathOpen f1] <;> omega
    case inlineMathClose => rw [z_inlineMathClose f1] <;> omega
    case inlineMathOpen => rw [z_inlineMathOpen f1] <;> omega
    case doubleBackslash => rw [z_doubleBackslash f1] <;> omega
    case documentClass => rw [z_documentClass f1] <;> omega
    case dollarSign => rw [z_dollarSign f2] <;> omega
    case doubleDollarSign => rw [z_doubleDollarSign f2] <;> omega
    case escapedChar => rw [z_escapedChar f1] <;> omega
    case insertSpace => rw [z_insertSpace f1] <;> omega
    case newline => rw [z_newline f4 f5] <;> omega
    case commandName => rw [z_commandName f1] <;> omega
    case comment => rw [z_comment f3] <;> omega
    case envBegin => rw [z_envBegin f1] <;> omega
    case envEnd => rw [z_envEnd f1] <;> omega
    case invalidCommand => rw [z_invalidCommand f1] <;> omega
    case number => rw [z_number f7] <;> omega
    case word => rw [z_word f8] <;> omega
    case tabsOrSpaces => rw [z_tabsOrSpaces f6] <;> omega
  · refine ⟨?_, ?_⟩
    · show ruleLen (Rule.singleChar c) (c :: cs) = 1
      simp only [ruleLen]
      rw [if_pos hv]
      exact litLen_single cs
    · intro r' h'
      cases r'
      case singleChar ch =>
        simp only [priority]
        omega
      case displayMathClose =>
        rw [z_displayMathClose f1] at h'
        simp only [priority]
        omega
      case displayMathOpen =>
        rw [z_displayMathOpen f1] at h'
        simp only [priority]
        omega
      case inlineMathClose =>
        rw [z_inlineMathClose f1] at h'
        simp only [priority]
        omega
      case inlineMathOpen =>
        rw [z_inlineMathOpen f1] at h'
        simp only [priority]
        omega
      case doubleBackslash =>
        rw [z_doubleBackslash f1] at h'
        simp only [priority]
        omega
      case documentClass =>
        rw [z_documentClass f1] at h'
        simp only [priority]
        omega
      case dollarSign =>
        rw [z_dollarSign f2] at h'
        simp only [priority]
        omega
      case doubleDollarSign =>
        rw [z_doubleDollarSign f2] at h'
        simp only [priority]
        omega
      case escapedChar =>
        rw [z_escapedChar f1] at h'
        simp only [priority]
        omega
      case insertSpace =>
        rw [z_insertSpace f1] at h'
        simp only [priority]
        omega
      case newline =>
        rw [z_newline f4 f5] at h'
        simp only [priority]
        omega
      case commandName =>
        rw [z_commandName f1] at h'
        simp only [priority]
        omega
      case comment =>
        rw [z_comment f3] at h'
        simp only [priority]
        omega
      case envBegin =>
        rw [z_envBegin f1] at h'
        simp only [priority]
        omega
      case envEnd =>
        rw [z_envEnd f1] at h'
        simp only [priority]
        omega
      case invalidCommand =>
        rw [z_invalidCommand f1] at h'
        simp only [priority]
        omega
      case number =>
        rw [z_number f7] at h'
        simp only [priority]
        omega
      case word =>
        rw [z_word f8] at h'
        simp only [priority]
        omega
      case tabsOrSpaces =>
        rw [z_tabsOrSpaces f6] at h'
        simp only [priority]
        omega
theorem c4_bs_nil : C4At '\\' [] := by
  have hmt1 : (matchTokenAux '\\' []).1 = Token.Other := by rfl
  have hmt2 : (matchTokenAux '\\' []).2 = 1 := by rfl
  unfold C4At
  rw [hmt1, hmt2]
  constructor
  · intro r
    cases r
    case singleChar ch =>
      have hb := singleChar_le_one ch ['\\']
      omega
    all_goals decide
  · simp only [tokenRule]
    refine ⟨by trivial, by trivial, ?_⟩
    intro r'
    cases r'
    case singleChar ch => exact z_singleChar_inv (by decide)
    all_goals decide

theorem c4_bs_dbs (ds : List Char) : C4At '\\' ('\\' :: ds) := by
  have hmt : matchTokenAux '\\' ('\\' :: ds) = (Token.DoubleBackslash, 2) := by
    unfold matchTokenAux
    rw [if_pos rfl]
    simp [matchBackslash]
  have hmt1 : (matchTokenAux '\\' ('\\' :: ds)).1 = Token.DoubleBackslash := by rw [hmt]
  have hmt2 : (matchTokenAux '\\' ('\\' :: ds)).2 = 2 := by rw [hmt]
  unfold C4At
  rw [hmt1, hmt2]
  constructor
  · intro r
    cases r
    case singleChar ch =>
      have hb := singleChar_le_one ch ('\\' :: '\\' :: ds)
      omega
    case displayMathClose => rw [z2_displayMathClose (by decide)] <;> omega
    case displayMathOpen => rw [z2_displayMathOpen (by decide)] <;> omega
    case inlineMathClose => rw [z2_inlineMathClose (by decide)] <;> omega
    case inlineMathOpen => rw [z2_inlineMathOpen (by decide)] <;> omega
    case doubleBackslash => rw [v_dbs] <;> omega
    case documentClass => rw [z2_documentClass (by decide)] <;> omega
    case dollarSign => rw [z_dollarSign (by decide)] <;> omega
    case doubleDollarSign => rw [z_doubleDollarSign (by decide)] <;> omega
    case escapedChar => rw [v_escaped0 (by decide)] <;> omega
    case insertSpace => rw [v_insert0 (by decide)] <;> omega
    case newline => rw [z_newline (by decide) (by decide)] <;> omega
    case commandName => rw [v_cmd0 (by decide)] <;> omega
    case comment => rw [z_comment (by decide)] <;> omega
    case envBegin => rw [z_envBegin_scan (z_envScan (by decide) (by decide))] <;> omega
    case envEnd => rw [z_envEnd_scan (z_envScan (by decide) (by decide))] <;> omega
    case invalidCommand => rw [v_invalid (by decide)] <;> omega
    case number => rw [z_number (by decide)] <;> omega
    case word => rw [z_word (by decide)] <;> omega
    case tabsOrSpaces => rw [z_tabsOrSpaces (by decide)] <;> omega
  · simp only [tokenRule]
    refine ⟨?_, ?_⟩
    · exact v_dbs
    · intro r' h'
      cases r'
      case singleChar ch =>
        have hb := singleChar_le_one ch ('\\' :: '\\' :: ds)
        simp only [priority]
        omega
      case displayMathClose =>
        rw [z2_displayMathClose (by decide)] at h'
        simp only [priority]
        omega
      case displayMathOpen =>
        rw [z2_displayMathOpen (by decide)] at h'
        simp only [priority]
        omega
      case inlineMathClose =>
        rw [z2_inlineMathClose (by decide)] at h'
        simp only [priority]
        omega
      case inlineMathOpen =>
        rw [z2_inlineMathOpen (by decide)] at h'
        simp only [priority]
        omega
      case doubleBackslash =>
        simp only [priority]
        omega
      case documentClass =>
        rw [z2_documentClass (by decide)] at h'
        simp only [priority]
        omega
      case dollarSign =>
        rw [z_dollarSign (by decide)] at h'
        simp only [priority]
        omega
      case doubleDollarSign =>
        rw [z_doubleDollarSign (by decide)] at h'
        simp only [priority]
        omega
      case escapedChar =>
        rw [v_escaped0 (by decide)] at h'
        simp only [priority]
        omega
      case insertSpace =>
        rw [v_insert0 (by decide)] at h'
        simp only [priority]
        omega
      case newline =>
        rw [z_newline (by decide) (by decide)] at h'
        simp only [priority]
        omega
      case commandName =>
        rw [v_cmd0 (by decide)] at h'
        simp only [priority]
        omega
      case comment =>
        rw [z_comment (by decide)] at h'
        simp only [priority]
        omega
      case envBegin =>
        rw [z_envBegin_scan (z_envScan (by decide) (by decide))] at h'
        simp only [priority]
        omega
      case envEnd =>
        rw [z_envEnd_scan (z_envScan (by decide) (by decide))] at h'
        simp only [priority]
        omega
      case invalidCommand =>
        rw [v_invalid (by decide)] at h'
        simp only [priority]
        omega
      case number =>
        rw [z_number (by decide)] at h'
        simp only [priority]
        omega
      case word =>
        rw [z_word (by decide)] at h'
        simp only [priority]
        omega
      case tabsOrSpaces =>
        rw [z_tabsOrSpaces (by decide)] at h'
        simp only [priority]
        omega

theorem c4_bs_esc {d : Char} (ds : List Char) (hd : isEscapable d = true) : C4At '\\' (d :: ds) := by
  obtain ⟨f1, f2, f3, f4, f5, f6, f7⟩ := escapable_facts hd
  have hmt : matchTokenAux '\\' (d :: ds) = (Token.EscapedChar, 2) := by
    unfold matchTokenAux
    rw [if_pos rfl]
    simp only [matchBackslash]
    rw [if_neg f3, if_pos hd]
  have hmt1 : (matchTokenAux '\\' (d :: ds)).1 = Token.EscapedChar := by rw [hmt]
  have hmt2 : (matchTokenAux '\\' (d :: ds)).2 = 2 := by rw [hmt]
  unfold C4At
  rw [hmt1, hmt2]
  constructor
  · intro r
    cases r
    case singleChar ch =>
      have hb := singleChar_le_one ch ('\\' :: d :: ds)
      omega
    case displayMathClose => rw [z2_displayMathClose (fun he => f5 he.symm)] <;> omega
    case displayMathOpen => rw [z2_displayMathOpen (fun he => f4 he.symm)] <;> omega
    case inlineMathClose => rw [z2_inlineMathClose (fun he => f7 he.symm)] <;> omega
    case inlineMathOpen => rw [z2_inlineMathOpen (fun he => f6 he.symm)] <;> omega
    case doubleBackslash => rw [z2_doubleBackslash (fun he => f3 he.symm)] <;> omega
    case documentClass => rw [z2_documentClass (not_letter_ne f1 (by decide))] <;> omega
    case dollarSign => rw [z_dollarSign (by decide)] <;> omega
    case doubleDollarSign => rw [z_doubleDollarSign (by decide)] <;> omega
    case escapedChar => rw [v_escaped hd] <;> omega
    case insertSpace => rw [v_insert0 f2] <;> omega
    case newline => rw [z_newline (by decide) (by decide)] <;> omega
    case commandName => rw [v_cmd0 f1] <;> omega
    case comment => rw [z_comment (by decide)] <;> omega
    case envBegin => rw [z_envBegin_scan (z_envScan (not_letter_ne f1 (by decide)) (not_letter_ne f1 (by decide)))] <;> omega
    case envEnd => rw [z_envEnd_scan (z_envScan (not_letter_ne f1 (by decide)) (not_letter_ne f1 (by decide)))] <;> omega
    case invalidCommand => rw [v_invalid f1] <;> omega
    case number => rw [z_number (by decide)] <;> omega
    case word => rw [z_word (by decide)] <;> omega
    case tabsOrSpaces => rw [z_tabsOrSpaces (by decide)] <;> omega
  · simp only [tokenRule]
    refine ⟨?_, ?_⟩
    · exact v_escaped hd
    · intro r' h'
      cases r'
      case singleChar ch =>
        have hb := singleChar_le_one ch ('\\' :: d :: ds)
        simp only [priority]
        omega
      case displayMathClose =>
        rw [z2_displayMathClose (fun he => f5 he.symm)] at h'
        simp only [priority]
        omega
      case displayMathOpen =>
        rw [z2_displayMathOpen (fun he => f4 he.symm)] at h'
        simp only [priority]
        omega
      case inlineMathClose =>
        rw [z2_inlineMathClose (fun he => f7 he.symm)] at h'
        simp only [priority]
        omega
      case inlineMathOpen =>
        rw [z2_inlineMathOpen (fun he => f6 he.symm)] at h'
        simp only [priority]
        omega
      case doubleBackslash =>
        rw [z2_doubleBackslash (fun he => f3 he.symm)] at h'
        simp only [priority]
        omega
      case documentClass =>
        rw [z2_documentClass (not_letter_ne f1 (by decide))] at h'
        simp only [priority]
        omega
      case dollarSign =>
        rw [z_dollarSign (by decide)] at h'
        simp only [priority]
        omega
      case doubleDollarSign =>
        rw [z_doubleDollarSign (by decide)] at h'
        simp only [priority]
        omega
      case escapedChar =>
        simp only [priority]
        omega
      case insertSpace =>
        rw [v_insert0 f2] at h'
        simp only [priority]
        omega
      case newline =>
        rw [z_newline (by decide) (by decide)] at h'
        simp only [priority]
        omega
      case commandName =>
        rw [v_cmd0 f1] at h'
        simp only [priority]
        omega
      case comment =>
        rw [z_comment (by decide)] at h'
        simp only [priority]
        omega
      case envBegin =>
        rw [z_envBegin_scan (z_envScan (not_letter_ne f1 (by decide)) (not_letter_ne f1 (by decide)))] at h'
        simp only [priority]
        omega
      case envEnd =>
        rw [z_envEnd_scan (z_envScan (not_letter_ne f1 (by decide)) (not_letter_ne f1 (by decide)))] at h'
        simp only [priority]
        omega
      case invalidCommand =>
        rw [v_invalid f1] at h'
        simp only [priority]
        omega
      case number =>
        rw [z_number (by decide)] at h'
        simp only [priority]
        omega
      case word =>
        rw [z_word (by decide)] at h'
        simp only [priority]
        omega
      case tabsOrSpaces =>
        rw [z_tabsOrSpaces (by decide)] at h'
        simp only [priority]
        omega

theorem c4_bs_ins {d : Char} (ds : List Char) (hd : isSpaceEscape d = true) : C4At '\\' (d :: ds) := by
  obtain ⟨f1, f2, f3, f4, f5, f6, f7⟩ := spaceEscape_facts hd
  have hmt : matchTokenAux '\\' (d :: ds) = (Token.InsertSpace, 2) := by
    unfold matchTokenAux
    rw [if_pos rfl]
    simp only [matchBackslash]
    rw [if_neg f3, if_neg (by simp [f2]), if_pos hd]
  have hmt1 : (matchTokenAux '\\' (d :: ds)).1 = Token.InsertSpace := by rw [hmt]
  have hmt2 : (matchTokenAux '\\' (d :: ds)).2 = 2 := by rw [hmt]
  unfold C4At
  rw [hmt1, hmt2]
  constructor
  · intro r
    cases r
    case singleChar ch =>
      have hb := singleChar_le_one ch ('\\' :: d :: ds)
      omega
    case displayMathClose => rw [z2_displayMathClose (fun he => f5 he.symm)] <;> omega
    case displayMathOpen => rw [z2_displayMathOpen (fun he => f4 he.symm)] <;> omega
    case inlineMathClose => rw [z2_inlineMathClose (fun he => f7 he.symm)] <;> omega
    case inlineMathOpen => rw [z2_inlineMathOpen (fun he => f6 he.symm)] <;> omega
    case doubleBackslash => rw [z2_doubleBackslash (fun he => f3 he.symm)] <;> omega
    case documentClass => rw [z2_documentClass (not_letter_ne f1 (by decide))] <;> omega
    case dollarSign => rw [z_dollarSign (by decide)] <;> omega
    case doubleDollarSign => rw [z_doubleDollarSign (by decide)] <;> omega
    case escapedChar => rw [v_escaped0 f2] <;> omega
    case insertSpace => rw [v_insert hd] <;> omega
    case newline => rw [z_newline (by decide) (by decide)] <;> omega
    case commandName => rw [v_cmd0 f1] <;> omega
    case comment => rw [z_comment (by decide)] <;> omega
    case envBegin => rw [z_envBegin_scan (z_envScan (not_letter_ne f1 (by decide)) (not_letter_ne f1 (by decide)))] <;> omega
    case envEnd => rw [z_envEnd_scan (z_envScan (not_letter_ne f1 (by decide)) (not_letter_ne f1 (by decide)))] <;> omega
    case invalidCommand => rw [v_invalid f1] <;> omega
    case number => rw [z_number (by decide)] <;> omega
    case word => rw [z_word (by decide)] <;> omega
    case tabsOrSpaces => rw [z_tabsOrSpaces (by decide)] <;> omega
  · simp only [tokenRule]
    refine ⟨?_, ?_⟩
    · exact v_insert hd
    · intro r' h'
      cases r'
      case singleChar ch =>
        have hb := singleChar_le_one ch ('\\' :: d :: ds)
        simp only [priority]
        omega
      case displayMathClose =>
        rw [z2_displayMathClose (fun he => f5 he.symm)] at h'
        simp only [priority]
        omega
      case displayMathOpen =>
        rw [z2_displayMathOpen (fun he => f4 he.symm)] at h'
        simp only [priority]
        omega
      case inlineMathClose =>
        rw [z2_inlineMathClose (fun he => f7 he.symm)] at h'
        simp only [priority]
        omega
      case inlineMathOpen =>
        rw [z2_inlineMathOpen (fun he => f6 he.symm)] at h'
        simp only [priority]
        omega
      case doubleBackslash =>
        rw [z2_doubleBackslash (fun he => f3 he.symm)] at h'
        simp only [priority]
        omega
      case documentClass =>
        rw [z2_documentClass (not_letter_ne f1 (by decide))] at h'
        simp only [priority]
        omega
      case dollarSign =>
        rw [z_dollarSign (by decide)] at h'
        simp only [priority]
        omega
      case doubleDollarSign =>
        rw [z_doubleDollarSign (by decide)] at h'
        simp only [priority]
        omega
      case escapedChar =>
        rw [v_escaped0 f2] at h'
        simp only [priority]
        omega
      case insertSpace =>
        simp only [priority]
        omega
      case newline =>
        rw [z_newline (by decide) (by decide)] at h'
        simp only [priority]
        omega
      case commandName =>
        rw [v_cmd0 f1] at h'
        simp only [priority]
        omega
      case comment =>
        rw [z_comment (by decide)] at h'
        simp only [priority]
        omega
      case envBegin =>
        rw [z_envBegin_scan (z_envScan (not_letter_ne f1 (by decide)) (not_letter_ne f1 (by decide)))] at h'
        simp only [priority]
        omega
      case envEnd =>
        rw [z_envEnd_scan (z_envScan (not_letter_ne f1 (by decide)) (not_letter_ne f1 (by decide)))] at h'
        simp only [priority]
        omega
      case invalidCommand =>
        rw [v_invalid f1] at h'
        simp only [priority]
        omega
      case number =>
        rw [z_number (by decide)] at h'
        simp only [priority]
        omega
      case word =>
        rw [z_word (by decide)] at h'
        simp only [priority]
        omega
      case tabsOrSpaces =>
        rw [z_tabsOrSpaces (by decide)] at h'
        simp only [priority]
        omega

theorem c4_bs_dmo (ds : List Char) : C4At '\\' ('[' :: ds) := by
  have hmt : matchTokenAux '\\' ('[' :: ds) = (Token.DisplayMathOpen, 2) := by
    unfold matchTokenAux
    rw [if_pos rfl]
    simp [matchBackslash, isEscapable, isSpaceEscape]
  have hmt1 : (matchTokenAux '\\' ('[' :: ds)).1 = Token.DisplayMathOpen := by rw [hmt]
  have hmt2 : (matchTokenAux '\\' ('[' :: ds)).2 = 2 := by rw [hmt]
  unfold C4At
  rw [hmt1, hmt2]
  constructor
  · intro r
    cases r
    case singleChar ch =>
      have hb := singleChar_le_one ch ('\\' :: '[' :: ds)
      omega
    case displayMathClose => rw [z2_displayMathClose (by decide)] <;> omega
    case displayMathOpen => rw [v_dmo] <;> omega
    case inlineMathClose => rw [z2_inlineMathClose (by decide)] <;> omega
    case inlineMathOpen => rw [z2_inlineMathOpen (by decide)] <;> omega
    case doubleBackslash => rw [z2_doubleBackslash (by decide)] <;> omega
    case documentClass => rw [z2_documentClass (by decide)] <;> omega
    case dollarSign => rw [z_dollarSign (by decide)] <;> omega
    case doubleDollarSign => rw [z_doubleDollarSign (by decide)] <;> omega
    case escapedChar => rw [v_escaped0 (by decide)] <;> omega
    case insertSpace => rw [v_insert0 (by decide)] <;> omega
    case newline => rw [z_newline (by decide) (by decide)] <;> omega
    case commandName => rw [v_cmd0 (by decide)] <;> omega
    case comment => rw [z_comment (by decide)] <;> omega
    case envBegin => rw [z_envBegin_scan (z_envScan (by decide) (by decide))] <;> omega
    case envEnd => rw [z_envEnd_scan (z_envScan (by decide) (by decide))] <;> omega
    case invalidCommand => rw [v_invalid (by decide)] <;> omega
    case number => rw [z_number (by decide)] <;> omega
    case word => rw [z_word (by decide)] <;> omega
    case tabsOrSpaces => rw [z_tabsOrSpaces (by decide)] <;> omega
  · simp only [tokenRule]
    refine ⟨?_, ?_⟩
    · exact v_dmo
    · intro r' h'
      cases r'
      case singleChar ch =>
        have hb := singleChar_le_one ch ('\\' :: '[' :: ds)
        simp only [priority]
        omega
      case displayMathClose =>
        rw [z2_displayMathClose (by decide)] at h'
        simp only [priority]
        omega
      case displayMathOpen =>
        simp only [priority]
        omega
      case inlineMathClose =>
        rw [z2_inlineMathClose (by decide)] at h'
        simp only [priority]
        omega
      case inlineMathOpen =>
        rw [z2_inlineMathOpen (by decide)] at h'
        simp only [priority]
        omega
      case doubleBackslash =>
        rw [z2_doubleBackslash (by decide)] at h'
        simp only [priority]
        omega
      case documentClass =>
        rw [z2_documentClass (by decide)] at h'
        simp only [priority]
        omega
      case dollarSign =>
        rw [z_dollarSign (by decide)] at h'
        simp only [priority]
        omega
      case doubleDollarSign =>
        rw [z_doubleDollarSign (by decide)] at h'
        simp only [priority]
        omega
      case escapedChar =>
        rw [v_escaped0 (by decide)] at h'
        simp only [priority]
        omega
      case insertSpace =>
        rw [v_insert0 (by decide)] at h'
        simp only [priority]
        omega
      case newline =>
        rw [z_newline (by decide) (by decide)] at h'
        simp only [priority]
        omega
      case commandName =>
        rw [v_cmd0 (by decide)] at h'
        simp only [priority]
        omega
      case comment =>
        rw [z_comment (by decide)] at h'
        simp only [priority]
        omega
      case envBegin =>
        rw [z_envBegin_scan (z_envScan (by decide) (by decide))] at h'
        simp only [priority]
        omega
      case envEnd =>
        rw [z_envEnd_scan (z_envScan (by decide) (by decide))] at h'
        simp only [priority]
        omega
      case invalidCommand =>
        rw [v_invalid (by decide)] at h'
        simp only [priority]
        omega
      case number =>
        rw [z_number (by decide)] at h'
        simp only [priority]
        omega
      case word =>
        rw [z_word (by decide)] at h'
        simp only [priority]
        omega
      case tabsOrSpaces =>
        rw [z_tabsOrSpaces (by decide)] at h'
        simp only [priority]
        omega

theorem c4_bs_dmc (ds : List Char) : C4At '\\' (']' :: ds) := by
  have hmt : matchTokenAux '\\' (']' :: ds) = (Token.DisplayMathClose, 2) := by
    unfold matchTokenAux
    rw [if_pos rfl]
    simp [matchBackslash, isEscapable, isSpaceEscape]
  have hmt1 : (matchTokenAux '\\' (']' :: ds)).1 = Token.DisplayMathClose := by rw [hmt]
  have hmt2 : (matchTokenAux '\\' (']' :: ds)).2 = 2 := by rw [hmt]
  unfold C4At
  rw [hmt1, hmt2]
  constructor
  · intro r
    cases r
    case singleChar ch =>
      have hb := singleChar_le_one ch ('\\' :: ']' :: ds)
      omega
    case displayMathClose => rw [v_dmc] <;> omega
    case displayMathOpen => rw [z2_displayMathOpen (by decide)] <;> omega
    case inlineMathClose => rw [z2_inlineMathClose (by decide)] <;> omega
    case inlineMathOpen => rw [z2_inlineMathOpen (by decide)] <;> omega
    case doubleBackslash => rw [z2_doubleBackslash (by decide)] <;> omega
    case documentClass => rw [z2_documentClass (by decide)] <;> omega
    case dollarSign => rw [z_dollarSign (by decide)] <;> omega
    case doubleDollarSign => rw [z_doubleDollarSign (by decide)] <;> omega
    case escapedChar => rw [v_escaped0 (by decide)] <;> omega
    case insertSpace => rw [v_insert0 (by decide)] <;> omega
    case newline => rw [z_newline (by decide) (by decide)] <;> omega
    case commandName => rw [v_cmd0 (by decide)] <;> omega
    case comment => rw [z_comment (by decide)] <;> omega
    case envBegin => rw [z_envBegin_scan (z_envScan (by decide) (by decide))] <;> omega
    case envEnd => rw [z_envEnd_scan (z_envScan (by decide) (by decide))] <;> omega
    case invalidCommand => rw [v_invalid (by decide)] <;> omega
    case number => rw [z_number (by decide)] <;> omega
    case word => rw [z_word (by decide)] <;> omega
    case tabsOrSpaces => rw [z_tabsOrSpaces (by decide)] <;> omega
  · simp only [tokenRule]
    refine ⟨?_, ?_⟩
    · exact v_dmc
    · intro r' h'
      cases r'
      case singleChar ch =>
        have hb := singleChar_le_one ch ('\\' :: ']' :: ds)
        simp only [priority]
        omega
      case displayMathClose =>
        simp only [priority]
        omega
      case displayMathOpen =>
        rw [z2_displayMathOpen (by decide)] at h'
        simp only [priority]
        omega
      case inlineMathClose =>
        rw [z2_inlineMathClose (by decide)] at h'
        simp only [priority]
        omega
      case inlineMathOpen =>
        rw [z2_inlineMathOpen (by decide)] at h'
        simp only [priority]
        omega
      case doubleBackslash =>
        rw [z2_doubleBackslash (by decide)] at h'
        simp only [priority]
        omega
      case documentClass =>
        rw [z2_documentClass (by decide)] at h'
        simp only [priority]
        omega
      case dollarSign =>
        rw [z_dollarSign (by decide)] at h'
        simp only [priority]
        omega
      case doubleDollarSign =>
        rw [z_doubleDollarSign (by decide)] at h'
        simp only [priority]
        omega
      case escapedChar =>
        rw [v_escaped0 (by decide)] at h'
        simp only [priority]
        omega
      case insertSpace =>
        rw [v_insert0 (by decide)] at h'
        simp only [priority]
        omega
      case newline =>
        rw [z_newline (by decide) (by decide)] at h'
        simp only [priority]
        omega
      case commandName =>
        rw [v_cmd0 (by decide)] at h'
        simp only [priority]
        omega
      case comment =>
        rw [z_comment (by decide)] at h'
        simp only [priority]
        omega
      case envBegin =>
        rw [z_envBegin_scan (z_envScan (by decide) (by decide))] at h'
        simp only [priority]
        omega
      case envEnd =>
        rw [z_envEnd_scan (z_envScan (by decide) (by decide))] at h'
        simp only [priority]
        omega
      case invalidCommand =>
        rw [v_invalid (by decide)] at h'
        simp only [priority]
        omega
      case number =>
        rw [z_number (by decide)] at h'
        simp only [priority]
        omega
      case word =>
        rw [z_word (by decide)] at h'
        simp only [priority]
        omega
      case tabsOrSpaces =>
        rw [z_tabsOrSpaces (by decide)] at h'
        simp only [priority]
        omega

theorem c4_bs_imo (ds : List Char) : C4At '\\' ('(' :: ds) := by
  have hmt : matchTokenAux '\\' ('(' :: ds) = (Token.InlineMathOpen, 2) := by
    unfold matchTokenAux
    rw [if_pos rfl]
    simp [matchBackslash, isEscapable, isSpaceEscape]
  have hmt1 : (matchTokenAux '\\' ('(' :: ds)).1 = Token.InlineMathOpen := by rw [hmt]
  have hmt2 : (matchTokenAux '\\' ('(' :: ds)).2 = 2 := by rw [hmt]
  unfold C4At
  rw [hmt1, hmt2]
  constructor
  · intro r
    cases r
    case singleChar ch =>
      have hb := singleChar_le_one ch ('\\' :: '(' :: ds)
      omega
    case displayMathClose => rw [z2_displayMathClose (by decide)] <;> omega
    case displayMathOpen => rw [z2_displayMathOpen (by decide)] <;> omega
    case inlineMathClose => rw [z2_inlineMathClose (by decide)] <;> omega
    case inlineMathOpen => rw [v_imo] <;> omega
    case doubleBackslash => rw [z2_doubleBackslash (by decide)] <;> omega
    case documentClass => rw [z2_documentClass (by decide)] <;> omega
    case dollarSign => rw [z_dollarSign (by decide)] <;> omega
    case doubleDollarSign => rw [z_doubleDollarSign (by decide)] <;> omega
    case escapedChar => rw [v_escaped0 (by decide)] <;> omega
    case insertSpace => rw [v_insert0 (by decide)] <;> omega
    case newline => rw [z_newline (by decide) (by decide)] <;> omega
    case commandName => rw [v_cmd0 (by decide)] <;> omega
    case comment => rw [z_comment (by decide)] <;> omega
    case envBegin => rw [z_envBegin_scan (z_envScan (by decide) (by decide))] <;> omega
    case envEnd => rw [z_envEnd_scan (z_envScan (by decide) (by decide))] <;> omega
    case invalidCommand => rw [v_invalid (by decide)] <;> omega
    case number => rw [z_number (by decide)] <;> omega
    case word => rw [z_word (by decide)] <;> omega
    case tabsOrSpaces => rw [z_tabsOrSpaces (by decide)] <;> omega
  · simp only [tokenRule]
    refine ⟨?_, ?_⟩
    · exact v_imo
    · intro r' h'
      cases r'
      case singleChar ch =>
        have hb := singleChar_le_one ch ('\\' :: '(' :: ds)
        simp only [priority]
        omega
      case displayMathClose =>
        rw [z2_displayMathClose (by decide)] at h'
        simp only [priority]
        omega
      case displayMathOpen =>
        rw [z2_displayMathOpen (by decide)] at h'
        simp only [priority]
        omega
      case inlineMathClose =>
        rw [z2_inlineMathClose (by decide)] at h'
        simp only [priority]
        omega
      case inlineMathOpen =>
        simp only [priority]
        omega
      case doubleBackslash =>
        rw [z2_doubleBackslash (by decide)] at h'
        simp only [priority]
        omega
      case documentClass =>
        rw [z2_documentClass (by decide)] at h'
        simp only [priority]
        omega
      case dollarSign =>
        rw [z_dollarSign (by decide)] at h'
        simp only [priority]
        omega
      case doubleDollarSign =>
        rw [z_doubleDollarSign (by decide)] at h'
        simp only [priority]
        omega
      case escapedChar =>
        rw [v_escaped0 (by decide)] at h'
        simp only [priority]
        omega
      case insertSpace =>
        rw [v_insert0 (by decide)] at h'
        simp only [priority]
        omega
      case newline =>
        rw [z_newline (by decide) (by decide)] at h'
        simp only [priority]
        omega
      case commandName =>
        rw [v_cmd0 (by decide)] at h'
        simp only [priority]
        omega
      case comment =>
        rw [z_comment (by decide)] at h'
        simp only [priority]
        omega
      case envBegin =>
        rw [z_envBegin_scan (z_envScan (by decide) (by decide))] at h'
        simp only [priority]
        omega
      case envEnd =>
        rw [z_envEnd_scan (z_envScan (by decide) (by decide))] at h'
        simp only [priority]
        omega
      case invalidCommand =>
        rw [v_invalid (by decide)] at h'
        simp only [priority]
        omega
      case number =>
        rw [z_number (by decide)] at h'
        simp only [priority]
        omega
      case word =>
        rw [z_word (by decide)] at h'
        simp only [priority]
        omega
      case tabsOrSpaces =>
        rw [z_tabsOrSpaces (by decide)] at h'
        simp only [priority]
        omega

theorem c4_bs_imc (ds : List Char) : C4At '\\' (')' :: ds) := by
  have hmt : matchTokenAux '\\' (')' :: ds) = (Token.InlineMathClose, 2) := by
    unfold matchTokenAux
    rw [if_pos rfl]
    simp [matchBackslash, isEscapable, isSpaceEscape]
  have hmt1 : (matchTokenAux '\\' (')' :: ds)).1 = Token.InlineMathClose := by rw [hmt]
  have hmt2 : (matchTokenAux '\\' (')' :: ds)).2 = 2 := by rw [hmt]
  unfold C4At
  rw [hmt1, hmt2]
  constructor
  · intro r
    cases r
    case singleChar ch =>
      have hb := singleChar_le_one ch ('\\' :: ')' :: ds)
      omega
    case displayMathClose => rw [z2_displayMathClose (by decide)] <;> omega
    case displayMathOpen => rw [z2_displayMathOpen (by decide)] <;> omega
    case inlineMathClose => rw [v_imc] <;> omega
    case inlineMathOpen => rw [z2_inlineMathOpen (by decide)] <;> omega
    case doubleBackslash => rw [z2_doubleBackslash (by decide)] <;> omega
    case documentClass => rw [z2_documentClass (by decide)] <;> omega
    case dollarSign => rw [z_dollarSign (by decide)] <;> omega
    case doubleDollarSign => rw [z_doubleDollarSign (by decide)] <;> omega
    case escapedChar => rw [v_escaped0 (by decide)] <;> omega
    case insertSpace => rw [v_insert0 (by decide)] <;> omega
    case newline => rw [z_newline (by decide) (by decide)] <;> omega
    case commandName => rw [v_cmd0 (by decide)] <;> omega
    case comment => rw [z_comment (by decide)] <;> omega
    case envBegin => rw [z_envBegin_scan (z_envScan (by decide) (by decide))] <;> omega
    case envEnd => rw [z_envEnd_scan (z_envScan (by decide) (by decide))] <;> omega
    case invalidCommand => rw [v_invalid (by decide)] <;> omega
    case number => rw [z_number (by decide)] <;> omega
    case word => rw [z_word (by decide)] <;> omega
    case tabsOrSpaces => rw [z_tabsOrSpaces (by decide)] <;> omega
  · simp only [tokenRule]
    refine ⟨?_, ?_⟩
    · exact v_imc
    · intro r' h'
      cases r'
      case singleChar ch =>
        have hb := singleChar_le_one ch ('\\' :: ')' :: ds)
        simp only [priority]
        omega
      case displayMathClose =>
        rw [z2_displayMathClose (by decide)] at h'
        simp only [priority]
        omega
      case displayMathOpen =>
        rw [z2_displayMathOpen (by decide)] at h'
        simp only [priority]
        omega
      case inlineMathClose =>
        simp only [priority]
        omega
      case inlineMathOpen =>
        rw [z2_inlineMathOpen (by decide)] at h'
        simp only [priority]
        omega
      case doubleBackslash =>
        rw [z2_doubleBackslash (by decide)] at h'
        simp only [priority]
        omega
      case documentClass =>
        rw [z2_documentClass (by decide)] at h'
        simp only [priority]
        omega
      case dollarSign =>
        rw [z_dollarSign (by decide)] at h'
        simp only [priority]
        omega
      case doubleDollarSign =>
        rw [z_doubleDollarSign (by decide)] at h'
        simp only [priority]
        omega
      case escapedChar =>
        rw [v_escaped0 (by decide)] at h'
        simp only [priority]
        omega
      case insertSpace =>
        rw [v_insert0 (by decide)] at h'
        simp only [priority]
        omega
      case newline =>
        rw [z_newline (by decide) (by decide)] at h'
        simp only [priority]
        omega
      case commandName =>
        rw [v_cmd0 (by decide)] at h'
        simp only [priority]
        omega
      case comment =>
        rw [z_comment (by decide)] at h'
        simp only [priority]
        omega
      case envBegin =>
        rw [z_envBegin_scan (z_envScan (by decide) (by decide))] at h'
        simp only [priority]
        omega
      case envEnd =>
        rw [z_envEnd_scan (z_envScan (by decide) (by decide))] at h'
        simp only [priority]
        omega
      case invalidCommand =>
        rw [v_invalid (by decide)] at h'
        simp only [priority]
        omega
      case number =>
        rw [z_number (by decide)] at h'
        simp only [priority]
        omega
      case word =>
        rw [z_word (by decide)] at h'
        simp only [priority]
        omega
      case tabsOrSpaces =>
        rw [z_tabsOrSpaces (by decide)] at h'
        simp only [priority]
        omega

theorem c4_bs_inv {d : Char} (ds : List Char) (h1 : ¬d = '\\') (h2 : isEscapable d = false) (h3 : isSpaceEscape d = false) (h4 : ¬d = '[') (h5 : ¬d = ']') (h6 : ¬d = '(') (h7 : ¬d = ')') (h8 : isLatinLetter d = false) : C4At '\\' (d :: ds) := by
  have hmt : matchTokenAux '\\' (d :: ds) = (Token.InvalidCommand, 2) := by
    unfold matchTokenAux
    rw [if_pos rfl]
    simp only [matchBackslash]
    rw [if_neg h1, if_neg (by simp [h2]), if_neg (by simp [h3]), if_neg h4, if_neg h5, if_neg h6, if_neg h7, if_neg (by simp [h8])]
  have hmt1 : (matchTokenAux '\\' (d :: ds)).1 = Token.InvalidCommand := by rw [hmt]
  have hmt2 : (matchTokenAux '\\' (d :: ds)).2 = 2 := by rw [hmt]
  unfold C4At
  rw [hmt1, hmt2]
  constructor
  · intro r
    cases r
    case singleChar ch =>
      have hb := singleChar_le_one ch ('\\' :: d :: ds)
      omega
    case displayMathClose => rw [z2_displayMathClose (fun he => h5 he.symm)] <;> omega
    case displayMathOpen => rw [z2_displayMathOpen (fun he => h4 he.symm)] <;> omega
    case inlineMathClose => rw [z2_inlineMathClose (fun he => h7 he.symm)] <;> omega
    case inlineMathOpen => rw [z2_inlineMathOpen (fun he => h6 he.symm)] <;> omega
    case doubleBackslash => rw [z2_doubleBackslash (fun he => h1 he.symm)] <;> omega
    case documentClass => rw [z2_documentClass (not_letter_ne h8 (by decide))] <;> omega
    case dollarSign => rw [z_dollarSign (by decide)] <;> omega
    case doubleDollarSign => rw [z_doubleDollarSign (by decide)] <;> omega
    case escapedChar => rw [v_escaped0 h2] <;> omega
    case insertSpace => rw [v_insert0 h3] <;> omega
    case newline => rw [z_newline (by decide) (by decide)] <;> omega
    case commandName => rw [v_cmd0 h8] <;> omega
    case comment => rw [z_comment (by decide)] <;> omega
    case envBegin => rw [z_envBegin_scan (z_envScan (not_letter_ne h8 (by decide)) (not_letter_ne h8 (by decide)))] <;> omega
    case envEnd => rw [z_envEnd_scan (z_envScan (not_letter_ne h8 (by decide)) (not_letter_ne h8 (by decide)))] <;> omega
    case invalidCommand => rw [v_invalid h8] <;> omega
    case number => rw [z_number (by decide)] <;> omega
    case word => rw [z_word (by decide)] <;> omega
    case tabsOrSpaces => rw [z_tabsOrSpaces (by decide)] <;> omega
  · simp only [tokenRule]
    refine ⟨?_, ?_⟩
    · exact v_invalid h8
    · intro r' h'
      cases r'
      case singleChar ch =>
        have hb := singleChar_le_one ch ('\\' :: d :: ds)
        simp only [priority]
        omega
      case displayMathClose =>
        rw [z2_displayMathClose (fun he => h5 he.symm)] at h'
        simp only [priority]
        omega
      case displayMathOpen =>
        rw [z2_displayMathOpen (fun he => h4 he.symm)] at h'
        simp only [priority]
        omega
      case inlineMathClose =>
        rw [z2_inlineMathClose (fun he => h7 he.symm)] at h'
        simp only [priority]
        omega
      case inlineMathOpen =>
        rw [z2_inlineMathOpen (fun he => h6 he.symm)] at h'
        simp only [priority]
        omega
      case doubleBackslash =>
        rw [z2_doubleBackslash (fun he => h1 he.symm)] at h'
        simp only [priority]
        omega
      case documentClass =>
        rw [z2_documentClass (not_letter_ne h8 (by decide))] at h'
        simp only [priority]
        omega
      case dollarSign =>
        rw [z_dollarSign (by decide)] at h'
        simp only [priority]
        omega
      case doubleDollarSign =>
        rw [z_doubleDollarSign (by decide)] at h'
        simp only [priority]
        omega
      case escapedChar =>
        rw [v_escaped0 h2] at h'
        simp only [priority]
        omega
      case insertSpace =>
        rw [v_insert0 h3] at h'
        simp only [priority]
        omega
      case newline =>
        rw [z_newline (by decide) (by decide)] at h'
        simp only [priority]
        omega
      case commandName =>
        rw [v_cmd0 h8] at h'
        simp only [priority]
        omega
      case comment =>
        rw [z_comment (by decide)] at h'
        simp only [priority]
        omega
      case envBegin =>
        rw [z_envBegin_scan (z_envScan (not_letter_ne h8 (by decide)) (not_letter_ne h8 (by decide)))] at h'
        simp only [priority]
        omega
      case envEnd =>
        rw [z_envEnd_scan (z_envScan (not_letter_ne h8 (by decide)) (not_letter_ne h8 (by decide)))] at h'
        simp only [priority]
        omega
      case invalidCommand =>
        simp only [priority]
        omega
      case number =>
        rw [z_number (by decide)] at h'
        simp only [priority]
        omega
      case word =>
        rw [z_word (by decide)] at h'
        simp only [priority]
        omega
      case tabsOrSpaces =>
        rw [z_tabsOrSpaces (by decide)] at h'
        simp only [priority]
        omega
theorem v_envB {cs nm : List Char} {n : Nat}
    (h : envScan cs = some (Token.EnvironmentBegin nm, n)) :
    ruleLen Rule.envBegin ('\\' :: cs) = n := by
  simp [ruleLen, h]

theorem v_envB0 {cs nm : List Char} {n : Nat}
    (h : envScan cs = some (Token.EnvironmentEnd nm, n)) :
    ruleLen Rule.envBegin ('\\' :: cs) = 0 := by
  simp [ruleLen, h]

theorem v_envE {cs nm : List Char} {n : Nat}
    (h : envScan cs = some (Token.EnvironmentEnd nm, n)) :
    ruleLen Rule.envEnd ('\\' :: cs) = n := by
  simp [ruleLen, h]

theorem v_envE0 {cs nm : List Char} {n : Nat}
    (h : envScan cs = some (Token.EnvironmentBegin nm, n)) :
    ruleLen Rule.envEnd ('\\' :: cs) = 0 := by
  simp [ruleLen, h]

theorem c4_bs_env_begin (rest : List Char) {nm : List Char} {n : Nat} (henv : envScan ('b' :: rest) = some (Token.EnvironmentBegin nm, n)) (hlr : letterRun ('b' :: rest) = 5) (hn : 9 ≤ n) : C4At '\\' ('b' :: rest) := by
  have hmt : matchTokenAux '\\' ('b' :: rest) = (Token.EnvironmentBegin nm, n) := by
    unfold matchTokenAux
    rw [if_pos rfl]
    simp [matchBackslash, isEscapable, isSpaceEscape, isLatinLetter]
    unfold matchCommandLike
    rw [henv]
  have hmt1 : (matchTokenAux '\\' ('b' :: rest)).1 = Token.EnvironmentBegin nm := by rw [hmt]
  have hmt2 : (matchTokenAux '\\' ('b' :: rest)).2 = n := by rw [hmt]
  unfold C4At
  rw [hmt1, hmt2]
  constructor
  · intro r
    cases r
    case singleChar ch =>
      have hb := singleChar_le_one ch ('\\' :: 'b' :: rest)
      omega
    case displayMathClose => rw [z2_displayMathClose (by decide)] <;> omega
    case displayMathOpen => rw [z2_displayMathOpen (by decide)] <;> omega
    case inlineMathClose => rw [z2_inlineMathClose (by decide)] <;> omega
    case inlineMathOpen => rw [z2_inlineMathOpen (by decide)] <;> omega
    case doubleBackslash => rw [z2_doubleBackslash (by decide)] <;> omega
    case documentClass => rw [z2_documentClass (by decide)] <;> omega
    case dollarSign => rw [z_dollarSign (by decide)] <;> omega
    case doubleDollarSign => rw [z_doubleDollarSign (by decide)] <;> omega
    case escapedChar => rw [v_escaped0 (by decide)] <;> omega
    case insertSpace => rw [v_insert0 (by decide)] <;> omega
    case newline => rw [z_newline (by decide) (by decide)] <;> omega
    case commandName =>
      rw [v_cmd (by decide), hlr]
      omega
    case comment => rw [z_comment (by decide)] <;> omega
    case envBegin => rw [v_envB henv] <;> omega
    case envEnd => rw [v_envE0 henv] <;> omega
    case invalidCommand => rw [v_invalid0 (by decide)] <;> omega
    case number => rw [z_number (by decide)] <;> omega
    case word => rw [z_word (by decide)] <;> omega
    case tabsOrSpaces => rw [z_tabsOrSpaces (by decide)] <;> omega
  · simp only [tokenRule]
    refine ⟨?_, ?_⟩
    · exact v_envB henv
    · intro r' h'
      cases r'
      case singleChar ch =>
        have hb := singleChar_le_one ch ('\\' :: 'b' :: rest)
        simp only [priority]
        omega
      case displayMathClose =>
        rw [z2_displayMathClose (by decide)] at h'
        simp only [priority]
        omega
      case displayMathOpen =>
        rw [z2_displayMathOpen (by decide)] at h'
        simp only [priority]
        omega
      case inlineMathClose =>
        rw [z2_inlineMathClose (by decide)] at h'
        simp only [priority]
        omega
      case inlineMathOpen =>
        rw [z2_inlineMathOpen (by decide)] at h'
        simp only [priority]
        omega
      case doubleBackslash =>
        rw [z2_doubleBackslash (by decide)] at h'
        simp only [priority]
        omega
      case documentClass =>
        rw [z2_documentClass (by decide)] at h'
        simp only [priority]
        omega
      case dollarSign =>
        rw [z_dollarSign (by decide)] at h'
        simp only [priority]
        omega
      case doubleDollarSign =>
        rw [z_doubleDollarSign (by decide)] at h'
        simp only [priority]
        omega
      case escapedChar =>
        rw [v_escaped0 (by decide)] at h'
        simp only [priority]
        omega
      case insertSpace =>
        rw [v_insert0 (by decide)] at h'
        simp only [priority]
        omega
      case newline =>
        rw [z_newline (by decide) (by decide)] at h'
        simp only [priority]
        omega
      case commandName =>
        rw [v_cmd (by decide), hlr] at h'
        simp only [priority]
        omega
      case comment =>
        rw [z_comment (by decide)] at h'
        simp only [priority]
        omega
      case envBegin =>
        simp only [priority]
        omega
      case envEnd =>
        rw [v_envE0 henv] at h'
        simp only [priority]
        omega
      case invalidCommand =>
        rw [v_invalid0 (by decide)] at h'
        simp only [priority]
        omega
      case number =>
        rw [z_number (by decide)] at h'
        simp only [priority]
        omega
      case word =>
        rw [z_word (by decide)] at h'
        simp only [priority]
        omega
      case tabsOrSpaces =>
        rw [z_tabsOrSpaces (by decide)] at h'
        simp only [priority]
        omega

theorem c4_bs_env_end (rest : List Char) {nm : List Char} {n : Nat} (henv : envScan ('e' :: rest) = some (Token.EnvironmentEnd nm, n)) (hlr : letterRun ('e' :: rest) = 3) (hn : 6 ≤ n) : C4At '\\' ('e' :: rest) := by
  have hmt : matchTokenAux '\\' ('e' :: rest) = (Token.EnvironmentEnd nm, n) := by
    unfold matchTokenAux
    rw [if_pos rfl]
    simp [matchBackslash, isEscapable, isSpaceEscape, isLatinLetter]
    unfold matchCommandLike
    rw [henv]
  have hmt1 : (matchTokenAux '\\' ('e' :: rest)).1 = Token.EnvironmentEnd nm := by rw [hmt]
  have hmt2 : (matchTokenAux '\\' ('e' :: rest)).2 = n := by rw [hmt]
  unfold C4At
  rw [hmt1, hmt2]
  constructor
  · intro r
    cases r
    case singleChar ch =>
      have hb := singleChar_le_one ch ('\\' :: 'e' :: rest)
      omega
    case displayMathClose => rw [z2_displayMathClose (by decide)] <;> omega
    case displayMathOpen => rw [z2_displayMathOpen (by decide)] <;> omega
    case inlineMathClose => rw [z2_inlineMathClose (by decide)] <;> omega
    case inlineMathOpen => rw [z2_inlineMathOpen (by decide)] <;> omega
    case doubleBackslash => rw [z2_doubleBackslash (by decide)] <;> omega
    case documentClass => rw [z2_documentClass (by decide)] <;> omega
    case dollarSign => rw [z_dollarSign (by decide)] <;> omega
    case doubleDollarSign => rw [z_doubleDollarSign (by decide)] <;> omega
    case escapedChar => rw [v_escaped0 (by decide)] <;> omega
    case insertSpace => rw [v_insert0 (by decide)] <;> omega
    case newline => rw [z_newline (by decide) (by decide)] <;> omega
    case commandName =>
      rw [v_cmd (by decide), hlr]
      omega
    case comment => rw [z_comment (by decide)] <;> omega
    case envBegin => rw [v_envB0 henv] <;> omega
    case envEnd => rw [v_envE henv] <;> omega
    case invalidCommand => rw [v_invalid0 (by decide)] <;> omega
    case number => rw [z_number (by decide)] <;> omega
    case word => rw [z_word (by decide)] <;> omega
    case tabsOrSpaces => rw [z_tabsOrSpaces (by decide)] <;> omega
  · simp only [tokenRule]
    refine ⟨?_, ?_⟩
    · exact v_envE henv
    · intro r' h'
      cases r'
      case singleChar ch =>
        have hb := singleChar_le_one ch ('\\' :: 'e' :: rest)
        simp only [priority]
        omega
      case displayMathClose =>
        rw [z2_displayMathClose (by decide)] at h'
        simp only [priority]
        omega
      case displayMathOpen =>
        rw [z2_displayMathOpen (by decide)] at h'
        simp only [priority]
        omega
      case inlineMathClose =>
        rw [z2_inlineMathClose (by decide)] at h'
        simp only [priority]
        omega
      case inlineMathOpen =>
        rw [z2_inlineMathOpen (by decide)] at h'
        simp only [priority]
        omega
      case doubleBackslash =>
        rw [z2_doubleBackslash (by decide)] at h'
        simp only [priority]
        omega
      case documentClass =>
        rw [z2_documentClass (by decide)] at h'
        simp only [priority]
        omega
      case dollarSign =>
        rw [z_dollarSign (by decide)] at h'
        simp only [priority]
        omega
      case doubleDollarSign =>
        rw [z_doubleDollarSign (by decide)] at h'
        simp only [priority]
        omega
      case escapedChar =>
        rw [v_escaped0 (by decide)] at h'
        simp only [priority]
        omega
      case insertSpace =>
        rw [v_insert0 (by decide)] at h'
        simp only [priority]
        omega
      case newline =>
        rw [z_newline (by decide) (by decide)] at h'
        simp only [priority]
        omega
      case commandName =>
        rw [v_cmd (by decide), hlr] at h'
        simp only [priority]
        omega
      case comment =>
        rw [z_comment (by decide)] at h'
        simp only [priority]
        omega
      case envBegin =>
        rw [v_envB0 henv] at h'
        simp only [priority]
        omega
      case envEnd =>
        simp only [priority]
        omega
      case invalidCommand =>
        rw [v_invalid0 (by decide)] at h'
        simp only [priority]
        omega
      case number =>
        rw [z_number (by decide)] at h'
        simp only [priority]
        omega
      case word =>
        rw [z_word (by decide)] at h'
        simp only [priority]
        omega
      case tabsOrSpaces =>
        rw [z_tabsOrSpaces (by decide)] at h'
        simp only [priority]
        omega

theorem c4_bs_env {d : Char} {ds : List Char} {t : Token} {n : Nat}
    (henv : envScan (d :: ds) = some (t, n)) : C4At '\\' (d :: ds) := by
  rcases envScan_split henv with ⟨⟨nm, rest, ht, heq⟩, hlr, hn⟩ |
    ⟨⟨nm, rest, ht, heq⟩, hlr, hn⟩
  · subst ht
    injection heq with h1 h2
    subst h1
    subst h2
    exact c4_bs_env_begin _ henv hlr hn
  · subst ht
    injection heq with h1 h2
    subst h1
    subst h2
    exact c4_bs_env_end _ henv hlr hn
theorem c4_bs_doc {d : Char} {ds : List Char} (hlet : isLatinLetter d = true) (henv : envScan (d :: ds) = none) (hpre : "documentclass".toList.isPrefixOf (d :: ds) = true) (hrun : letterRun (d :: ds) = 13) : C4At '\\' (d :: ds) := by
  obtain ⟨rest, hrest⟩ := List.isPrefixOf_iff_prefix.mp hpre
  have hrest2 : 'd' :: ("ocumentclass".toList ++ rest) = d :: ds := hrest
  injection hrest2 with h1 h2
  subst h1
  have hmt : matchTokenAux '\\' ('d' :: ds) = (Token.DocumentClass, 14) := by
    unfold matchTokenAux
    rw [if_pos rfl]
    simp [matchBackslash, isEscapable, isSpaceEscape, isLatinLetter]
    unfold matchCommandLike
    rw [henv]
    show (if ("documentclass".toList.isPrefixOf ('d' :: ds) && letterRun ('d' :: ds) = 13) then (Token.DocumentClass, 14) else (Token.CommandName, 1 + letterRun ('d' :: ds))) = (Token.DocumentClass, 14)
    rw [if_pos (by rw [hpre, hrun]; decide)]
  have hmt1 : (matchTokenAux '\\' ('d' :: ds)).1 = Token.DocumentClass := by rw [hmt]
  have hmt2 : (matchTokenAux '\\' ('d' :: ds)).2 = 14 := by rw [hmt]
  unfold C4At
  rw [hmt1, hmt2]
  constructor
  · intro r
    cases r
    case singleChar ch =>
      have hb := singleChar_le_one ch ('\\' :: 'd' :: ds)
      omega
    case displayMathClose => rw [z2_displayMathClose (by decide)] <;> omega
    case displayMathOpen => rw [z2_displayMathOpen (by decide)] <;> omega
    case inlineMathClose => rw [z2_inlineMathClose (by decide)] <;> omega
    case inlineMathOpen => rw [z2_inlineMathOpen (by decide)] <;> omega
    case doubleBackslash => rw [z2_doubleBackslash (by decide)] <;> omega
    case documentClass => rw [v_docClass hpre] <;> omega
    case dollarSign => rw [z_dollarSign (by decide)] <;> omega
    case doubleDollarSign => rw [z_doubleDollarSign (by decide)] <;> omega
    case escapedChar => rw [v_escaped0 (by decide)] <;> omega
    case insertSpace => rw [v_insert0 (by decide)] <;> omega
    case newline => rw [z_newline (by decide) (by decide)] <;> omega
    case commandName =>
      rw [v_cmd (by decide), hrun] <;> omega
    case comment => rw [z_comment (by decide)] <;> omega
    case envBegin => rw [z_envBegin_scan henv] <;> omega
    case envEnd => rw [z_envEnd_scan henv] <;> omega
    case invalidCommand => rw [v_invalid0 (by decide)] <;> omega
    case number => rw [z_number (by decide)] <;> omega
    case word => rw [z_word (by decide)] <;> omega
    case tabsOrSpaces => rw [z_tabsOrSpaces (by decide)] <;> omega
  · simp only [tokenRule]
    refine ⟨?_, ?_⟩
    · exact v_docClass hpre
    · intro r' h'
      cases r'
      case singleChar ch =>
        have hb := singleChar_le_one ch ('\\' :: 'd' :: ds)
        simp only [priority]
        omega
      case displayMathClose =>
        rw [z2_displayMathClose (by decide)] at h'
        simp only [priority]
        omega
      case displayMathOpen =>
        rw [z2_displayMathOpen (by decide)] at h'
        simp only [priority]
        omega
      case inlineMathClose =>
        rw [z2_inlineMathClose (by decide)] at h'
        simp only [priority]
        omega
      case inlineMathOpen =>
        rw [z2_inlineMathOpen (by decide)] at h'
        simp only [priority]
        omega
      case doubleBackslash =>
        rw [z2_doubleBackslash (by decide)] at h'
        simp only [priority]
        omega
      case documentClass =>
        simp only [priority]
        omega
      case dollarSign =>
        rw [z_dollarSign (by decide)] at h'
        simp only [priority]
        omega
      case doubleDollarSign =>
        rw [z_doubleDollarSign (by decide)] at h'
        simp only [priority]
        omega
      case escapedChar =>
        rw [v_escaped0 (by decide)] at h'
        simp only [priority]
        omega
      case insertSpace =>
        rw [v_insert0 (by decide)] at h'
        simp only [priority]
        omega
      case newline =>
        rw [z_newline (by decide) (by decide)] at h'
        simp only [priority]
        omega
      case commandName =>
        rw [v_cmd (by decide), hrun] at h'
        simp only [priority]
        omega
      case comment =>
        rw [z_comment (by decide)] at h'
        simp only [priority]
        omega
      case envBegin =>
        rw [z_envBegin_scan henv] at h'
        simp only [priority]
        omega
      case envEnd =>
        rw [z_envEnd_scan henv] at h'
        simp only [priority]
        omega
      case invalidCommand =>
        rw [v_invalid0 (by decide)] at h'
        simp only [priority]
        omega
      case number =>
        rw [z_number (by decide)] at h'
        simp only [priority]
        omega
      case word =>
        rw [z_word (by decide)] at h'
        simp only [priority]
        omega
      case tabsOrSpaces =>
        rw [z_tabsOrSpaces (by decide)] at h'
        simp only [priority]
        omega

theorem c4_bs_cmd {d : Char} {ds : List Char} (hlet : isLatinLetter d = true) (henv : envScan (d :: ds) = none) (hdoc : ("documentclass".toList.isPrefixOf (d :: ds) && decide (letterRun (d :: ds) = 13)) = false) : C4At '\\' (d :: ds) := by
  have hRp := letterRun_pos ds hlet
  have hmt : matchTokenAux '\\' (d :: ds) = (Token.CommandName, (1 + letterRun (d :: ds))) := by
    unfold matchTokenAux
    rw [if_pos rfl]
    simp only [matchBackslash]
    rw [if_neg (letter_ne hlet (by decide)), if_neg (by simp [letter_not_escapable hlet]), if_neg (by simp [letter_not_spaceEscape hlet]), if_neg (letter_ne hlet (by decide)), if_neg (letter_ne hlet (by decide)), if_neg (letter_ne hlet (by decide)), if_neg (letter_ne hlet (by decide)), if_pos hlet]
    unfold matchCommandLike
    rw [henv]
    show (if ("documentclass".toList.isPrefixOf (d :: ds) && letterRun (d :: ds) = 13) then (Token.DocumentClass, 14) else (Token.CommandName, 1 + letterRun (d :: ds))) = (Token.CommandName, 1 + letterRun (d :: ds))
    rw [if_neg (by intro hc; rw [hdoc] at hc; exact Bool.false_ne_true hc)]
  have hmt1 : (matchTokenAux '\\' (d :: ds)).1 = Token.CommandName := by rw [hmt]
  have hmt2 : (matchTokenAux '\\' (d :: ds)).2 = (1 + letterRun (d :: ds)) := by rw [hmt]
  unfold C4At
  rw [hmt1, hmt2]
  constructor
  · intro r
    cases r
    case singleChar ch =>
      have hb := singleChar_le_one ch ('\\' :: d :: ds)
      omega
    case displayMathClose => rw [z2_displayMathClose (fun he => (letter_ne hlet (by decide)) he.symm)] <;> omega
    case displayMathOpen => rw [z2_displayMathOpen (fun he => (letter_ne hlet (by decide)) he.symm)] <;> omega
    case inlineMathClose => rw [z2_inlineMathClose (fun he => (letter_ne hlet (by decide)) he.symm)] <;> omega
    case inlineMathOpen => rw [z2_inlineMathOpen (fun he => (letter_ne hlet (by decide)) he.symm)] <;> omega
    case doubleBackslash => rw [z2_doubleBackslash (fun he => (letter_ne hlet (by decide)) he.symm)] <;> omega
    case documentClass =>
      cases hp : "documentclass".toList.isPrefixOf (d :: ds) with
      | false =>
        rw [v_docClass0 hp] <;> omega
      | true =>
        have h13 : 13 ≤ letterRun (d :: ds) := by
          have hle := prefix_letters_le _ _ hp (by decide)
          simpa using hle
        have hne13 : ¬letterRun (d :: ds) = 13 := by
          intro heq13
          rw [hp, heq13] at hdoc
          simp at hdoc
        rw [v_docClass hp]
        omega
    case dollarSign => rw [z_dollarSign (by decide)] <;> omega
    case doubleDollarSign => rw [z_doubleDollarSign (by decide)] <;> omega
    case escapedChar => rw [v_escaped0 (letter_not_escapable hlet)] <;> omega
    case insertSpace => rw [v_insert0 (letter_not_spaceEscape hlet)] <;> omega
    case newline => rw [z_newline (by decide) (by decide)] <;> omega
    case commandName => rw [v_cmd hlet] <;> omega
    case comment => rw [z_comment (by decide)] <;> omega
    case envBegin => rw [z_envBegin_scan henv] <;> omega
    case envEnd => rw [z_envEnd_scan henv] <;> omega
    case invalidCommand => rw [v_invalid0 hlet] <;> omega
    case number => rw [z_number (by decide)] <;> omega
    case word => rw [z_word (by decide)] <;> omega
    case tabsOrSpaces => rw [z_tabsOrSpaces (by decide)] <;> omega
  · simp only [tokenRule]
    refine ⟨?_, ?_⟩
    · exact v_cmd hlet
    · intro r' h'
      cases r'
      case singleChar ch =>
        have hb := singleChar_le_one ch ('\\' :: d :: ds)
        simp only [priority]
        omega
      case displayMathClose =>
        rw [z2_displayMathClose (fun he => (letter_ne hlet (by decide)) he.symm)] at h'
        simp only [priority]
        omega
      case displayMathOpen =>
        rw [z2_displayMathOpen (fun he => (letter_ne hlet (by decide)) he.symm)] at h'
        simp only [priority]
        omega
      case inlineMathClose =>
        rw [z2_inlineMathClose (fun he => (letter_ne hlet (by decide)) he.symm)] at h'
        simp only [priority]
        omega
      case inlineMathOpen =>
        rw [z2_inlineMathOpen (fun he => (letter_ne hlet (by decide)) he.symm)] at h'
        simp only [priority]
        omega
      case doubleBackslash =>
        rw [z2_doubleBackslash (fun he => (letter_ne hlet (by decide)) he.symm)] at h'
        simp only [priority]
        omega
      case documentClass =>
        cases hp : "documentclass".toList.isPrefixOf (d :: ds) with
        | false =>
          rw [v_docClass0 hp] at h'
          simp only [priority]
          omega
        | true =>
          have hne13 : ¬letterRun (d :: ds) = 13 := by
            intro heq13
            rw [hp, heq13] at hdoc
            simp at hdoc
          rw [v_docClass hp] at h'
          simp only [priority]
          omega
      case dollarSign =>
        rw [z_dollarSign (by decide)] at h'
        simp only [priority]
        omega
      case doubleDollarSign =>
        rw [z_doubleDollarSign (by decide)] at h'
        simp only [priority]
        omega
      case escapedChar =>
        rw [v_escaped0 (letter_not_escapable hlet)] at h'
        simp only [priority]
        omega
      case insertSpace =>
        rw [v_insert0 (letter_not_spaceEscape hlet)] at h'
        simp only [priority]
        omega
      case newline =>
        rw [z_newline (by decide) (by decide)] at h'
        simp only [priority]
        omega
      case commandName =>
        simp only [priority]
        omega
      case comment =>
        rw [z_comment (by decide)] at h'
        simp only [priority]
        omega
      case envBegin =>
        rw [z_envBegin_scan henv] at h'
        simp only [priority]
        omega
      case envEnd =>
        rw [z_envEnd_scan henv] at h'
        simp only [priority]
        omega
      case invalidCommand =>
        rw [v_invalid0 hlet] at h'
        simp only [priority]
        omega
      case number =>
        rw [z_number (by decide)] at h'
        simp only [priority]
        omega
      case word =>
        rw [z_word (by decide)] at h'
        simp only [priority]
        omega
      case tabsOrSpaces =>
        rw [z_tabsOrSpaces (by decide)] at h'
        simp only [priority]
        omega

theorem c4_all (c : Char) (cs : List Char) : C4At c cs := by
  by_cases h1 : c = '\\'
  · subst h1
    cases cs with
    | nil => exact c4_bs_nil
    | cons d ds =>
      by_cases h2 : d = '\\'
      · subst h2
        exact c4_bs_dbs ds
      · cases h3 : isEscapable d with
        | true => exact c4_bs_esc ds h3
        | false =>
          cases h4 : isSpaceEscape d with
          | true => exact c4_bs_ins ds h4
          | false =>
            by_cases h5 : d = '['
            · subst h5
              exact c4_bs_dmo ds
            · by_cases h6 : d = ']'
              · subst h6
                exact c4_bs_dmc ds
              · by_cases h7 : d = '('
                · subst h7
                  exact c4_bs_imo ds
                · by_cases h8 : d = ')'
                  · subst h8
                    exact c4_bs_imc ds
                  · cases h9 : isLatinLetter d with
                    | false => exact c4_bs_inv ds h2 h3 h4 h5 h6 h7 h8 h9
                    | true =>
                      cases henv : envScan (d :: ds) with
                      | some p =>
                        cases p with
                        | mk t n => exact c4_bs_env henv
                      | none =>
                        cases hdoc : ("documentclass".toList.isPrefixOf (d :: ds) && decide (letterRun (d :: ds) = 13)) with
                        | true =>
                          simp only [Bool.and_eq_true, decide_eq_true_eq] at hdoc
                          exact c4_bs_doc h9 henv hdoc.1 hdoc.2
                        | false => exact c4_bs_cmd h9 henv hdoc
  · by_cases h2 : c = '$'
    · subst h2
      cases cs with
      | nil => exact c4_dollar1 [] (by simp)
      | cons d ds =>
        by_cases hdl : d = '$'
        · subst hdl
          exact c4_dollar2 ds
        · exact c4_dollar1 (d :: ds) (by simp [hdl])
    · by_cases h3 : c = '%'
      · subst h3
        exact c4_percent cs
      · by_cases h4 : c = '\n'
        · subst h4
          exact c4_nl cs
        · by_cases h5 : c = '\r'
          · subst h5
            by_cases hcr : cs.head? = some '\n'
            · cases cs with
              | nil => simp at hcr
              | cons d ds =>
                simp only [List.head?_cons, Option.some.injEq] at hcr
                subst hcr
                exact c4_cr2 ds
            · exact c4_cr1 cs hcr
          · cases h6 : isTabOrSpace c with
            | true => exact c4_tab cs h6
            | false =>
              cases h7 : isAsciiDigit c with
              | true => exact c4_digit cs h7
              | false =>
                cases h8 : isLatinLetter c with
                | true => exact c4_letter cs h8
                | false =>
                  cases hv : isSingleLitChar c with
                  | true => exact c4_single cs hv
                  | false => exact c4_fallback cs h1 h2 h3 h4 h5 h6 h7 h8 hv

/-- C4: at every position of the input the tokenizer selects the longest
matching rule (`C4At`: every declared rule matches at most as many characters
as the emitted lexeme, the emitted token's rule matches exactly that length,
and any other rule matching the same length has lower or equal declared
priority; when no rule matches, the one-character fallback `Other` is
emitted); in particular the input `$$` lexes as a single `DoubleDollarSign`
token rather than two `DollarSign` tokens, and `\documentclass` lexes as the
`DocumentClass` token rather than a generic `CommandName` token. -/
theorem tokenizer_longest_match_priority :
    (∀ (c : Char) (cs : List Char), C4At c cs) ∧
    tokenize "$$".toList = [(Token.DoubleDollarSign, ⟨0, 2⟩)] ∧
    tokenize "\\documentclass".toList = [(Token.DocumentClass, ⟨0, 14⟩)] :=
  ⟨c4_all, rfl, rfl⟩

/-- Witness for C4: the tie-breaking clause applied at the concrete input
`\documentclass`, whose emitted lexeme length 14 is also matched by the
generic `CommandName` rule, which must therefore have lower or equal
priority than the chosen `DocumentClass` rule. -/
theorem tokenizer_longest_match_priority_witness :
    ruleLen Rule.commandName ('\\' :: "documentclass".toList) =
      (matchTokenAux '\\' "documentclass".toList).2 ∧
    priority Rule.commandName ≤ priority Rule.documentClass := by
  have h := (tokenizer_longest_match_priority.1 '\\' "documentclass".toList).2
  have h2 : ruleLen Rule.documentClass ('\\' :: "documentclass".toList) =
      (matchTokenAux '\\' "documentclass".toList).2 ∧
      ∀ r' : Rule, ruleLen r' ('\\' :: "documentclass".toList) =
        (matchTokenAux '\\' "documentclass".toList).2 →
        priority r' ≤ priority Rule.documentClass := h
  exact ⟨by decide, h2.2 Rule.commandName (by decide)⟩

end Untex
